import Mathlib

/-!
WasmSentinel: rule invocation, detection results and sinks.

A shallow embedding of the host runtime of WasmSentinel
(`host/internal/events`, `host/internal/engine/simple_engine.go`,
`host/internal/output/output.go`, the fan-in step of `host/cmd/main.go`, the
address parsing of `host/internal/collector/collector.go`)
together with the properties of its documented behaviour that hold, or fail, on
the code.

Conventions of the embedding.

* Go `int32` values are `Int`; a narrowing conversion `int32(x)` is `toInt32 x`.
  Go `int` values (slice lengths, HTTP status codes, batch sizes) are `Nat` or
  `Int`: the code performs no arithmetic on them that could leave the 64-bit range.
* A byte slice is a `List Byte`; slicing and `copy` follow the Go semantics
  (`sliceFrom` is the bounds-checked `s[lo:]`, `copy` moves `min` many elements).
* A Go `error` is `Option`/`Except` over an inductive type of the error sites.
* The sandbox library (wasmtime) and the JSON and HTTP libraries are external:
  a compiled module is described by what instantiating it yields, the JSON
  encoder of the engine and the sinks is a parameter, and an HTTP exchange is
  described by its outcome.
* For the round trip of an event the library `encoding/json` is described on
  the document a JSON text spells: which document `json.Marshal` writes for a
  Go value, and which Go value `json.Unmarshal` stores for a document. A string
  is valid UTF-8 text, and a timestamp is a time in UTC, taken as an instant.
* A `float64` is the rational number it stands for; `float64(k) / 10.0` is the
  quotient of binary64 arithmetic, rounded to nearest and to even on a tie.
* A Go map is the list of its entries in the order an iteration visits them;
  an assignment replaces the entry of its key and puts it last.
* A Go string is a `String`, cut at character positions; the library functions
  `filepath.Ext` and `filepath.Base` follow the Go standard library for the
  separator `/`, and `%d` prints an integer in decimal.
* A `select` statement takes one of the communications that can proceed, the
  choice among several being a parameter, or its default clause when none can.
-/

namespace WasmSentinel

/-! ## events/events.go -/

/-- A byte of a serialized event or of guest linear memory. -/
abbrev Byte := Nat

/-- The Go type `EventType`, a string. -/
abbrev EventType := String

def EventTypeProcess : EventType := "process"
def EventTypeNetwork : EventType := "network"
def EventTypeFile : EventType := "file"

/-- The record `ProcessInfo`. -/
structure ProcessInfo where
  PID : Int
  PPID : Int
  Name : String
  Executable : String
  CommandLine : String
  User : String
  Group : String
  deriving DecidableEq, Repr

/-- The record `NetworkInfo`. -/
structure NetworkInfo where
  Protocol : String
  SourceIP : String
  SourcePort : Int
  DestIP : String
  DestPort : Int
  Direction : String
  DataSize : Int
  ProcessName : String
  deriving DecidableEq, Repr

/-- The record `FileInfo`. -/
structure FileInfo where
  Path : String
  Operation : String
  Permissions : String
  ProcessName : String
  User : String
  deriving DecidableEq, Repr

/-- A value stored in the attribute bag `map[string]interface{}` of an event.
An integer is of a Go integer type; a float is kept as its IEEE-754 binary64
bit pattern; `null` is a nil interface value, `array` a `[]interface{}` and
`bag` a `map[string]interface{}`, neither of the two nil. -/
inductive Value where
  | str (s : String)
  | int (n : Int)
  | float (bits : Nat)
  | bool (b : Bool)
  | bag (fields : List (String × Value))
  | null
  | array (items : List Value)
  | process (p : ProcessInfo)
  | network (n : NetworkInfo)
  | file (f : FileInfo)

/-- The record `Event`. The field `Kind` is the Go field `Type`; the timestamp
is an instant, in nanoseconds since 1970-01-01T00:00:00Z and read in UTC. -/
structure Event where
  ID : String
  Kind : EventType
  Timestamp : Int
  Source : String
  Data : List (String × Value)

/-- The record `DetectionResult`. `Confidence` is the `float64`, as the rational
number it is; `Metadata` is `none` for a nil map. -/
structure DetectionResult where
  RuleName : String
  Severity : String
  Threat : Bool
  Confidence : ℚ
  Description : String
  Event : Event
  Metadata : Option (List (String × Value))

/-- The method `Event.ToJSON`: `json.Marshal(e)`, the encoder being the library's.
The type `τ` carries the JSON text: the bytes for the engine, which measures and
copies them, and the document the text spells for the codec. -/
def Event.ToJSON {τ : Type} (marshal : Event → Except String τ) (e : Event) :
    Except String τ :=
  marshal e

/-! ## Binary64 arithmetic -/

/-- The loop of `bitLen`: the digits of `n` are counted by halving it, `fuel`
bounding the number of rounds. -/
def bitLenLoop : Nat → Nat → Nat
  | 0, _ => 0
  | fuel + 1, n => if n = 0 then 0 else bitLenLoop fuel (n / 2) + 1

/-- The number of binary digits of `n`. -/
def bitLen (n : Nat) : Nat := bitLenLoop n n

/-- The integer nearest to `n / d`, the even one of the two on a tie. -/
def roundHalfEven (n d : Nat) : Nat :=
  if 2 * (n % d) < d then n / d
  else if d < 2 * (n % d) then n / d + 1
  else if n / d % 2 = 0 then n / d
  else n / d + 1

/-- The binary exponent of the positive fraction `n / d`: the `f` with
`2 ^ f ≤ n / d < 2 ^ (f + 1)`. -/
def floorLog2 (n d : Nat) : Int :=
  if d * 2 ^ bitLen n ≤ n * 2 ^ bitLen d then (bitLen n : Int) - bitLen d
  else (bitLen n : Int) - bitLen d - 1

/-- The exponent of the unit in the last place of the binary64 values next to
`n / d`: 52 places below the leading digit, and `-1074` for the subnormal
numbers below `2 ^ (-1022)`. -/
def ulpExp (n d : Nat) : Int := max (floorLog2 n d) (-1022) - 52

/-- The fraction `n / d` counted in units of the last place and rounded to the
nearest integer, the even one on a tie. -/
def significand (n d : Nat) : Nat :=
  if 0 ≤ ulpExp n d then roundHalfEven n (d * 2 ^ (ulpExp n d).toNat)
  else roundHalfEven (n * 2 ^ (- ulpExp n d).toNat) d

/-- The rounding of IEEE-754 binary64 arithmetic, to nearest and to even on a
tie: the binary64 value a result `q` is stored as, given as the rational number
it is. It stands for results of a size below `2 ^ 1024`, where binary64
arithmetic does not overflow. -/
def roundBinary64 (q : ℚ) : ℚ :=
  if q = 0 then 0
  else if 0 < q then (significand q.num.natAbs q.den : ℚ) * 2 ^ ulpExp q.num.natAbs q.den
  else -((significand q.num.natAbs q.den : ℚ) * 2 ^ ulpExp q.num.natAbs q.den)

/-- The Go conversion `float64(n)` of an integer. -/
def float64OfInt (n : Int) : ℚ := roundBinary64 n

/-- The Go quotient `a / b` of two `float64` values, `b` not zero. -/
def float64Div (a b : ℚ) : ℚ := roundBinary64 (a / b)

/-! ## engine/simple_engine.go -/

/-- The Go conversion `int32(n)`: reduction to the signed 32-bit range. -/
def toInt32 (n : Int) : Int :=
  (n + 2147483648) % 4294967296 - 2147483648

/-- The method `SimpleEngine.getSeverityLevel`. -/
def getSeverityLevel (level : Int) : String :=
  if level ≥ 8 then "critical"
  else if level ≥ 6 then "high"
  else if level ≥ 4 then "medium"
  else if level ≥ 2 then "low"
  else "info"

/-- What `detectFn.Call` hands back: an error (trap, signature mismatch), a nil
result, an `int32`, a `*wasmtime.Val` holding an i32, or a value of another
dynamic type. -/
inductive CallResult where
  | err (msg : String)
  | nil
  | int32 (v : Int)
  | val (v : Int)
  | other

/-- An exported item of a module instance. A function is given by what a call
does on the current linear memory with two i32 arguments; a memory by its
contents (`UnsafeData`). -/
inductive Extern where
  | func (f : List Byte → Int → Int → CallResult)
  | memory (data : List Byte)
  | global
  | table

/-- A module instance in its fresh store: its exports by name. -/
structure Instance where
  exports : List (String × Extern)

/-- The call `instance.GetExport(store, name)`; `none` is nil. -/
def Instance.GetExport (inst : Instance) (name : String) : Option Extern :=
  (inst.exports.find? (fun p => p.1 == name)).map Prod.snd

/-- The call `instance.GetFunc(store, name)`: the export when it is a function. -/
def Instance.GetFunc (inst : Instance) (name : String) :
    Option (List Byte → Int → Int → CallResult) :=
  match inst.GetExport name with
  | some (Extern.func f) => some f
  | _ => none

/-- The call `extern.Memory()`: the memory when the export is one. -/
def Extern.Memory : Extern → Option (List Byte)
  | Extern.memory data => some data
  | _ => none

/-- A compiled module, described by what `linker.Instantiate` yields on a fresh store. -/
structure Module where
  instantiate : Except String Instance

/-- The sandbox engine shared by the rules: whether `linker.DefineWasi` fails. -/
structure WasmtimeEngine where
  defineWasi : Option String

/-- The record `SimpleWasmRule`. -/
structure SimpleWasmRule where
  Name : String
  Module : Module
  Engine : WasmtimeEngine

/-- The record `SimpleEngine`: the map from rule name to rule, as the list of its
entries in the order an iteration visits them. -/
structure SimpleEngine where
  engine : WasmtimeEngine
  rules : List (String × SimpleWasmRule)

/-- The error returns of `runSimpleRule`, one per `fmt.Errorf` site, and the
run-time fault of an out-of-range slice expression. -/
inductive RuleError where
  | defineWasi (cause : String)
  | instantiate (rule : String) (cause : String)
  | noDetectExport (rule : String)
  | noMemoryExport (rule : String)
  | notAMemory (rule : String)
  | insufficientMemory (rule : String)
  | callFailed (rule : String) (cause : String)
  | noResult (rule : String)
  | unexpectedResultType (rule : String)
  | sliceOutOfRange
  deriving DecidableEq, Repr

/-- The Go slice expression `s[lo:]`; `none` is the out-of-range fault. -/
def sliceFrom (s : List Byte) (lo : Nat) : Option (List Byte) :=
  if lo ≤ s.length then some (s.drop lo) else none

/-- The Go builtin `copy(dst, src)`: the contents of `dst` afterwards. It moves
`min (len dst) (len src)` elements. -/
def copy (dst src : List Byte) : List Byte :=
  src.take (min dst.length src.length) ++ dst.drop (min dst.length src.length)

/-- One run of `runSimpleRule`: what it returns, the linear memory as the host
left it after its write (when it wrote), the arguments of every call of `detect`
it made, and the threat level it read (when it read one). -/
structure Run where
  result : Except RuleError (Option DetectionResult)
  written : Option (List Byte)
  calls : List (Int × Int)
  level : Option Int

/-- A run that returns an error before anything was written or called. -/
def Run.fail (e : RuleError) : Run :=
  { result := Except.error e, written := none, calls := [], level := none }

/-- The detection a run surfaces: the result it returns when it returns one. -/
def Run.surfaced (r : Run) : Option DetectionResult :=
  match r.result with
  | Except.ok (some d) => some d
  | _ => none

/-- The tail of `runSimpleRule` from the test `threatLevel > 0` on. -/
def Run.ofLevel (rule : SimpleWasmRule) (event : Event) (mem : List Byte)
    (dataPtr dataLen threatLevel : Int) : Run :=
  { result :=
      if threatLevel > 0 then
        Except.ok (some
          { RuleName := rule.Name
            Severity := getSeverityLevel threatLevel
            Threat := true
            Confidence := float64Div (float64OfInt threatLevel) 10
            Description := "Threat detected by rule " ++ rule.Name
            Event := event
            Metadata := none })
      else Except.ok none
    written := some mem
    calls := [(dataPtr, dataLen)]
    level := some threatLevel }

/-- The part of `runSimpleRule` after `detectFn.Call`, on what the call handed back. -/
def Run.ofCall (rule : SimpleWasmRule) (event : Event) (mem : List Byte)
    (dataPtr dataLen : Int) : CallResult → Run
  | CallResult.err cause =>
    { result := Except.error (RuleError.callFailed rule.Name cause)
      written := some mem, calls := [(dataPtr, dataLen)], level := none }
  | CallResult.nil =>
    { result := Except.error (RuleError.noResult rule.Name)
      written := some mem, calls := [(dataPtr, dataLen)], level := none }
  | CallResult.int32 threatLevel =>
    Run.ofLevel rule event mem dataPtr dataLen threatLevel
  | CallResult.val v =>
    Run.ofLevel rule event mem dataPtr dataLen v
  | CallResult.other =>
    { result := Except.error (RuleError.unexpectedResultType rule.Name)
      written := some mem, calls := [(dataPtr, dataLen)], level := none }

/-- The method `SimpleEngine.runSimpleRule`. -/
def runSimpleRule (rule : SimpleWasmRule) (eventData : List Byte) (event : Event) : Run :=
  match rule.Engine.defineWasi with
  | some cause => Run.fail (RuleError.defineWasi cause)
  | none =>
  match rule.Module.instantiate with
  | Except.error cause => Run.fail (RuleError.instantiate rule.Name cause)
  | Except.ok inst =>
  match inst.GetFunc "detect" with
  | none => Run.fail (RuleError.noDetectExport rule.Name)
  | some detectFn =>
  match inst.GetExport "memory" with
  | none => Run.fail (RuleError.noMemoryExport rule.Name)
  | some memory =>
  match memory.Memory with
  | none => Run.fail (RuleError.notAMemory rule.Name)
  | some memoryData =>
    let dataPtr : Int := toInt32 1024
    let dataLen : Int := toInt32 eventData.length
    if memoryData.length < dataPtr.toNat + eventData.length then
      Run.fail (RuleError.insufficientMemory rule.Name)
    else
      match sliceFrom memoryData dataPtr.toNat with
      | none => Run.fail RuleError.sliceOutOfRange
      | some dst =>
        let mem := memoryData.take dataPtr.toNat ++ copy dst eventData
        Run.ofCall rule event mem dataPtr dataLen (detectFn mem dataPtr dataLen)

/-- The error return of `DetectThreat`. -/
inductive EngineError where
  | serialize (cause : String)
  deriving DecidableEq, Repr

/-- The loop of `DetectThreat` over the rules, `results` being the slice built so far. -/
def detectLoop (eventData : List Byte) (event : Event) :
    List SimpleWasmRule → List DetectionResult → List DetectionResult
  | [], results => results
  | rule :: rest, results =>
    match (runSimpleRule rule eventData event).result with
    | Except.error _ => detectLoop eventData event rest results
    | Except.ok none => detectLoop eventData event rest results
    | Except.ok (some result) => detectLoop eventData event rest (results ++ [result])

/-- The method `SimpleEngine.DetectThreat`. -/
def DetectThreat (marshal : Event → Except String (List Byte)) (e : SimpleEngine)
    (event : Event) : Except EngineError (List DetectionResult) :=
  match event.ToJSON marshal with
  | Except.error cause => Except.error (EngineError.serialize cause)
  | Except.ok eventData =>
    Except.ok (detectLoop eventData event (e.rules.map Prod.snd) [])

/-- What the specification expects a rule to contribute to `DetectThreat`: one
DetectionResult when its invocation succeeds with a level above 0, and nothing
otherwise. -/
def expectedDetection (eventData : List Byte) (event : Event) (rule : SimpleWasmRule) :
    Option DetectionResult :=
  match (runSimpleRule rule eventData event).level with
  | some k =>
    if k > 0 then
      some
        { RuleName := rule.Name
          Severity := getSeverityLevel k
          Threat := true
          Confidence := float64Div (float64OfInt k) 10
          Description := "Threat detected by rule " ++ rule.Name
          Event := event
          Metadata := none }
    else none
  | none => none

/-! ## output/output.go -/

/-- The record `WebhookOutputHandler` (logger, HTTP client and lock left out). -/
structure WebhookOutputHandler where
  url : String
  headers : List (String × String)
  batchSize : Int
  batch : List DetectionResult

/-- The constructor `NewWebhookOutputHandler`. -/
def NewWebhookOutputHandler (url : String) (headers : List (String × String)) :
    WebhookOutputHandler :=
  { url := url, headers := headers, batchSize := 10, batch := [] }

/-- How the library calls of one `sendBatch` turn out: `json.Marshal` fails,
`http.NewRequest` fails, `client.Do` fails, or the endpoint answers. -/
inductive Exchange where
  | marshalFailed (cause : String)
  | requestFailed (cause : String)
  | transportFailed (cause : String)
  | response (status : Int) (body : String)

/-- The error returns of `sendBatch`, one per `fmt.Errorf` site. -/
inductive WebhookError where
  | marshal (cause : String)
  | request (cause : String)
  | transport (cause : String)
  | rejected (status : Int) (body : String)
  deriving DecidableEq, Repr

/-- A request handed to `client.Do`: the destination and the `alerts` and `count`
entries of the JSON body. -/
structure Post where
  url : String
  alerts : List DetectionResult
  count : Nat

/-- What one call of `Handle`, `sendBatch` or `Close` leaves: the handler, the
error returned, and the request given to the HTTP client if one was. -/
structure Sent where
  handler : WebhookOutputHandler
  err : Option WebhookError
  post : Option Post

/-- The method `WebhookOutputHandler.sendBatch`. -/
def WebhookOutputHandler.sendBatch (w : WebhookOutputHandler) (x : Exchange) : Sent :=
  if w.batch.length = 0 then
    { handler := w, err := none, post := none }
  else
    let req : Post := { url := w.url, alerts := w.batch, count := w.batch.length }
    match x with
    | Exchange.marshalFailed cause =>
      { handler := w, err := some (WebhookError.marshal cause), post := none }
    | Exchange.requestFailed cause =>
      { handler := w, err := some (WebhookError.request cause), post := none }
    | Exchange.transportFailed cause =>
      { handler := w, err := some (WebhookError.transport cause), post := some req }
    | Exchange.response status body =>
      if status < 200 ∨ status ≥ 300 then
        { handler := w, err := some (WebhookError.rejected status body), post := some req }
      else
        { handler := { w with batch := w.batch.take 0 }, err := none, post := some req }

/-- The method `WebhookOutputHandler.Handle`. -/
def WebhookOutputHandler.Handle (w : WebhookOutputHandler) (result : DetectionResult)
    (x : Exchange) : Sent :=
  let w1 := { w with batch := w.batch ++ [result] }
  if (w1.batch.length : Int) ≥ w1.batchSize then
    w1.sendBatch x
  else
    { handler := w1, err := none, post := none }

/-- The method `WebhookOutputHandler.Close`. -/
def WebhookOutputHandler.Close (w : WebhookOutputHandler) (x : Exchange) : Sent :=
  if w.batch.length > 0 then
    w.sendBatch x
  else
    { handler := w, err := none, post := none }

/-- A handler together with the requests its calls gave to the HTTP client so
far, oldest first, each with the error its `sendBatch` returned. -/
structure WebhookLog where
  handler : WebhookOutputHandler
  posts : List (Post × Option WebhookError)

/-- Appends what one call left to the log. -/
def WebhookLog.record (log : WebhookLog) (s : Sent) : WebhookLog :=
  { handler := s.handler
    posts := match s.post with
      | some p => log.posts ++ [(p, s.err)]
      | none => log.posts }

/-- A sequence of `Handle` calls, each with the exchange it meets if it flushes. -/
def handleAll (log : WebhookLog) : List (DetectionResult × Exchange) → WebhookLog
  | [] => log
  | (result, x) :: rest => handleAll (log.record (log.handler.Handle result x)) rest

/-- A sequence of `Handle` calls on a handler with an empty log, every flush
meeting the same exchange. -/
def handleEach (w : WebhookOutputHandler) (x : Exchange) (results : List DetectionResult) :
    WebhookLog :=
  handleAll { handler := w, posts := [] } (results.map (fun r => (r, x)))

/-- The alerts of the requests that were flushed successfully, in flush order. -/
def flushed (posts : List (Post × Option WebhookError)) : List DetectionResult :=
  (posts.filter (fun p => p.2.isNone)).flatMap (fun p => p.1.alerts)

/-- An exchange in which the request is transported and the status is in 200..299. -/
def Exchange.accepted : Exchange → Bool
  | Exchange.response status _ => decide (200 ≤ status ∧ status ≤ 299)
  | _ => false

/-- The interface `OutputHandler` seen from the dispatcher: a sink with its
state and what a `Handle` call does to it. -/
structure Sink (σ : Type) where
  state : σ
  Handle : σ → DetectionResult → σ × Option String

/-- What `MultiOutputHandler.Handle` leaves: the sinks, the error returned, and
the positions of the sinks whose `Handle` was called, in call order. -/
structure Dispatch (σ : Type) where
  handlers : List (Sink σ)
  lastErr : Option String
  calls : List Nat

/-- The loop of `MultiOutputHandler.Handle` from position `i` on. -/
def multiHandleLoop {σ : Type} (result : DetectionResult) :
    List (Sink σ) → Nat → Option String → Dispatch σ
  | [], _, lastErr => { handlers := [], lastErr := lastErr, calls := [] }
  | handler :: rest, i, lastErr =>
    let out := handler.Handle handler.state result
    let next := multiHandleLoop result rest (i + 1)
      (match out.2 with
        | some err => some err
        | none => lastErr)
    { handlers := { handler with state := out.1 } :: next.handlers
      lastErr := next.lastErr
      calls := i :: next.calls }

/-- The method `MultiOutputHandler.Handle`. -/
def MultiOutputHandler.Handle {σ : Type} (handlers : List (Sink σ))
    (result : DetectionResult) : Dispatch σ :=
  multiHandleLoop result handlers 0 none

/-! ## engine/simple_engine.go: the registry -/

/-- The Go map assignment `m[k] = v` on the entries of a map: the entry of `k`
is replaced, or added when there was none. -/
def mapSet {α : Type} (m : List (String × α)) (k : String) (v : α) : List (String × α) :=
  m.filter (fun p => p.1 != k) ++ [(k, v)]

/-- The Go builtin `delete(m, k)` on the entries of a map. -/
def mapDelete {α : Type} (m : List (String × α)) (k : String) : List (String × α) :=
  m.filter (fun p => p.1 != k)

/-- The Go map lookup `m[k]` with its presence flag; `none` when `k` has no entry. -/
def mapGet? {α : Type} (m : List (String × α)) (k : String) : Option α :=
  (m.find? (fun p => p.1 == k)).map Prod.snd

/-- The kind of a directory entry, as its `os.FileInfo` tells it. -/
inductive FileKind where
  | regular
  | directory
  | other
  deriving DecidableEq, Repr

/-- One call of the walk callback: the path, the kind of the entry (`info`),
and the error the walk reports for it (`err`). -/
structure WalkEntry where
  path : String
  kind : FileKind
  err : Option String

/-- What `LoadRule` and `LoadRulesFromDir` depend on: `os.ReadFile`,
`wasmtime.NewModule`, and the calls `filepath.Walk` makes of its callback from a
root when the callback never stops it. -/
structure Host where
  readFile : String → Except String (List Byte)
  compile : List Byte → Except String Module
  walk : String → List WalkEntry

/-- The error returns of the registry operations, one per `fmt.Errorf` site, the
error a walk hands to its callback, and the fault of an out-of-range slice. -/
inductive RegistryError where
  | read (path : String) (cause : String)
  | compile (path : String) (cause : String)
  | notFound (name : String)
  | walk (cause : String)
  | sliceOutOfRange
  deriving DecidableEq, Repr

/-- The constructor `NewSimpleEngine`. -/
def NewSimpleEngine (engine : WasmtimeEngine) : SimpleEngine :=
  { engine := engine, rules := [] }

/-- The first half of `LoadRule`: read the file and compile the module. -/
def readAndCompile (host : Host) (wasmPath : String) : Except RegistryError Module :=
  match host.readFile wasmPath with
  | Except.error cause => Except.error (RegistryError.read wasmPath cause)
  | Except.ok wasmBytes =>
    match host.compile wasmBytes with
    | Except.error cause => Except.error (RegistryError.compile wasmPath cause)
    | Except.ok compiled => Except.ok compiled

/-- The method `SimpleEngine.LoadRule`: the engine afterwards and the error returned. -/
def LoadRule (host : Host) (e : SimpleEngine) (name wasmPath : String) :
    SimpleEngine × Option RegistryError :=
  match readAndCompile host wasmPath with
  | Except.error err => (e, some err)
  | Except.ok compiled =>
    let rule : SimpleWasmRule := { Name := name, Module := compiled, Engine := e.engine }
    ({ e with rules := mapSet e.rules name rule }, none)

/-- The method `SimpleEngine.UnloadRule`. -/
def UnloadRule (e : SimpleEngine) (name : String) : SimpleEngine × Option RegistryError :=
  match mapGet? e.rules name with
  | none => (e, some (RegistryError.notFound name))
  | some _ => ({ e with rules := mapDelete e.rules name }, none)

/-- The method `SimpleEngine.GetLoadedRules`: the keys, in iteration order. -/
def GetLoadedRules (e : SimpleEngine) : List String :=
  e.rules.map Prod.fst

/-- The method `SimpleEngine.Close`: every key the iteration meets is deleted. -/
def SimpleEngine.Close (e : SimpleEngine) : SimpleEngine × Option RegistryError :=
  ({ e with rules := (e.rules.map Prod.fst).foldl mapDelete e.rules }, none)

/-- The loop of `filepath.Ext` from the end of the path: `rest` is what lies
before position `i`, last character first, and `acc` is `path[i+1:]`. -/
def extLoop : List Char → List Char → List Char
  | [], _ => []
  | c :: rest, acc =>
    if c = '/' then []
    else if c = '.' then c :: acc
    else extLoop rest (c :: acc)

/-- The library function `filepath.Ext` (separator `/`): the suffix of the last
element of the path from its last dot, or the empty string. -/
def Ext (path : String) : String :=
  String.mk (extLoop path.data.reverse [])

/-- The library function `filepath.Base` (separator `/`): the last element of
the path, trailing separators removed. -/
def Base (path : String) : String :=
  if path.data = [] then "."
  else
    let stripped := path.data.reverse.dropWhile (fun c => c == '/')
    let elem := (stripped.takeWhile (fun c => c != '/')).reverse
    if elem = [] then "/" else String.mk elem

/-- The slice expression `name[:len(name)-5]`; `none` is the out-of-range fault. -/
def dropExtension (name : String) : Option String :=
  if 5 ≤ name.data.length then some (String.mk (name.data.take (name.data.length - 5)))
  else none

/-- What `LoadRulesFromDir` leaves: the engine, the error returned, and the
arguments `(name, path)` of the `LoadRule` calls it made, in order. -/
structure DirLoad where
  engine : SimpleEngine
  err : Option RegistryError
  calls : List (String × String)

/-- The callback of `LoadRulesFromDir` run over the entries of a walk, which
stops at the first error the callback returns. -/
def walkLoad (host : Host) : SimpleEngine → List WalkEntry → DirLoad
  | e, [] => { engine := e, err := none, calls := [] }
  | e, entry :: rest =>
    match entry.err with
    | some cause => { engine := e, err := some (RegistryError.walk cause), calls := [] }
    | none =>
      if Ext entry.path = ".wasm" then
        match dropExtension (Base entry.path) with
        | none => { engine := e, err := some RegistryError.sliceOutOfRange, calls := [] }
        | some name =>
          match LoadRule host e name entry.path with
          | (e1, some err) => { engine := e1, err := some err, calls := [(name, entry.path)] }
          | (e1, none) =>
            let next := walkLoad host e1 rest
            { engine := next.engine, err := next.err
              calls := (name, entry.path) :: next.calls }
      else walkLoad host e rest

/-- The method `SimpleEngine.LoadRulesFromDir`. -/
def LoadRulesFromDir (host : Host) (e : SimpleEngine) (rulesDir : String) : DirLoad :=
  walkLoad host e (host.walk rulesDir)

/-- The entries of a walk on which the callback tests the extension to be `.wasm`. -/
def isWasmEntry (entry : WalkEntry) : Bool :=
  decide (Ext entry.path = ".wasm")

/-- The `LoadRule` calls the specification expects over the entries of a walk:
one per entry whose extension is `.wasm`, under the stem of its base name. -/
def expectedCalls (entries : List WalkEntry) : List (String × String) :=
  entries.filterMap (fun entry =>
    if isWasmEntry entry then
      (dropExtension (Base entry.path)).map (fun name => (name, entry.path))
    else none)

/-! ## output/output.go: the metrics sink -/

/-- The record `PrometheusOutputHandler`: the map from key to 64-bit counter, as
its entries in iteration order. A counter is an integer: it can leave the 64-bit
range only after 2^63 calls of `Handle`. -/
structure PrometheusOutputHandler where
  counters : List (String × Int)

/-- The constructor `NewPrometheusOutputHandler`. -/
def NewPrometheusOutputHandler : PrometheusOutputHandler :=
  { counters := [] }

/-- The Go map read `counters[key]`: zero for a key that has no entry. -/
def counterValue (counters : List (String × Int)) (key : String) : Int :=
  (mapGet? counters key).getD 0

/-- The method `PrometheusOutputHandler.Handle`. -/
def PrometheusOutputHandler.Handle (p : PrometheusOutputHandler) (result : DetectionResult) :
    PrometheusOutputHandler × Option String :=
  let key := result.RuleName ++ "_" ++ result.Severity
  let counters1 := mapSet p.counters key (counterValue p.counters key + 1)
  let counters2 := mapSet counters1 "total_threats" (counterValue counters1 "total_threats" + 1)
  ({ counters := counters2 }, none)

/-- A sequence of `Handle` calls on the metrics sink. -/
def PrometheusOutputHandler.handleAll (p : PrometheusOutputHandler) :
    List DetectionResult → PrometheusOutputHandler
  | [] => p
  | result :: rest => PrometheusOutputHandler.handleAll (p.Handle result).1 rest

/-- The severities of the enum of a DetectionResult, the values of `getSeverityLevel`. -/
def severities : List String :=
  ["info", "low", "medium", "high", "critical"]

/-- The loop of `lastIndex`: `n` positions `n - 1, ..., 0` are left to try. -/
def lastIndexLoop (s sep : List Char) : Nat → Int
  | 0 => -1
  | i + 1 =>
    if (s.drop i).take sep.length = sep then (i : Int)
    else lastIndexLoop s sep i

/-- The function `lastIndex`: the last position at which `sep` occurs in `s`,
or -1. Positions count characters; for text in UTF-8 the parts cut at a match
are the same as with byte positions. -/
def lastIndex (s sep : String) : Int :=
  if sep.data.length ≤ s.data.length then
    lastIndexLoop s.data sep.data (s.data.length - sep.data.length + 1)
  else -1

/-- The function `splitLast`. -/
def splitLast (s sep : String) : List String :=
  let idx := lastIndex s sep
  if idx ≥ 0 then
    [String.mk (s.data.take idx.toNat), String.mk (s.data.drop (idx.toNat + sep.data.length))]
  else [s]

/-- The body of the first loop of `GetMetrics`: the metric appended for one
counter, if one is. -/
def metricOf (key : String) (count : Int) : Option String :=
  if key = "total_threats" then
    some ("wasm_threat_detector_total_threats " ++ toString count)
  else
    match splitLast key "_" with
    | [rule, severity] =>
      some ("wasm_threat_detector_threats\x7brule=\"" ++ rule ++ "\",severity=\"" ++
        severity ++ "\"\x7d " ++ toString count)
    | _ => none

/-- The method `PrometheusOutputHandler.GetMetrics`; `timestamp` is
`time.Now().Unix()`. -/
def PrometheusOutputHandler.GetMetrics (p : PrometheusOutputHandler) (timestamp : Int) :
    String :=
  let metrics := p.counters.filterMap (fun kv => metricOf kv.1 kv.2)
  metrics.foldl (fun result metric => result ++ (metric ++ " " ++ toString timestamp ++ "\n")) ""

/-! ## events/events.go: the JSON codec -/

/-- Whether a binary64 bit pattern is a finite number: its exponent field is not
all ones. -/
def isFiniteBits (bits : Nat) : Bool :=
  bits / 2 ^ 52 % 2048 != 2047

/-- The text `strconv.FormatFloat(f, 'g', -1, 64)` of a binary64 value that is
not finite. -/
def unsupportedText (bits : Nat) : String :=
  if bits % 2 ^ 52 ≠ 0 then "NaN"
  else if bits / 2 ^ 63 % 2 = 1 then "-Inf"
  else "+Inf"

/-- The bit pattern of the Go conversion `float64(n)` of an integer, the
binary64 value nearest to it: the sign, the exponent with its bias of 1023 and
the 52 digits of the significand after the leading one. A size from `2 ^ 1024`
on, which no Go integer has, gives the pattern of an infinity. -/
def float64BitsOfInt (n : Int) : Nat :=
  if n = 0 then 0
  else
    let carry : Bool := significand n.natAbs 1 = 2 ^ 53
    let m : Nat := if carry then 2 ^ 52 else significand n.natAbs 1
    let e : Int := if carry then ulpExp n.natAbs 1 + 1 else ulpExp n.natAbs 1
    let sign : Nat := if n < 0 then 2 ^ 63 else 0
    if e + 1075 ≥ 2047 then sign + 2047 * 2 ^ 52
    else sign + (e + 1075).toNat * 2 ^ 52 + (m - 2 ^ 52)

/-- A number of a JSON text, by what `json.Marshal` wrote it from: the decimal
digits of an integer, or the digits `strconv` writes for a finite binary64
value, the shortest that `strconv.ParseFloat` reads back as that value. -/
inductive NumberLit where
  | int (n : Int)
  | float (bits : Nat)
  deriving DecidableEq, Repr

/-- The library function `strconv.ParseFloat(s, 64)` on a number of a JSON text:
the bit pattern of the binary64 value it returns. -/
def NumberLit.ParseFloat : NumberLit → Nat
  | NumberLit.int n => float64BitsOfInt n
  | NumberLit.float bits => bits

/-- A JSON text, by the document it spells: `null`, a boolean, a number, a
string, an array, or an object with its members in the order of the text. -/
inductive Json where
  | null
  | bool (b : Bool)
  | number (lit : NumberLit)
  | string (s : String)
  | array (items : List Json)
  | object (members : List (String × Json))

/-- The JSON text `json.Marshal` writes for an `Event`, by the document it
spells: the object with the members `id`, `type`, `timestamp`, `source` and
`data`. The member `timestamp` is a string in the format of RFC 3339, given by
the instant it spells; the member `data` is an object, given by its members (for
a nil map it is `null`, which is read back as the nil map). -/
structure EventDoc where
  id : String
  kind : String
  timestamp : Int
  source : String
  data : List (String × Json)

/-- The loop of the comparison of two strings: the first position at which they
differ decides, and a proper prefix comes first. -/
def lessLoop : List Char → List Char → Bool
  | _, [] => false
  | [], _ :: _ => true
  | a :: s, b :: t =>
    if a.toNat < b.toNat then true
    else if b.toNat < a.toNat then false
    else lessLoop s t

/-- The Go comparison `a < b` of two strings. For text in UTF-8 the order of the
bytes is the order of the characters. -/
def stringLess (a b : String) : Bool :=
  lessLoop a.data b.data

/-- Insertion of a member into a list of members in the order of their keys. -/
def insertMember {α : Type} (kv : String × α) : List (String × α) → List (String × α)
  | [] => [kv]
  | x :: rest => if stringLess kv.1 x.1 then kv :: x :: rest else x :: insertMember kv rest

/-- The members of a map in the order `json.Marshal` writes them: sorted by key. -/
def sortMembers {α : Type} : List (String × α) → List (String × α)
  | [] => []
  | kv :: rest => insertMember kv (sortMembers rest)

/-- The elements of an array as written one after the other: the first error
ends the encoding. -/
def collectItems : List (Except String Json) → Except String (List Json)
  | [] => Except.ok []
  | Except.error cause :: _ => Except.error cause
  | Except.ok j :: rest =>
    match collectItems rest with
    | Except.error cause => Except.error cause
    | Except.ok js => Except.ok (j :: js)

/-- The members of an object as written one after the other: the first error
ends the encoding. -/
def collectMembers : List (String × Except String Json) → Except String (List (String × Json))
  | [] => Except.ok []
  | (_, Except.error cause) :: _ => Except.error cause
  | (k, Except.ok j) :: rest =>
    match collectMembers rest with
    | Except.error cause => Except.error cause
    | Except.ok ms => Except.ok ((k, j) :: ms)

/-- The object `json.Marshal` writes for a `ProcessInfo`: its fields under their
tags, in the order of the declaration. -/
def marshalProcessInfo (p : ProcessInfo) : Json :=
  Json.object
    [("pid", Json.number (NumberLit.int p.PID)), ("ppid", Json.number (NumberLit.int p.PPID)),
     ("name", Json.string p.Name), ("executable", Json.string p.Executable),
     ("command_line", Json.string p.CommandLine), ("user", Json.string p.User),
     ("group", Json.string p.Group)]

/-- The object `json.Marshal` writes for a `NetworkInfo`. -/
def marshalNetworkInfo (n : NetworkInfo) : Json :=
  Json.object
    [("protocol", Json.string n.Protocol), ("source_ip", Json.string n.SourceIP),
     ("source_port", Json.number (NumberLit.int n.SourcePort)),
     ("dest_ip", Json.string n.DestIP), ("dest_port", Json.number (NumberLit.int n.DestPort)),
     ("direction", Json.string n.Direction),
     ("data_size", Json.number (NumberLit.int n.DataSize)),
     ("process_name", Json.string n.ProcessName)]

/-- The object `json.Marshal` writes for a `FileInfo`. -/
def marshalFileInfo (f : FileInfo) : Json :=
  Json.object
    [("path", Json.string f.Path), ("operation", Json.string f.Operation),
     ("permissions", Json.string f.Permissions), ("process_name", Json.string f.ProcessName),
     ("user", Json.string f.User)]

mutual
/-- The library function `json.Marshal` on a value of the attribute bag: an
integer and a finite float are written as numbers, a float that is not finite is
an unsupported value, a map is written as an object with its keys sorted, a
record as an object with its fields in the order of the declaration. -/
def marshalValue : Value → Except String Json
  | Value.str s => Except.ok (Json.string s)
  | Value.int n => Except.ok (Json.number (NumberLit.int n))
  | Value.float bits =>
    if isFiniteBits bits then Except.ok (Json.number (NumberLit.float bits))
    else Except.error ("json: unsupported value: " ++ unsupportedText bits)
  | Value.bool b => Except.ok (Json.bool b)
  | Value.null => Except.ok Json.null
  | Value.process p => Except.ok (marshalProcessInfo p)
  | Value.network n => Except.ok (marshalNetworkInfo n)
  | Value.file f => Except.ok (marshalFileInfo f)
  | Value.array items =>
    match collectItems (marshalItems items) with
    | Except.error cause => Except.error cause
    | Except.ok js => Except.ok (Json.array js)
  | Value.bag fields =>
    match collectMembers (sortMembers (marshalFields fields)) with
    | Except.error cause => Except.error cause
    | Except.ok ms => Except.ok (Json.object ms)
/-- The encodings of the elements of a slice. -/
def marshalItems : List Value → List (Except String Json)
  | [] => []
  | v :: rest => marshalValue v :: marshalItems rest
/-- The encodings of the entries of a map, each under its key. -/
def marshalFields : List (String × Value) → List (String × Except String Json)
  | [] => []
  | (k, v) :: rest => (k, marshalValue v) :: marshalFields rest
end

/-- Whether `Time.MarshalJSON` accepts the instant, given in nanoseconds since
1970-01-01T00:00:00Z: its year, read in UTC, lies in 0..9999. -/
def yearInRange (t : Int) : Bool :=
  decide (-62167219200000000000 ≤ t ∧ t < 253402300800000000000)

/-- The library function `json.Marshal` on an `Event`: the fields are written in
the order of the declaration, and the first error ends the encoding. -/
def jsonMarshal (e : Event) : Except String EventDoc :=
  if yearInRange e.Timestamp then
    match collectMembers (sortMembers (marshalFields e.Data)) with
    | Except.error cause => Except.error cause
    | Except.ok ms =>
      Except.ok { id := e.ID, kind := e.Kind, timestamp := e.Timestamp, source := e.Source
                  data := ms }
  else
    Except.error ("json: error calling MarshalJSON for type time.Time: " ++
      "Time.MarshalJSON: year outside of range [0,9999]")

/-- The map `json.Unmarshal` builds from the members of an object, starting from
the empty map: it assigns them in the order of the text. -/
def assignAll (entries : List (String × Value)) : List (String × Value) :=
  entries.foldl (fun m kv => mapSet m kv.1 kv.2) []

mutual
/-- The library function `json.Unmarshal` with an `interface{}` as its target:
a number becomes a `float64`, an object a `map[string]interface{}`, an array a
`[]interface{}`. -/
def unmarshalValue : Json → Value
  | Json.null => Value.null
  | Json.bool b => Value.bool b
  | Json.number lit => Value.float lit.ParseFloat
  | Json.string s => Value.str s
  | Json.array items => Value.array (unmarshalItems items)
  | Json.object members => Value.bag (assignAll (unmarshalMembers members))
/-- The values of the elements of an array. -/
def unmarshalItems : List Json → List Value
  | [] => []
  | j :: rest => unmarshalValue j :: unmarshalItems rest
/-- The values of the members of an object, each under its key. -/
def unmarshalMembers : List (String × Json) → List (String × Value)
  | [] => []
  | (k, j) :: rest => (k, unmarshalValue j) :: unmarshalMembers rest
end

/-- The library function `json.Unmarshal` with an `Event` as its target, on the
text of an event document: every member is stored in its field, the members of
`data` as the map `json.Unmarshal` builds for an `interface{}`; no error arises. -/
def jsonUnmarshal (doc : EventDoc) : Event × Option String :=
  ({ ID := doc.id, Kind := doc.kind, Timestamp := doc.timestamp, Source := doc.source
     Data := assignAll (unmarshalMembers doc.data) }, none)

/-- The function `FromJSON`: the event and the error of `json.Unmarshal`. -/
def FromJSON {τ : Type} (unmarshal : τ → Event × Option String) (data : τ) :
    Event × Option String :=
  unmarshal data

/-- Whether the keys of a map are listed in strictly increasing order. -/
def keysSorted : List String → Bool
  | [] => true
  | [_] => true
  | k :: k2 :: rest => stringLess k k2 && keysSorted (k2 :: rest)

mutual
/-- Whether `json.Marshal` supports the value: every float in it, at any depth,
is finite. -/
def Value.supported : Value → Bool
  | Value.float bits => isFiniteBits bits
  | Value.array items => itemsSupported items
  | Value.bag fields => fieldsSupported fields
  | _ => true
/-- Whether `json.Marshal` supports every element of a slice. -/
def itemsSupported : List Value → Bool
  | [] => true
  | v :: rest => v.supported && itemsSupported rest
/-- Whether `json.Marshal` supports every value of a map. -/
def fieldsSupported : List (String × Value) → Bool
  | [] => true
  | (_, v) :: rest => v.supported && fieldsSupported rest
end

mutual
/-- Whether the value is one `json.Unmarshal` stores in an `interface{}`: a
string, a `float64`, a boolean, nil, a `[]interface{}` or a
`map[string]interface{}` of such values; at no depth an integer or a record of
the program. -/
def Value.decoded : Value → Bool
  | Value.int _ => false
  | Value.process _ => false
  | Value.network _ => false
  | Value.file _ => false
  | Value.array items => itemsDecoded items
  | Value.bag fields => fieldsDecoded fields
  | _ => true
/-- Whether every element of a slice is a decoded value. -/
def itemsDecoded : List Value → Bool
  | [] => true
  | v :: rest => v.decoded && itemsDecoded rest
/-- Whether every value of a map is a decoded value. -/
def fieldsDecoded : List (String × Value) → Bool
  | [] => true
  | (_, v) :: rest => v.decoded && fieldsDecoded rest
end

mutual
/-- Whether every map in the value, at any depth, is listed by increasing key:
the one listing of a Go map that the comparison of two values as lists needs. -/
def Value.canonical : Value → Bool
  | Value.array items => itemsCanonical items
  | Value.bag fields => keysSorted (fields.map Prod.fst) && fieldsCanonical fields
  | _ => true
/-- Whether every element of a slice is canonical. -/
def itemsCanonical : List Value → Bool
  | [] => true
  | v :: rest => v.canonical && itemsCanonical rest
/-- Whether every value of a map is canonical. -/
def fieldsCanonical : List (String × Value) → Bool
  | [] => true
  | (_, v) :: rest => v.canonical && fieldsCanonical rest
end

/-- Whether `json.Marshal` supports the event: the year of its timestamp lies in
0..9999 and every float of its attribute bag, at any depth, is finite. -/
def Event.supported (e : Event) : Bool :=
  yearInRange e.Timestamp && fieldsSupported e.Data

/-- Whether the attribute bag of the event holds decoded values only. -/
def Event.decoded (e : Event) : Bool :=
  fieldsDecoded e.Data

/-- Whether the attribute bag of the event and every map in it, at any depth,
are listed by increasing key. -/
def Event.canonical (e : Event) : Bool :=
  keysSorted (e.Data.map Prod.fst) && fieldsCanonical e.Data

mutual
/-- Whether the value is well formed: no map in it, at any depth, is listed with
a key twice, as no Go map holds a key twice. -/
def Value.distinctKeys : Value → Bool
  | Value.array items => itemsDistinctKeys items
  | Value.bag fields => decide (fields.map Prod.fst).Nodup && fieldsDistinctKeys fields
  | _ => true
/-- Whether every element of a slice is well formed. -/
def itemsDistinctKeys : List Value → Bool
  | [] => true
  | v :: rest => v.distinctKeys && itemsDistinctKeys rest
/-- Whether every value of a map is well formed. -/
def fieldsDistinctKeys : List (String × Value) → Bool
  | [] => true
  | (_, v) :: rest => v.distinctKeys && fieldsDistinctKeys rest
end

mutual
/-- The value with every map in it, at any depth, listed by increasing key. Two
well formed values are the same Go value, a map having no order of its own,
when this listing of the one is that of the other. -/
def Value.canon : Value → Value
  | Value.array items => Value.array (canonItems items)
  | Value.bag fields => Value.bag (sortMembers (canonFields fields))
  | Value.str s => Value.str s
  | Value.int n => Value.int n
  | Value.float bits => Value.float bits
  | Value.bool b => Value.bool b
  | Value.null => Value.null
  | Value.process p => Value.process p
  | Value.network n => Value.network n
  | Value.file f => Value.file f
/-- The elements of a slice, each with its maps listed by increasing key. -/
def canonItems : List Value → List Value
  | [] => []
  | v :: rest => v.canon :: canonItems rest
/-- The entries of a map, each value with its maps listed by increasing key. -/
def canonFields : List (String × Value) → List (String × Value)
  | [] => []
  | (k, v) :: rest => (k, v.canon) :: canonFields rest
end

/-- Whether the event is well formed: neither its attribute bag nor a map in it
is listed with a key twice. -/
def Event.distinctKeys (e : Event) : Bool :=
  decide (e.Data.map Prod.fst).Nodup && fieldsDistinctKeys e.Data

/-- The event with its attribute bag and every map in it listed by increasing key. -/
def Event.canon (e : Event) : Event :=
  { e with Data := sortMembers (canonFields e.Data) }

/-! ## cmd/main.go: the fan-in step of processEvents -/

/-- The capacity of the shared channel `eventChan`. -/
def eventChanCapacity : Nat := 1000

/-- The cases of the `select` statement of the fan-in task. -/
inductive SelectCase where
  | send
  | done
  | default
  deriving DecidableEq, Repr

/-- The communications of the `select` that can proceed: the send when the
buffer of `eventChan` is not full, the receive from `ctx.Done()` once the
context is cancelled. -/
def readyCases (queue : List Event) (cancelled : Bool) : List SelectCase :=
  (if queue.length < eventChanCapacity then [SelectCase.send] else []) ++
    (if cancelled then [SelectCase.done] else [])

/-- The case a `select` with a default clause takes: one of the communications
that can proceed, chosen by `pick`, or the default clause when none can. -/
def selectCase (queue : List Event) (cancelled : Bool) (pick : Nat) : SelectCase :=
  match readyCases queue cancelled with
  | [] => SelectCase.default
  | c :: cs => (c :: cs).getD (pick % (c :: cs).length) c

/-- One pass through the loop body of the fan-in task for an event read from
the collector: the shared queue afterwards and the case taken. The case `done`
ends the task. -/
def fanInStep (queue : List Event) (cancelled : Bool) (pick : Nat) (event : Event) :
    List Event × SelectCase :=
  match selectCase queue cancelled pick with
  | SelectCase.send => (queue ++ [event], SelectCase.send)
  | SelectCase.done => (queue, SelectCase.done)
  | SelectCase.default => (queue, SelectCase.default)

/-- What the fan-in task meets when it handles one event: the shared queue as
the consumer and the other tasks left it, the state of the context, and the
choice of the `select`. -/
structure FanInEnv where
  queue : List Event
  cancelled : Bool
  pick : Nat

/-- The fan-in task of one collector over the events the collector emits: the
events it puts on the shared queue, in order. -/
def fanIn : List (Event × FanInEnv) → List Event
  | [] => []
  | (event, env) :: rest =>
    match (fanInStep env.queue env.cancelled env.pick event).2 with
    | SelectCase.send => event :: fanIn rest
    | SelectCase.done => []
    | SelectCase.default => fanIn rest


/-! ## collector/collector.go: address parsing -/

/-- The library function `strings.Split` for a separator of one character: the
parts of the text between the occurrences of the separator, one more than there
are occurrences. -/
def splitChar (sep : Char) : List Char → List (List Char)
  | [] => [[]]
  | c :: rest =>
    if c = sep then [] :: splitChar sep rest
    else
      match splitChar sep rest with
      | [] => [[c]]
      | part :: parts => (c :: part) :: parts

/-- The Go slice expression `s[lo:hi]` on a string; `none` is the out-of-range fault. -/
def sliceRange (s : List Char) (lo hi : Nat) : Option (List Char) :=
  if lo ≤ hi ∧ hi ≤ s.length then some ((s.take hi).drop lo) else none

/-- The errors of `strconv.ParseInt`: `ErrSyntax` and `ErrRange`. -/
inductive NumError where
  | malformed
  | outOfRange
  deriving DecidableEq, Repr

/-- The digit a character stands for in `strconv.ParseUint`: `c - '0'` for a
decimal digit, `lower(c) - 'a' + 10` for a letter. -/
def digitOf (c : Char) : Option Nat :=
  if '0' ≤ c ∧ c ≤ '9' then some (c.toNat - '0'.toNat)
  else if 'a' ≤ c.toLower ∧ c.toLower ≤ 'z' then some (c.toLower.toNat - 'a'.toNat + 10)
  else none

/-- The loop of `strconv.ParseUint` in base 16 for the bit size 32, `n` being
the value of the digits read so far. -/
def parseUintLoop : List Char → Nat → Except NumError Nat
  | [], n => Except.ok n
  | c :: rest, n =>
    match digitOf c with
    | none => Except.error NumError.malformed
    | some d =>
      if d ≥ 16 then Except.error NumError.malformed
      else if n ≥ 1152921504606846976 then Except.error NumError.outOfRange
      else if n * 16 + d > 4294967295 then Except.error NumError.outOfRange
      else parseUintLoop rest (n * 16 + d)

/-- The library call `strconv.ParseUint(s, 16, 32)`: the value and the error. -/
def parseUint16 (s : List Char) : Nat × Option NumError :=
  if s = [] then (0, some NumError.malformed)
  else
    match parseUintLoop s 0 with
    | Except.ok n => (n, none)
    | Except.error NumError.malformed => (0, some NumError.malformed)
    | Except.error NumError.outOfRange => (4294967295, some NumError.outOfRange)

/-- The library call `strconv.ParseInt(s, 16, 32)`: the value and the error. -/
def parseInt16 (s : List Char) : Int × Option NumError :=
  match s with
  | [] => (0, some NumError.malformed)
  | c :: rest =>
    let neg : Bool := c = '-'
    let digits := if c = '+' ∨ c = '-' then rest else c :: rest
    match parseUint16 digits with
    | (_, some NumError.malformed) => (0, some NumError.malformed)
    | (un, _) =>
      if neg = false ∧ un ≥ 2147483648 then (2147483647, some NumError.outOfRange)
      else if neg = true ∧ un > 2147483648 then (-2147483648, some NumError.outOfRange)
      else (if neg then -(un : Int) else (un : Int), none)

/-- The library function `strconv.Itoa`. -/
def Itoa (n : Int) : String :=
  toString n

/-- The loop of `parseIPv4` over the positions `i` it visits, `parts` being the
slice built so far; `none` is the out-of-range fault of `hex[i:i+2]`. -/
def parseIPv4Loop (hex : List Char) : List Nat → List String → Option (List String)
  | [], parts => some parts
  | i :: later, parts =>
    match sliceRange hex i (i + 2) with
    | none => none
    | some pair => parseIPv4Loop hex later (parts ++ [Itoa (parseInt16 pair).1])

/-- The method `NetworkCollector.parseIPv4`; the loop visits 6, 4, 2, 0. -/
def parseIPv4 (hex : String) : Option String :=
  if hex.data.length ≠ 8 then some ""
  else (parseIPv4Loop hex.data [6, 4, 2, 0] []).map (fun parts => String.intercalate "." parts)

/-- The method `NetworkCollector.parseIPv6`. -/
def parseIPv6 (hex : String) : String :=
  "IPv6:" ++ hex

/-- The method `NetworkCollector.parseAddress`; `none` is an out-of-range fault. -/
def parseAddress (addr : String) : Option (String × Int) :=
  let parts := splitChar ':' addr.data
  if parts.length ≠ 2 then some ("", 0)
  else
    match parts[0]?, parts[1]? with
    | some ipHex, some portHex =>
      match (if ipHex.length = 8 then parseIPv4 (String.mk ipHex)
             else some (parseIPv6 (String.mk ipHex))) with
      | none => none
      | some ip => some (ip, (parseInt16 portHex).1)
    | _, _ => none

/-- The characters that are hexadecimal digits. -/
def isHexDigit (c : Char) : Bool :=
  "0123456789abcdefABCDEF".data.contains c

/-- The value of a hexadecimal digit: its place among `0123456789abcdef`, the
case of a letter left aside. -/
def hexDigitValue (c : Char) : Nat :=
  "0123456789abcdef".data.indexOf c.toLower

/-- The number a text of hexadecimal digits denotes, most significant digit first. -/
def hexValue (digits : List Char) : Nat :=
  Nat.ofDigits 16 (digits.reverse.map hexDigitValue)


/-! ## Sample inputs -/

/-- The event of the scenarios: id `e1`, kind `process`, source `x`. -/
def sampleEvent : Event :=
  { ID := "e1", Kind := EventTypeProcess, Timestamp := 0, Source := "x", Data := [] }

/-- A serialized event of eleven bytes. -/
def sampleData : List Byte :=
  [123, 34, 105, 100, 34, 58, 34, 101, 49, 34, 125]

/-- An encoder that yields the sample bytes. -/
def sampleMarshal : Event → Except String (List Byte) :=
  fun _ => Except.ok sampleData

/-- An encoder that fails. -/
def failingMarshal : Event → Except String (List Byte) :=
  fun _ => Except.error "json: unsupported value"

/-- An engine whose `DefineWasi` succeeds. -/
def sampleEngine : WasmtimeEngine := { defineWasi := none }

/-- A rule whose module exports a one-page zeroed `memory` and a `detect` that
returns the level `k` whatever it is given. -/
def constRule (name : String) (k : Int) : SimpleWasmRule :=
  { Name := name
    Module :=
      { instantiate := Except.ok
          { exports :=
              [("memory", Extern.memory (List.replicate 65536 0)),
               ("detect", Extern.func (fun _ _ _ => CallResult.int32 k))] } }
    Engine := sampleEngine }

/-- A rule whose `detect` traps. -/
def trapRule (name : String) : SimpleWasmRule :=
  { Name := name
    Module :=
      { instantiate := Except.ok
          { exports :=
              [("memory", Extern.memory (List.replicate 65536 0)),
               ("detect", Extern.func (fun _ _ _ => CallResult.err "unreachable"))] } }
    Engine := sampleEngine }

/-- A rule exporting `detect` and a memory with the given contents. -/
def memRule (name : String) (data : List Byte) (k : Int) : SimpleWasmRule :=
  { Name := name
    Module :=
      { instantiate := Except.ok
          { exports :=
              [("detect", Extern.func (fun _ _ _ => CallResult.int32 k)),
               ("memory", Extern.memory data)] } }
    Engine := sampleEngine }

/-- A sink that counts its calls and returns the given outcome. -/
def countingSink (outcome : Option String) : Sink Nat :=
  { state := 0, Handle := fun n _ => (n + 1, outcome) }

/-- A detection result with the given rule name, as a rule returning 5 gives it. -/
def sampleResult (name : String) : DetectionResult :=
  { RuleName := name, Severity := "medium", Threat := true, Confidence := 1 / 2
    Description := "Threat detected by rule " ++ name, Event := sampleEvent
    Metadata := none }

/-- A module with no export. -/
def emptyModule : Module :=
  { instantiate := Except.ok { exports := [] } }

/-- A rules directory holding `rules/a.wasm`, a sub-directory `rules/old.wasm`
and `rules/z.wasm`: every file reads and compiles, a directory does not read. -/
def sampleHost : Host :=
  { readFile := fun path =>
      if path = "rules/a.wasm" ∨ path = "rules/z.wasm" then Except.ok [0, 97, 115, 109]
      else Except.error "is a directory"
    compile := fun _ => Except.ok emptyModule
    walk := fun _ =>
      [{ path := "rules", kind := FileKind.directory, err := none },
       { path := "rules/a.wasm", kind := FileKind.regular, err := none },
       { path := "rules/old.wasm", kind := FileKind.directory, err := none },
       { path := "rules/z.wasm", kind := FileKind.regular, err := none }] }

/-- An engine holding the one rule `t_ok`. -/
def loadedEngine : SimpleEngine :=
  { engine := sampleEngine, rules := [("t_ok", constRule "t_ok" 5)] }

/-- The sample event with an integer in its attribute bag. -/
def intEvent : Event :=
  { sampleEvent with Data := [("pid", Value.int 4242)] }

/-- The sample event with a `ProcessInfo` record in its attribute bag, as the
process collector builds it. -/
def processEvent : Event :=
  { sampleEvent with
    Data := [("action", Value.str "create"),
      ("process", Value.process
        { PID := 4242, PPID := 1, Name := "sh", Executable := "/bin/sh"
          CommandLine := "sh", User := "0", Group := "0" })] }

/-- The sample event with a string in its attribute bag. -/
def textEvent : Event :=
  { sampleEvent with Data := [("action", Value.str "create")] }

/-- The sample event with a string and a nested bag, which holds the float 0.5
and a boolean, in its attribute bag. -/
def plainEvent : Event :=
  { sampleEvent with
    Data := [("action", Value.str "create"),
      ("labels", Value.bag [("load", Value.float 4602678819172646912),
        ("ok", Value.bool true)])] }

/-- The sample event with a float that is not a number in its attribute bag. -/
def nanEvent : Event :=
  { sampleEvent with Data := [("load", Value.float 9221120237041090560)] }

/-- The sample event at the instant 10000-01-01T00:00:00Z. -/
def lateEvent : Event :=
  { sampleEvent with Timestamp := 253402300800000000000 }

/-- The sample event with its attribute bag listed with `risk_level` before
`action`. -/
def unorderedEvent : Event :=
  { sampleEvent with
    Data := [("risk_level", Value.str "high"), ("action", Value.str "create")] }


/-! ## Properties of binary64 rounding -/

/-- The loop of `bitLen` counts no digit in 0. -/
theorem bitLenLoop_zero (fuel : Nat) : bitLenLoop fuel 0 = 0 := by
  cases fuel <;> simp [bitLenLoop]

/-- The loop of `bitLen` with enough fuel: the count of a positive number is one more than the exponent of the largest power of two in it. -/
theorem bitLenLoop_spec : ∀ fuel n, 0 < n → n ≤ fuel →
    ∃ b, bitLenLoop fuel n = b + 1 ∧ 2 ^ b ≤ n ∧ n < 2 ^ (b + 1) := by
  intro fuel
  induction fuel with
  | zero => intro n hn hle; omega
  | succ fuel ih =>
    intro n hn hle
    have hne : n ≠ 0 := by omega
    rw [bitLenLoop, if_neg hne]
    by_cases h2 : n / 2 = 0
    · refine ⟨0, by rw [h2, bitLenLoop_zero], ?_, ?_⟩
      · simpa using hn
      · simp only [zero_add, pow_one]; omega
    · obtain ⟨b, hb, h1, h3⟩ := ih (n / 2) (by omega) (by omega)
      refine ⟨b + 1, by rw [hb], ?_, ?_⟩
      · rw [pow_succ]; omega
      · rw [pow_succ]; omega

/-- A positive number lies between the two powers of two its digit count gives. -/
theorem bitLen_spec (n : Nat) (hn : 0 < n) :
    ∃ b, bitLen n = b + 1 ∧ 2 ^ b ≤ n ∧ n < 2 ^ (b + 1) :=
  bitLenLoop_spec n n hn (Nat.le_refl n)

/-- The power of two of the binary exponent is at most the fraction. -/
theorem floorLog2_le (n d : Nat) (hn : 0 < n) (hd : 0 < d) :
    (2 : ℚ) ^ floorLog2 n d ≤ (n : ℚ) / d := by
  obtain ⟨a, ha, ha1, ha2⟩ := bitLen_spec n hn
  obtain ⟨c, hc, hc1, hc2⟩ := bitLen_spec d hd
  have hdq : (0 : ℚ) < d := by exact_mod_cast hd
  have h2 : (2 : ℚ) ≠ 0 := by norm_num
  unfold floorLog2
  rw [ha, hc]
  split_ifs with hcond
  · have he : ((a + 1 : ℕ) : ℤ) - ((c + 1 : ℕ) : ℤ) = (a : ℤ) - c := by push_cast; ring
    rw [he, zpow_sub₀ h2, zpow_natCast, zpow_natCast, div_le_div_iff₀ (by positivity) hdq]
    have hnat : 2 ^ a * d ≤ n * 2 ^ c := by
      rw [pow_succ, pow_succ] at hcond
      have : 2 * (d * 2 ^ a) ≤ 2 * (n * 2 ^ c) := by
        calc 2 * (d * 2 ^ a) = d * (2 ^ a * 2) := by ring
          _ ≤ n * (2 ^ c * 2) := hcond
          _ = 2 * (n * 2 ^ c) := by ring
      have := Nat.le_of_mul_le_mul_left this (by norm_num)
      calc 2 ^ a * d = d * 2 ^ a := by ring
        _ ≤ n * 2 ^ c := this
    exact_mod_cast hnat
  · have he : ((a + 1 : ℕ) : ℤ) - ((c + 1 : ℕ) : ℤ) - 1 = (a : ℤ) - (c + 1 : ℕ) := by
      push_cast; ring
    rw [he, zpow_sub₀ h2, zpow_natCast, zpow_natCast, div_le_div_iff₀ (by positivity) hdq]
    have hnat : 2 ^ a * d ≤ n * 2 ^ (c + 1) :=
      Nat.mul_le_mul ha1 (Nat.le_of_lt hc2)
    exact_mod_cast hnat

/-- The nearest integer is within one half of the fraction. -/
theorem roundHalfEven_err (n d : Nat) (hd : 0 < d) :
    |(roundHalfEven n d : ℚ) - (n : ℚ) / d| ≤ 1 / 2 := by
  have hdq : (0 : ℚ) < d := by exact_mod_cast hd
  have hr : n % d < d := Nat.mod_lt n hd
  have hsplit : (n : ℚ) / d = ((n / d : ℕ) : ℚ) + ((n % d : ℕ) : ℚ) / d := by
    have h := Nat.div_add_mod n d
    have hq : (n : ℚ) = (d : ℚ) * ((n / d : ℕ) : ℚ) + ((n % d : ℕ) : ℚ) := by exact_mod_cast h.symm
    field_simp
    linarith
  have hrq : ((n % d : ℕ) : ℚ) / d < 1 := by
    rw [div_lt_one hdq]; exact_mod_cast hr
  have hr0 : (0 : ℚ) ≤ ((n % d : ℕ) : ℚ) / d := by positivity
  rw [abs_le, hsplit]
  unfold roundHalfEven
  split_ifs with h1 h2 h3
  · have : ((n % d : ℕ) : ℚ) / d ≤ 1 / 2 := by
      rw [div_le_iff₀ hdq]
      have : (2 : ℚ) * ((n % d : ℕ) : ℚ) ≤ d := by exact_mod_cast Nat.le_of_lt h1
      linarith
    constructor <;> linarith
  · have : 1 / 2 ≤ ((n % d : ℕ) : ℚ) / d := by
      rw [le_div_iff₀ hdq]
      have : (d : ℚ) ≤ 2 * ((n % d : ℕ) : ℚ) := by exact_mod_cast Nat.le_of_lt h2
      linarith
    push_cast
    constructor <;> linarith
  · have heq : 2 * (n % d) = d := by omega
    have : ((n % d : ℕ) : ℚ) / d = 1 / 2 := by
      rw [div_eq_iff (ne_of_gt hdq)]
      have : (2 : ℚ) * ((n % d : ℕ) : ℚ) = d := by exact_mod_cast heq
      linarith
    constructor <;> linarith
  · have heq : 2 * (n % d) = d := by omega
    have : ((n % d : ℕ) : ℚ) / d = 1 / 2 := by
      rw [div_eq_iff (ne_of_gt hdq)]
      have : (2 : ℚ) * ((n % d : ℕ) : ℚ) = d := by exact_mod_cast heq
      linarith
    push_cast
    constructor <;> linarith

/-- The rounded fraction is within half a unit in the last place of the fraction. -/
theorem significand_err (n d : Nat) (hd : 0 < d) :
    |(significand n d : ℚ) * 2 ^ ulpExp n d - (n : ℚ) / d| ≤ 2 ^ ulpExp n d / 2 := by
  have hdq : (0 : ℚ) < d := by exact_mod_cast hd
  unfold significand
  split_ifs with hE
  · obtain ⟨s, hs⟩ := Int.eq_ofNat_of_zero_le hE
    rw [hs, Int.toNat_natCast, zpow_natCast]
    have hp : (0 : ℚ) < 2 ^ s := by positivity
    have h := roundHalfEven_err n (d * 2 ^ s) (by positivity)
    have hrew : (roundHalfEven n (d * 2 ^ s) : ℚ) * 2 ^ s - (n : ℚ) / d =
        ((roundHalfEven n (d * 2 ^ s) : ℚ) - (n : ℚ) / ((d * 2 ^ s : ℕ) : ℚ)) * 2 ^ s := by
      push_cast
      field_simp
      ring
    rw [hrew, abs_mul, abs_of_pos hp]
    calc |(roundHalfEven n (d * 2 ^ s) : ℚ) - (n : ℚ) / ((d * 2 ^ s : ℕ) : ℚ)| * 2 ^ s
        ≤ 1 / 2 * 2 ^ s := mul_le_mul_of_nonneg_right h (le_of_lt hp)
      _ = 2 ^ s / 2 := by ring
  · have hneg : 0 ≤ - ulpExp n d := by omega
    obtain ⟨s, hs⟩ := Int.eq_ofNat_of_zero_le hneg
    have hE2 : ulpExp n d = - (s : ℤ) := by omega
    rw [hs, Int.toNat_natCast, hE2, zpow_neg, zpow_natCast]
    have hp : (0 : ℚ) < 2 ^ s := by positivity
    have h := roundHalfEven_err (n * 2 ^ s) d hd
    have hrew : (roundHalfEven (n * 2 ^ s) d : ℚ) * (2 ^ s)⁻¹ - (n : ℚ) / d =
        ((roundHalfEven (n * 2 ^ s) d : ℚ) - ((n * 2 ^ s : ℕ) : ℚ) / d) * (2 ^ s)⁻¹ := by
      push_cast
      field_simp
      ring
    rw [hrew, abs_mul, abs_of_pos (inv_pos.mpr hp)]
    calc |(roundHalfEven (n * 2 ^ s) d : ℚ) - ((n * 2 ^ s : ℕ) : ℚ) / d| * (2 ^ s)⁻¹
        ≤ 1 / 2 * (2 ^ s)⁻¹ := mul_le_mul_of_nonneg_right h (le_of_lt (inv_pos.mpr hp))
      _ = (2 ^ s)⁻¹ / 2 := by ring


/-- Half a unit in the last place is at most the fraction times 2^-53, from the least normal number on. -/
theorem ulpExp_le (n d : Nat) (hn : 0 < n) (hd : 0 < d)
    (hmin : (2 : ℚ) ^ (-1022 : ℤ) ≤ (n : ℚ) / d) :
    (2 : ℚ) ^ ulpExp n d / 2 ≤ (n : ℚ) / d / 2 ^ 53 := by
  have h2 : (2 : ℚ) ≠ 0 := by norm_num
  have hmax : (2 : ℚ) ^ (max (floorLog2 n d) (-1022)) ≤ (n : ℚ) / d := by
    rcases max_cases (floorLog2 n d) (-1022) with ⟨h, _⟩ | ⟨h, _⟩
    · rw [h]; exact floorLog2_le n d hn hd
    · rw [h]; exact hmin
  have hE : (2 : ℚ) ^ ulpExp n d = 2 ^ (max (floorLog2 n d) (-1022)) / 2 ^ 52 := by
    unfold ulpExp
    rw [zpow_sub₀ h2]
    norm_num
  rw [hE, div_div, div_le_div_iff₀ (by positivity) (by positivity)]
  calc (2 : ℚ) ^ max (floorLog2 n d) (-1022) * 2 ^ 53
      ≤ (n : ℚ) / d * 2 ^ 53 := mul_le_mul_of_nonneg_right hmax (by positivity)
    _ = (n : ℚ) / d * (2 ^ 52 * 2) := by norm_num

/-- The rounding of a positive number. -/
theorem roundBinary64_of_pos (q : ℚ) (hq : 0 < q) :
    roundBinary64 q = (significand q.num.natAbs q.den : ℚ) * 2 ^ ulpExp q.num.natAbs q.den := by
  unfold roundBinary64
  rw [if_neg (ne_of_gt hq), if_pos hq]

/-- A positive rational number is its numerator over its denominator. -/
theorem natAbs_num_div_den (q : ℚ) (hq : 0 < q) : ((q.num.natAbs : ℕ) : ℚ) / q.den = q := by
  have hnum : 0 < q.num := Rat.num_pos.mpr hq
  have h1 : ((q.num.natAbs : ℕ) : ℤ) = q.num := Int.natAbs_of_nonneg (le_of_lt hnum)
  have h2 : ((q.num.natAbs : ℕ) : ℚ) = (q.num : ℚ) := by rw [← Int.cast_natCast, h1]
  rw [h2]
  exact Rat.num_div_den q

/-- The rounding is within the relative error 2^-53, from the least normal number on. -/
theorem roundBinary64_err (q : ℚ) (hmin : (2 : ℚ) ^ (-1022 : ℤ) ≤ q) :
    |roundBinary64 q - q| ≤ q / 2 ^ 53 := by
  have hq : 0 < q := lt_of_lt_of_le (by positivity) hmin
  have hnum : 0 < q.num := Rat.num_pos.mpr hq
  have hn : 0 < q.num.natAbs := Int.natAbs_pos.mpr (ne_of_gt hnum)
  have hd : 0 < q.den := q.den_pos
  have hfrac := natAbs_num_div_den q hq
  rw [roundBinary64_of_pos q hq]
  have h1 := significand_err q.num.natAbs q.den hd
  have h2 := ulpExp_le q.num.natAbs q.den hn hd (by rw [hfrac]; exact hmin)
  rw [hfrac] at h1 h2
  exact le_trans h1 h2

/-- An integer is the integer nearest to it. -/
theorem roundHalfEven_one (n : Nat) : roundHalfEven n 1 = n := by
  unfold roundHalfEven
  simp [Nat.mod_one]

/-- The number 1 has one binary digit. -/
theorem bitLen_one : bitLen 1 = 1 := by decide

/-- A positive integer below 2^53 is a binary64 value: rounding leaves it as it is. -/
theorem significand_int (n : Nat) (hn : 0 < n) (hlt : n < 2 ^ 53) :
    (significand n 1 : ℚ) * 2 ^ ulpExp n 1 = n := by
  obtain ⟨a, ha, ha1, ha2⟩ := bitLen_spec n hn
  have ha53 : a < 53 := by
    by_contra hcon
    have : 2 ^ 53 ≤ 2 ^ a := Nat.pow_le_pow_right (by norm_num) (by omega)
    omega
  have hf : floorLog2 n 1 = a := by
    unfold floorLog2
    rw [ha, bitLen_one]
    have hcond : 1 * 2 ^ (a + 1) ≤ n * 2 ^ 1 := by rw [pow_succ]; omega
    rw [if_pos hcond]
    push_cast
    ring
  have hE : ulpExp n 1 = (a : ℤ) - 52 := by
    unfold ulpExp
    rw [hf]
    omega
  unfold significand
  rw [hE]
  by_cases h52 : a = 52
  · subst h52
    simp [roundHalfEven_one]
  · have hneg : ¬ (0 : ℤ) ≤ (a : ℤ) - 52 := by omega
    rw [if_neg hneg, roundHalfEven_one]
    have hs : (-((a : ℤ) - 52)).toNat = 52 - a := by omega
    rw [hs]
    have hz : ((a : ℤ) - 52) = -((52 - a : ℕ) : ℤ) := by omega
    rw [hz, zpow_neg, zpow_natCast]
    push_cast
    field_simp

/-- The conversion `float64(k)` is exact for `0 < k < 2 ^ 53`, so for every positive `int32`. -/
theorem float64OfInt_exact (k : Int) (h0 : 0 < k) (hlt : k < 2 ^ 53) :
    float64OfInt k = k := by
  have hq : (0 : ℚ) < (k : ℚ) := by exact_mod_cast h0
  unfold float64OfInt
  rw [roundBinary64_of_pos _ hq, Rat.num_intCast, Rat.den_intCast]
  have hn : 0 < k.natAbs := Int.natAbs_pos.mpr (ne_of_gt h0)
  have hk : ((k.natAbs : ℕ) : ℤ) = k := Int.natAbs_of_nonneg (le_of_lt h0)
  have hlt2 : k.natAbs < 2 ^ 53 := by
    have : ((k.natAbs : ℕ) : ℤ) < 2 ^ 53 := by rw [hk]; exact hlt
    exact_mod_cast this
  rw [significand_int k.natAbs hn hlt2, ← Int.cast_natCast, hk]


/-- No integer is nearer to the fraction than the one `roundHalfEven` gives. -/
theorem roundHalfEven_nearest (n d : Nat) (hd : 0 < d) (z : ℤ) :
    |(roundHalfEven n d : ℚ) - (n : ℚ) / d| ≤ |(z : ℚ) - (n : ℚ) / d| := by
  have h := roundHalfEven_err n d hd
  by_cases hz : z = (roundHalfEven n d : ℤ)
  · rw [hz]; simp
  · have h1 : (1 : ℤ) ≤ |z - (roundHalfEven n d : ℤ)| :=
      Int.one_le_abs (sub_ne_zero.mpr hz)
    have h2 : (1 : ℚ) ≤ |(z : ℚ) - (roundHalfEven n d : ℚ)| := by exact_mod_cast h1
    have h3 : |(z : ℚ) - (roundHalfEven n d : ℚ)| ≤
        |(z : ℚ) - (n : ℚ) / d| + |(roundHalfEven n d : ℚ) - (n : ℚ) / d| := by
      have := abs_sub_le (z : ℚ) ((n : ℚ) / d) (roundHalfEven n d : ℚ)
      rw [abs_sub_comm ((n : ℚ) / d) (roundHalfEven n d : ℚ)] at this
      exact this
    linarith

/-- The significand is the integer nearest to the fraction counted in units of the last place. -/
theorem significand_nearest_unit (n d : Nat) (hd : 0 < d) (z : ℤ) :
    |(significand n d : ℚ) - (n : ℚ) / d / 2 ^ ulpExp n d| ≤
      |(z : ℚ) - (n : ℚ) / d / 2 ^ ulpExp n d| := by
  have hdq : (0 : ℚ) < d := by exact_mod_cast hd
  unfold significand
  split_ifs with hE
  · obtain ⟨s, hs⟩ := Int.eq_ofNat_of_zero_le hE
    rw [hs, Int.toNat_natCast, zpow_natCast]
    have h := roundHalfEven_nearest n (d * 2 ^ s) (by positivity) z
    have hrew : (n : ℚ) / ((d * 2 ^ s : ℕ) : ℚ) = (n : ℚ) / d / 2 ^ s := by
      push_cast
      rw [div_div]
    rw [hrew] at h
    exact h
  · have hneg : 0 ≤ - ulpExp n d := by omega
    obtain ⟨s, hs⟩ := Int.eq_ofNat_of_zero_le hneg
    have hE2 : ulpExp n d = - (s : ℤ) := by omega
    rw [hs, Int.toNat_natCast, hE2, zpow_neg, zpow_natCast]
    have h := roundHalfEven_nearest (n * 2 ^ s) d hd z
    have hrew : ((n * 2 ^ s : ℕ) : ℚ) / d = (n : ℚ) / d / (2 ^ s)⁻¹ := by
      push_cast
      field_simp
    rw [hrew] at h
    exact h

/-- No number `m * 2 ^ e` with a significand below 2^53 and an exponent from -1074 on, so no binary64 value, is nearer to the fraction than its rounding. -/
theorem significand_nearest (n d : Nat) (hn : 0 < n) (hd : 0 < d) (m e : ℤ)
    (hm : |m| < 2 ^ 53) (he : -1074 ≤ e) :
    |(significand n d : ℚ) * 2 ^ ulpExp n d - (n : ℚ) / d| ≤ |(m : ℚ) * 2 ^ e - (n : ℚ) / d| := by
  have h2 : (2 : ℚ) ≠ 0 := by norm_num
  have hP : (0 : ℚ) < 2 ^ ulpExp n d := by positivity
  have hscale : ∀ y : ℚ, |y * 2 ^ ulpExp n d - (n : ℚ) / d| =
      |y - (n : ℚ) / d / 2 ^ ulpExp n d| * 2 ^ ulpExp n d := by
    intro y
    rw [← abs_of_pos hP, ← abs_mul, abs_of_pos hP]
    congr 1
    field_simp
    ring
  rw [hscale]
  by_cases hcase : ulpExp n d ≤ e
  · obtain ⟨t, ht⟩ := Int.eq_ofNat_of_zero_le (sub_nonneg.mpr hcase)
    have hy : (m : ℚ) * 2 ^ e = ((m * 2 ^ t : ℤ) : ℚ) * 2 ^ ulpExp n d := by
      have he2 : e = (t : ℤ) + ulpExp n d := by omega
      rw [he2, zpow_add₀ h2, zpow_natCast]
      push_cast
      ring
    rw [hy, hscale]
    exact mul_le_mul_of_nonneg_right (significand_nearest_unit n d hd _) (le_of_lt hP)
  · have hlt : e < ulpExp n d := by omega
    have hf : max (floorLog2 n d) (-1022) = floorLog2 n d := by
      unfold ulpExp at hlt
      rcases max_cases (floorLog2 n d) (-1022) with ⟨h, _⟩ | ⟨h, _⟩
      · exact h
      · rw [h] at hlt; omega
    have hx : (2 : ℚ) ^ 52 ≤ (n : ℚ) / d / 2 ^ ulpExp n d := by
      rw [le_div_iff₀ hP]
      have hE : (2 : ℚ) ^ ulpExp n d = 2 ^ floorLog2 n d / 2 ^ 52 := by
        unfold ulpExp
        rw [hf, zpow_sub₀ h2]
        norm_num
      rw [hE]
      have := floorLog2_le n d hn hd
      calc (2 : ℚ) ^ 52 * (2 ^ floorLog2 n d / 2 ^ 52) = 2 ^ floorLog2 n d := by field_simp
        _ ≤ (n : ℚ) / d := this
    have hunit := significand_nearest_unit n d hd (2 ^ 52)
    have hunit2 : |(significand n d : ℚ) - (n : ℚ) / d / 2 ^ ulpExp n d| ≤
        (n : ℚ) / d / 2 ^ ulpExp n d - 2 ^ 52 := by
      have : |(((2 ^ 52 : ℤ)) : ℚ) - (n : ℚ) / d / 2 ^ ulpExp n d| =
          (n : ℚ) / d / 2 ^ ulpExp n d - 2 ^ 52 := by
        have hc : (((2 ^ 52 : ℤ)) : ℚ) = 2 ^ 52 := by norm_num
        rw [hc, abs_sub_comm, abs_of_nonneg (sub_nonneg.mpr hx)]
      rw [← this]
      exact hunit
    obtain ⟨t, ht⟩ := Int.eq_ofNat_of_zero_le (show 0 ≤ ulpExp n d - e - 1 by omega)
    have hy : (m : ℚ) * 2 ^ e = ((m : ℚ) / 2 ^ (t + 1)) * 2 ^ ulpExp n d := by
      have he2 : ulpExp n d = e + ((t + 1 : ℕ) : ℤ) := by push_cast; omega
      rw [he2, zpow_add₀ h2, zpow_natCast]
      field_simp
      ring
    rw [hy, hscale]
    apply mul_le_mul_of_nonneg_right _ (le_of_lt hP)
    have hmq : |(m : ℚ)| < 2 ^ 53 := by exact_mod_cast hm
    have hsmall : (m : ℚ) / 2 ^ (t + 1) < 2 ^ 52 := by
      rw [div_lt_iff₀ (by positivity)]
      have h1 : (m : ℚ) < 2 ^ 53 := lt_of_le_of_lt (le_abs_self _) hmq
      have h2 : (1 : ℚ) ≤ 2 ^ t := one_le_pow₀ (by norm_num)
      calc (m : ℚ) < 2 ^ 53 := h1
        _ = 2 ^ 52 * 2 := by norm_num
        _ ≤ 2 ^ 52 * (2 ^ t * 2) := by nlinarith
        _ = 2 ^ 52 * 2 ^ (t + 1) := by ring
    have hge : (n : ℚ) / d / 2 ^ ulpExp n d - 2 ^ 52 ≤
        |(m : ℚ) / 2 ^ (t + 1) - (n : ℚ) / d / 2 ^ ulpExp n d| := by
      rw [abs_sub_comm]
      have := le_abs_self ((n : ℚ) / d / 2 ^ ulpExp n d - (m : ℚ) / 2 ^ (t + 1))
      linarith
    exact le_trans hunit2 hge

/-- No binary64 value is nearer to a positive number than its rounding. -/
theorem roundBinary64_nearest (q : ℚ) (hq : 0 < q) (m e : ℤ)
    (hm : |m| < 2 ^ 53) (he : -1074 ≤ e) :
    |roundBinary64 q - q| ≤ |(m : ℚ) * 2 ^ e - q| := by
  have hnum : 0 < q.num := Rat.num_pos.mpr hq
  have hn : 0 < q.num.natAbs := Int.natAbs_pos.mpr (ne_of_gt hnum)
  have hfrac := natAbs_num_div_den q hq
  rw [roundBinary64_of_pos q hq]
  have h1 := significand_nearest q.num.natAbs q.den hn q.den_pos m e hm he
  rw [hfrac] at h1
  exact h1


/-- The rounding of a positive number from its numerator and denominator. -/
theorem roundBinary64_eval (q : ℚ) (n d m : ℕ) (e : ℤ) (hq : 0 < q)
    (hn : q.num.natAbs = n) (hd : q.den = d) (hm : significand n d = m) (he : ulpExp n d = e) :
    roundBinary64 q = (m : ℚ) * 2 ^ e := by
  rw [roundBinary64_of_pos q hq, hn, hd, hm, he]

/-- The quotient of the conversion `float64(k)` by `10.0`, for `0 < k < 2 ^ 53`. -/
theorem float64Div_ten_of_lt (k : Int) (h0 : 0 < k) (hlt : k < 2 ^ 53) :
    float64Div (float64OfInt k) 10 = roundBinary64 ((k : ℚ) / 10) := by
  rw [float64OfInt_exact k h0 hlt]
  rfl

/-- The quotient `float64(k) / 10.0` at the levels 2, 5, 9, 10 and 25: the binary64 values written 0.2 and 0.9, which are not 1/5 and 9/10, and the exact 1/2, 1 and 5/2. -/
theorem float64Div_ten_examples :
    float64Div (float64OfInt 2) 10 = 3602879701896397 / 2 ^ 54 ∧
    (3602879701896397 / 2 ^ 54 : ℚ) ≠ 2 / 10 ∧
    float64Div (float64OfInt 5) 10 = 5 / 10 ∧
    float64Div (float64OfInt 9) 10 = 8106479329266893 / 2 ^ 53 ∧
    float64Div (float64OfInt 10) 10 = 1 ∧
    float64Div (float64OfInt 25) 10 = 5 / 2 := by
  refine ⟨?_, by norm_num, ?_, ?_, ?_, ?_⟩
  · rw [float64Div_ten_of_lt 2 (by decide) (by decide),
      roundBinary64_eval (((2 : ℤ) : ℚ) / 10) 1 5 7205759403792794 (-55) (by norm_num)
        (by norm_num) (by norm_num) (by decide) (by decide)]
    norm_num
  · rw [float64Div_ten_of_lt 5 (by decide) (by decide),
      roundBinary64_eval (((5 : ℤ) : ℚ) / 10) 1 2 4503599627370496 (-53) (by norm_num)
        (by norm_num) (by norm_num) (by decide) (by decide)]
    norm_num
  · rw [float64Div_ten_of_lt 9 (by decide) (by decide),
      roundBinary64_eval (((9 : ℤ) : ℚ) / 10) 9 10 8106479329266893 (-53) (by norm_num)
        (by norm_num) (by norm_num) (by decide) (by decide)]
    norm_num
  · rw [float64Div_ten_of_lt 10 (by decide) (by decide),
      roundBinary64_eval (((10 : ℤ) : ℚ) / 10) 1 1 4503599627370496 (-52) (by norm_num)
        (by norm_num) (by norm_num) (by decide) (by decide)]
    norm_num
  · rw [float64Div_ten_of_lt 25 (by decide) (by decide),
      roundBinary64_eval (((25 : ℤ) : ℚ) / 10) 5 2 5629499534213120 (-51) (by norm_num)
        (by norm_num) (by norm_num) (by decide) (by decide)]
    norm_num


/-- The conversion `float64(k)` of a positive integer is within the relative error 2^-53 of it. -/
theorem float64OfInt_bounds (k : Int) (h0 : 0 < k) :
    (k : ℚ) - (k : ℚ) / 2 ^ 53 ≤ float64OfInt k ∧ float64OfInt k ≤ (k : ℚ) + (k : ℚ) / 2 ^ 53 := by
  have hk1 : (1 : ℚ) ≤ (k : ℚ) := by exact_mod_cast h0
  have hmin : (2 : ℚ) ^ (-1022 : ℤ) ≤ (k : ℚ) := by
    have : (2 : ℚ) ^ (-1022 : ℤ) ≤ 1 := zpow_le_one_of_nonpos₀ (by norm_num) (by norm_num)
    linarith
  have h := abs_le.mp (roundBinary64_err (k : ℚ) hmin)
  unfold float64OfInt
  constructor <;> linarith [h.1, h.2]

/-- The quotient `float64(k) / 10.0` is within the relative error 2^-53 of the tenth of `float64(k)`. -/
theorem float64Div_ten_bounds (k : Int) (h0 : 0 < k) :
    float64OfInt k / 10 - float64OfInt k / 10 / 2 ^ 53 ≤ float64Div (float64OfInt k) 10 ∧
    float64Div (float64OfInt k) 10 ≤ float64OfInt k / 10 + float64OfInt k / 10 / 2 ^ 53 := by
  have hk1 : (1 : ℚ) ≤ (k : ℚ) := by exact_mod_cast h0
  have ha := (float64OfInt_bounds k h0).1
  have ha2 : (1 : ℚ) / 2 ≤ float64OfInt k := by
    have : (k : ℚ) / 2 ^ 53 ≤ (k : ℚ) / 2 := by
      apply div_le_div_of_nonneg_left (by linarith) (by norm_num) (by norm_num)
    linarith
  have hmin : (2 : ℚ) ^ (-1022 : ℤ) ≤ float64OfInt k / 10 := by
    have h1 : (2 : ℚ) ^ (-1022 : ℤ) ≤ 2 ^ (-5 : ℤ) :=
      zpow_le_zpow_right₀ (by norm_num) (by norm_num)
    have h2 : (2 : ℚ) ^ (-5 : ℤ) ≤ 1 / 20 := by norm_num
    linarith
  have h := abs_le.mp (roundBinary64_err (float64OfInt k / 10) hmin)
  unfold float64Div
  constructor <;> linarith [h.1, h.2]

/-- The quotient `float64(k) / 10.0` of a positive level is positive. -/
theorem float64Div_ten_pos (k : Int) (h0 : 0 < k) : 0 < float64Div (float64OfInt k) 10 := by
  have hk1 : (1 : ℚ) ≤ (k : ℚ) := by exact_mod_cast h0
  have ha := (float64OfInt_bounds k h0).1
  have hb := (float64Div_ten_bounds k h0).1
  have ha2 : (0 : ℚ) < float64OfInt k := by
    have : (k : ℚ) / 2 ^ 53 ≤ (k : ℚ) / 2 := by
      apply div_le_div_of_nonneg_left (by linarith) (by norm_num) (by norm_num)
    linarith
  have : float64OfInt k / 10 / 2 ^ 53 < float64OfInt k / 10 := by
    apply div_lt_self (by positivity) (by norm_num)
  linarith

/-- The quotient `float64(k) / 10.0` of a positive level is at most 1 exactly when the level is at most 10. -/
theorem float64Div_ten_le_one_iff (k : Int) (h0 : 0 < k) :
    float64Div (float64OfInt k) 10 ≤ 1 ↔ k ≤ 10 := by
  constructor
  · intro hle
    by_contra hcon
    have hk : (11 : ℚ) ≤ (k : ℚ) := by
      have : (11 : ℤ) ≤ k := by omega
      exact_mod_cast this
    have ha := (float64OfInt_bounds k h0).1
    have hb := (float64Div_ten_bounds k h0).1
    have ha3 : (11 : ℚ) - 11 / 2 ^ 53 ≤ float64OfInt k := by
      have : (11 : ℚ) - 11 / 2 ^ 53 ≤ (k : ℚ) - (k : ℚ) / 2 ^ 53 := by
        have hmono : (k : ℚ) - (k : ℚ) / 2 ^ 53 = (k : ℚ) * (1 - 1 / 2 ^ 53) := by ring
        have hmono2 : (11 : ℚ) - 11 / 2 ^ 53 = 11 * (1 - 1 / 2 ^ 53) := by ring
        rw [hmono, hmono2]
        exact mul_le_mul_of_nonneg_right hk (by norm_num)
      linarith
    have hb2 : float64OfInt k / 10 - float64OfInt k / 10 / 2 ^ 53 =
        float64OfInt k * ((1 - 1 / 2 ^ 53) / 10) := by ring
    rw [hb2] at hb
    have hb3 : ((11 : ℚ) - 11 / 2 ^ 53) * ((1 - 1 / 2 ^ 53) / 10) ≤
        float64OfInt k * ((1 - 1 / 2 ^ 53) / 10) :=
      mul_le_mul_of_nonneg_right ha3 (by norm_num)
    have hnum : (1 : ℚ) < ((11 : ℚ) - 11 / 2 ^ 53) * ((1 - 1 / 2 ^ 53) / 10) := by norm_num
    linarith
  · intro hle
    have hlt : k < 2 ^ 53 := by
      have : (10 : ℤ) < 2 ^ 53 := by norm_num
      omega
    by_cases h10 : k = 10
    · subst h10
      rw [float64Div_ten_examples.2.2.2.2.1]
    · have hk : (k : ℚ) ≤ 9 := by
        have : k ≤ 9 := by omega
        exact_mod_cast this
      have hb := (float64Div_ten_bounds k h0).2
      rw [float64OfInt_exact k h0 hlt] at hb ⊢
      have hb2 : (k : ℚ) / 10 + (k : ℚ) / 10 / 2 ^ 53 = (k : ℚ) * ((1 + 1 / 2 ^ 53) / 10) := by ring
      rw [hb2] at hb
      have hb3 : (k : ℚ) * ((1 + 1 / 2 ^ 53) / 10) ≤ 9 * ((1 + 1 / 2 ^ 53) / 10) :=
        mul_le_mul_of_nonneg_right hk (by norm_num)
      have hnum : (9 : ℚ) * ((1 + 1 / 2 ^ 53) / 10) ≤ 1 := by norm_num
      linarith

/-- A rounded positive number is an integer times a power of two. -/
theorem roundBinary64_dyadic (q : ℚ) (hq : 0 < q) :
    ∃ (m s : ℕ), roundBinary64 q = m * 2 ^ s ∨ roundBinary64 q = m / 2 ^ s := by
  rw [roundBinary64_of_pos q hq]
  by_cases hE : 0 ≤ ulpExp q.num.natAbs q.den
  · obtain ⟨s, hs⟩ := Int.eq_ofNat_of_zero_le hE
    exact ⟨_, s, Or.inl (by rw [hs, zpow_natCast])⟩
  · obtain ⟨s, hs⟩ := Int.eq_ofNat_of_zero_le (show 0 ≤ - ulpExp q.num.natAbs q.den by omega)
    have hE2 : ulpExp q.num.natAbs q.den = - (s : ℤ) := by omega
    exact ⟨_, s, Or.inr (by rw [hE2, zpow_neg, zpow_natCast, div_eq_mul_inv])⟩

/-- The quotient `float64(k) / 10.0` is the rational `k / 10` exactly when 5 divides `k`. -/
theorem float64Div_ten_exact_iff (k : Int) (h0 : 0 < k) (hlt : k < 2 ^ 53) :
    float64Div (float64OfInt k) 10 = (k : ℚ) / 10 ↔ 5 ∣ k := by
  have hq : (0 : ℚ) < (k : ℚ) / 10 := by
    have : (0 : ℚ) < (k : ℚ) := by exact_mod_cast h0
    positivity
  rw [float64Div_ten_of_lt k h0 hlt]
  constructor
  · intro heq
    obtain ⟨m, s, h | h⟩ := roundBinary64_dyadic ((k : ℚ) / 10) hq
    · rw [heq] at h
      have h1 : (k : ℚ) = ((10 * m * 2 ^ s : ℕ) : ℤ) := by
        push_cast
        linarith
      have h2 : k = ((10 * m * 2 ^ s : ℕ) : ℤ) := by exact_mod_cast h1
      rw [h2]
      exact ⟨((2 * m * 2 ^ s : ℕ) : ℤ), by push_cast; ring⟩
    · rw [heq] at h
      have hp : (0 : ℚ) < 2 ^ s := by positivity
      have h1 : (k : ℚ) * 2 ^ s = 10 * m := by
        field_simp at h
        linarith
      have h2 : k * 2 ^ s = 10 * (m : ℤ) := by exact_mod_cast h1
      have hdvd : (5 : ℤ) ∣ k * 2 ^ s := ⟨2 * m, by rw [h2]; ring⟩
      have hco : IsCoprime (5 : ℤ) (2 ^ s) := by
        apply IsCoprime.pow_right
        rw [Int.isCoprime_iff_gcd_eq_one]
        decide
      exact hco.dvd_of_dvd_mul_right hdvd
  · rintro ⟨j, hj⟩
    have hj0 : 0 < j := by omega
    have hjlt : |j| < 2 ^ 53 := by
      rw [abs_of_pos hj0]
      omega
    have h := roundBinary64_nearest ((k : ℚ) / 10) hq j (-1) hjlt (by norm_num)
    have hz : (j : ℚ) * 2 ^ (-1 : ℤ) - (k : ℚ) / 10 = 0 := by
      rw [hj]
      push_cast
      norm_num
      ring
    rw [hz, abs_zero] at h
    exact sub_eq_zero.mp (abs_eq_zero.mp (le_antisymm h (abs_nonneg _)))

/-- The fraction is below the next power of two after that of its binary exponent. -/
theorem floorLog2_lt (n d : Nat) (hn : 0 < n) (hd : 0 < d) :
    (n : ℚ) / d < (2 : ℚ) ^ (floorLog2 n d + 1) := by
  obtain ⟨a, ha, ha1, ha2⟩ := bitLen_spec n hn
  obtain ⟨c, hc, hc1, hc2⟩ := bitLen_spec d hd
  have hdq : (0 : ℚ) < d := by exact_mod_cast hd
  have h2 : (2 : ℚ) ≠ 0 := by norm_num
  unfold floorLog2
  rw [ha, hc]
  split_ifs with hcond
  · have he : ((a + 1 : ℕ) : ℤ) - ((c + 1 : ℕ) : ℤ) + 1 = ((a + 1 : ℕ) : ℤ) - (c : ℤ) := by
      push_cast; ring
    rw [he, zpow_sub₀ h2, zpow_natCast, zpow_natCast, div_lt_div_iff₀ hdq (by positivity)]
    have hnat : n * 2 ^ c < 2 ^ (a + 1) * d :=
      calc n * 2 ^ c ≤ n * d := Nat.mul_le_mul_left n hc1
        _ < 2 ^ (a + 1) * d := Nat.mul_lt_mul_of_pos_right ha2 hd
    exact_mod_cast hnat
  · have he : ((a + 1 : ℕ) : ℤ) - ((c + 1 : ℕ) : ℤ) - 1 + 1 =
        ((a + 1 : ℕ) : ℤ) - ((c + 1 : ℕ) : ℤ) := by ring
    rw [he, zpow_sub₀ h2, zpow_natCast, zpow_natCast, div_lt_div_iff₀ hdq (by positivity)]
    have hnat : n * 2 ^ (c + 1) < 2 ^ (a + 1) * d := by
      have := not_le.mp hcond
      calc n * 2 ^ (c + 1) < d * 2 ^ (a + 1) := this
        _ = 2 ^ (a + 1) * d := Nat.mul_comm _ _
    exact_mod_cast hnat

/-- The significand has at most 53 digits, or is `2 ^ 53`. -/
theorem significand_le (n d : Nat) (hn : 0 < n) (hd : 0 < d) : significand n d ≤ 2 ^ 53 := by
  have h2 : (2 : ℚ) ≠ 0 := by norm_num
  have hP : (0 : ℚ) < 2 ^ ulpExp n d := by positivity
  have hunit := significand_nearest_unit n d hd (2 ^ 53)
  have herr := significand_err n d hd
  have hlt := floorLog2_lt n d hn hd
  have hx : (n : ℚ) / d / 2 ^ ulpExp n d < 2 ^ 53 := by
    rw [div_lt_iff₀ hP]
    have hE : (2 : ℚ) ^ 53 * 2 ^ ulpExp n d = 2 ^ (max (floorLog2 n d) (-1022) + 1) := by
      unfold ulpExp
      rw [show max (floorLog2 n d) (-1022) + 1 = (53 : ℤ) + (max (floorLog2 n d) (-1022) - 52) by
        ring, zpow_add₀ h2]
      norm_num
    rw [hE]
    have hmono : (2 : ℚ) ^ (floorLog2 n d + 1) ≤ 2 ^ (max (floorLog2 n d) (-1022) + 1) :=
      zpow_le_zpow_right₀ (by norm_num) (by have := le_max_left (floorLog2 n d) (-1022); omega)
    exact lt_of_lt_of_le hlt hmono
  by_contra hcon
  have hge : (2 : ℚ) ^ 53 + 1 ≤ (significand n d : ℚ) := by
    have : 2 ^ 53 + 1 ≤ significand n d := by omega
    exact_mod_cast this
  have h1 : |(((2 ^ 53 : ℤ)) : ℚ) - (n : ℚ) / d / 2 ^ ulpExp n d| =
      2 ^ 53 - (n : ℚ) / d / 2 ^ ulpExp n d := by
    have hc : (((2 ^ 53 : ℤ)) : ℚ) = 2 ^ 53 := by norm_num
    rw [hc, abs_of_pos (sub_pos.mpr hx)]
  rw [h1] at hunit
  have h3 := le_abs_self ((significand n d : ℚ) - (n : ℚ) / d / 2 ^ ulpExp n d)
  linarith

/-- The rounding of a positive number below `2 ^ 1023` is a binary64 value: a
significand of at most 53 digits times a power of two with an exponent in
-1074..971. -/
theorem roundBinary64_representable (q : ℚ) (hq : 0 < q) (hlt : q < 2 ^ 1023) :
    ∃ m e : ℤ, |m| < 2 ^ 53 ∧ -1074 ≤ e ∧ e ≤ 971 ∧ roundBinary64 q = (m : ℚ) * 2 ^ e := by
  have h2 : (2 : ℚ) ≠ 0 := by norm_num
  have hnum : 0 < q.num := Rat.num_pos.mpr hq
  have hn : 0 < q.num.natAbs := Int.natAbs_pos.mpr (ne_of_gt hnum)
  have hd : 0 < q.den := q.den_pos
  have hfrac := natAbs_num_div_den q hq
  rw [roundBinary64_of_pos q hq]
  have hle := significand_le q.num.natAbs q.den hn hd
  have hlow : -1074 ≤ ulpExp q.num.natAbs q.den := by
    unfold ulpExp
    have := le_max_right (floorLog2 q.num.natAbs q.den) (-1022)
    omega
  have hf : floorLog2 q.num.natAbs q.den < 1023 := by
    have h1 := floorLog2_le q.num.natAbs q.den hn hd
    rw [hfrac] at h1
    have h3 : (2 : ℚ) ^ floorLog2 q.num.natAbs q.den < 2 ^ (1023 : ℤ) := by
      have : (2 : ℚ) ^ (1023 : ℤ) = 2 ^ 1023 := by norm_num
      rw [this]
      exact lt_of_le_of_lt h1 hlt
    exact (zpow_lt_zpow_iff_right₀ (by norm_num : (1 : ℚ) < 2)).mp h3
  have hhigh : ulpExp q.num.natAbs q.den ≤ 970 := by
    unfold ulpExp
    rcases max_cases (floorLog2 q.num.natAbs q.den) (-1022) with ⟨h, _⟩ | ⟨h, _⟩ <;> rw [h] <;> omega
  by_cases hcarry : significand q.num.natAbs q.den = 2 ^ 53
  · refine ⟨2 ^ 52, ulpExp q.num.natAbs q.den + 1, by norm_num, by omega, by omega, ?_⟩
    rw [hcarry, zpow_add₀ h2]
    push_cast
    ring
  · refine ⟨(significand q.num.natAbs q.den : ℤ), ulpExp q.num.natAbs q.den, ?_, hlow,
      by omega, by push_cast; rfl⟩
    rw [abs_of_nonneg (Int.natCast_nonneg _)]
    have : significand q.num.natAbs q.den < 2 ^ 53 := by omega
    exact_mod_cast this

/-! ## Properties of the invocation path -/

/-- The pointer constant `int32(1024)`. -/
theorem toInt32_dataPtr : toInt32 1024 = 1024 := by decide

/-- What `runSimpleRule` comes to once the module instantiates and exports a
function `detect` and a memory `memory`. -/
theorem runSimpleRule_of_exports (rule : SimpleWasmRule) (eventData : List Byte)
    (event : Event) (inst : Instance) (f : List Byte → Int → Int → CallResult)
    (memoryData : List Byte)
    (hw : rule.Engine.defineWasi = none)
    (hi : rule.Module.instantiate = Except.ok inst)
    (hf : inst.GetFunc "detect" = some f)
    (hm : inst.GetExport "memory" = some (Extern.memory memoryData)) :
    runSimpleRule rule eventData event =
      if memoryData.length < 1024 + eventData.length then
        Run.fail (RuleError.insufficientMemory rule.Name)
      else
        Run.ofCall rule event
          (memoryData.take 1024 ++ copy (memoryData.drop 1024) eventData)
          1024 (toInt32 eventData.length)
          (f (memoryData.take 1024 ++ copy (memoryData.drop 1024) eventData)
            1024 (toInt32 eventData.length)) := by
  unfold runSimpleRule
  simp only [hw, hi, hf, hm, Extern.Memory, toInt32_dataPtr, sliceFrom]
  have h1024 : (1024 : Int).toNat = 1024 := by decide
  simp only [h1024]
  by_cases hlt : memoryData.length < 1024 + eventData.length
  · simp [hlt]
  · have hle : 1024 ≤ memoryData.length := by omega
    simp [hlt, hle]

/-- A run that reads the level `k` returns what the final test on `k` returns. -/
theorem runSimpleRule_result_of_level (rule : SimpleWasmRule) (eventData : List Byte)
    (event : Event) (k : Int)
    (h : (runSimpleRule rule eventData event).level = some k) :
    (runSimpleRule rule eventData event).result =
      (Run.ofLevel rule event [] 0 0 k).result := by
  generalize hr : runSimpleRule rule eventData event = r at h
  unfold runSimpleRule at hr
  repeat' (first | split at hr | (dsimp only [Run.ofCall] at hr; split at hr))
  all_goals subst hr
  all_goals first
    | simp [Run.fail] at h
    | (simp [Run.ofLevel] at h ⊢; subst h; rfl)

/-- A run that returns without error has read a level. -/
theorem runSimpleRule_level_of_ok (rule : SimpleWasmRule) (eventData : List Byte)
    (event : Event) (r : Option DetectionResult)
    (h : (runSimpleRule rule eventData event).result = Except.ok r) :
    ∃ k, (runSimpleRule rule eventData event).level = some k := by
  generalize hr : runSimpleRule rule eventData event = run at h
  unfold runSimpleRule at hr
  repeat' (first | split at hr | (dsimp only [Run.ofCall] at hr; split at hr))
  all_goals subst hr
  all_goals first
    | simp [Run.fail] at h
    | exact ⟨_, rfl⟩

/-- What a run that read the level `k` surfaces. -/
theorem runSimpleRule_surfaced_of_level (rule : SimpleWasmRule) (eventData : List Byte)
    (event : Event) (k : Int)
    (h : (runSimpleRule rule eventData event).level = some k) :
    (runSimpleRule rule eventData event).surfaced =
      if k > 0 then
        some
          { RuleName := rule.Name
            Severity := getSeverityLevel k
            Threat := true
            Confidence := float64Div (float64OfInt k) 10
            Description := "Threat detected by rule " ++ rule.Name
            Event := event
            Metadata := none }
      else none := by
  unfold Run.surfaced
  rw [runSimpleRule_result_of_level rule eventData event k h]
  by_cases hk : k > 0 <;> simp [Run.ofLevel, hk]

/-- The rule `constRule name k` reads the level `k` on the sample event. -/
theorem constRule_level (name : String) (k : Int) :
    (runSimpleRule (constRule name k) sampleData sampleEvent).level = some k := by
  rw [runSimpleRule_of_exports (constRule name k) sampleData sampleEvent _ _ _ rfl rfl rfl rfl,
    if_neg (by rw [List.length_replicate]; decide)]
  rfl

/-- C1 (as stated, refuted): a rule returning level 1 surfaces a DetectionResult,
and the severity `getSeverityLevel` gives it is `info`, not `low`. -/
theorem getSeverityLevel_one_is_info :
    getSeverityLevel 1 = "info" ∧ getSeverityLevel 1 ≠ "low" ∧
    (runSimpleRule (constRule "rk_one" 1) sampleData sampleEvent).surfaced.map
      (fun d => d.Severity) = some "info" := by
  refine ⟨by decide, by decide, ?_⟩
  rw [runSimpleRule_surfaced_of_level _ _ _ 1 (constRule_level "rk_one" 1)]
  decide

/-- C1 (amended): for every threat level `k ≥ 1` the severity given by
`getSeverityLevel` is `info` when `k = 1`, `low` when `2 ≤ k ≤ 3`, `medium` when
`4 ≤ k ≤ 5`, `high` when `6 ≤ k ≤ 7` and `critical` when `k ≥ 8`; it is the
severity of the DetectionResult surfaced by a run that read `k`, so `info` is
the severity of a surfaced result exactly when `k = 1`. -/
theorem getSeverityLevel_piecewise (k : Int) (hk : 1 ≤ k) :
    (k = 1 → getSeverityLevel k = "info") ∧
    (2 ≤ k ∧ k ≤ 3 → getSeverityLevel k = "low") ∧
    (4 ≤ k ∧ k ≤ 5 → getSeverityLevel k = "medium") ∧
    (6 ≤ k ∧ k ≤ 7 → getSeverityLevel k = "high") ∧
    (8 ≤ k → getSeverityLevel k = "critical") ∧
    (getSeverityLevel k = "info" ↔ k = 1) ∧
    ∀ (rule : SimpleWasmRule) (eventData : List Byte) (event : Event),
      (runSimpleRule rule eventData event).level = some k →
      (runSimpleRule rule eventData event).surfaced.map (fun d => d.Severity) =
        some (getSeverityLevel k) := by
  refine ⟨?_, ?_, ?_, ?_, ?_, ?_, ?_⟩
  · rintro rfl; decide
  · rintro ⟨h1, h2⟩
    have h3 : ¬ k ≥ 8 := by omega
    have h4 : ¬ k ≥ 6 := by omega
    have h5 : ¬ k ≥ 4 := by omega
    simp [getSeverityLevel, h1, h3, h4, h5]
  · rintro ⟨h1, h2⟩
    have h3 : ¬ k ≥ 8 := by omega
    have h4 : ¬ k ≥ 6 := by omega
    simp [getSeverityLevel, h1, h3, h4]
  · rintro ⟨h1, h2⟩
    have h3 : ¬ k ≥ 8 := by omega
    simp [getSeverityLevel, h1, h3]
  · intro h1
    simp [getSeverityLevel, h1]
  · unfold getSeverityLevel
    constructor
    · intro h
      split_ifs at h with h1 h2 h3 h4
      · exact absurd h (by decide)
      · exact absurd h (by decide)
      · exact absurd h (by decide)
      · exact absurd h (by decide)
      · omega
    · rintro rfl; decide
  · intro rule eventData event h
    rw [runSimpleRule_surfaced_of_level rule eventData event k h]
    have hpos : k > 0 := by omega
    simp [hpos]

/-- C1 (amended), at the levels 1 and 2 of a concrete rule. -/
theorem getSeverityLevel_piecewise_witness :
    getSeverityLevel 2 = "low" ∧ (getSeverityLevel 1 = "info" ↔ (1 : Int) = 1) :=
  ⟨(getSeverityLevel_piecewise 2 (by decide)).2.1 ⟨by decide, by decide⟩,
   (getSeverityLevel_piecewise 1 (by decide)).2.2.2.2.2.1⟩

/-- C2: when the `detect` call of a rule returns the level `k` without error,
`runSimpleRule` produces a DetectionResult if and only if `k > 0` (none for
`k ≤ 0`), and a produced result carries the rule's name, the threat flag, the
description `Threat detected by rule {name}` and the event itself. -/
theorem runSimpleRule_detection_iff (rule : SimpleWasmRule) (eventData : List Byte)
    (event : Event) (k : Int)
    (h : (runSimpleRule rule eventData event).level = some k) :
    ((∃ d, (runSimpleRule rule eventData event).result = Except.ok (some d)) ↔ k > 0) ∧
    (k ≤ 0 → (runSimpleRule rule eventData event).result = Except.ok none) ∧
    ∀ d, (runSimpleRule rule eventData event).result = Except.ok (some d) →
      d.RuleName = rule.Name ∧ d.Threat = true ∧
      d.Description = "Threat detected by rule " ++ rule.Name ∧ d.Event = event := by
  rw [runSimpleRule_result_of_level rule eventData event k h]
  by_cases hk : k > 0
  · have hres : (Run.ofLevel rule event [] 0 0 k).result = Except.ok (some
        { RuleName := rule.Name, Severity := getSeverityLevel k, Threat := true
          Confidence := float64Div (float64OfInt k) 10
          Description := "Threat detected by rule " ++ rule.Name
          Event := event, Metadata := none }) := by
      simp [Run.ofLevel, hk]
    rw [hres]
    refine ⟨⟨fun _ => hk, fun _ => ⟨_, rfl⟩⟩, fun hle => absurd hk (by omega), ?_⟩
    intro d hd
    have hd' := Option.some.inj (Except.ok.inj hd)
    subst hd'
    exact ⟨rfl, rfl, rfl, rfl⟩
  · have hres : (Run.ofLevel rule event [] 0 0 k).result = Except.ok none := by
      simp [Run.ofLevel, hk]
    rw [hres]
    refine ⟨⟨?_, fun h0 => absurd h0 hk⟩, fun _ => rfl, ?_⟩
    · rintro ⟨d, hd⟩
      exact absurd (Except.ok.inj hd) (by simp)
    · intro d hd
      exact absurd (Except.ok.inj hd) (by simp)

/-- C2 at the rule `rk_low`, which returns 2 on the event `e1`. -/
theorem runSimpleRule_detection_iff_witness :
    ((∃ d, (runSimpleRule (constRule "rk_low" 2) sampleData sampleEvent).result =
        Except.ok (some d)) ↔ (2 : Int) > 0) ∧
    ((2 : Int) ≤ 0 →
      (runSimpleRule (constRule "rk_low" 2) sampleData sampleEvent).result = Except.ok none) ∧
    ∀ d, (runSimpleRule (constRule "rk_low" 2) sampleData sampleEvent).result =
        Except.ok (some d) →
      d.RuleName = (constRule "rk_low" 2).Name ∧ d.Threat = true ∧
      d.Description = "Threat detected by rule " ++ (constRule "rk_low" 2).Name ∧
      d.Event = sampleEvent :=
  runSimpleRule_detection_iff (constRule "rk_low" 2) sampleData sampleEvent 2
    (constRule_level "rk_low" 2)

/-- C3 (as stated, refuted): a rule returning level 25 surfaces a result whose
confidence is 5/2, which is above 1 and is not `min 1 (25/10)`. -/
theorem confidence_not_clamped :
    (runSimpleRule (constRule "rk_loud" 25) sampleData sampleEvent).surfaced.map
      (fun d => d.Confidence) = some (5 / 2) ∧
    (5 / 2 : ℚ) ≠ min 1 (25 / 10) ∧ (1 : ℚ) < 5 / 2 := by
  refine ⟨?_, ?_, ?_⟩
  · rw [runSimpleRule_surfaced_of_level _ _ _ 25 (constRule_level "rk_loud" 25)]
    simp [float64Div_ten_examples.2.2.2.2.2]
  · norm_num
  · norm_num

/-- C3 (amended): for every threat level `k > 0` the confidence of the result
produced by `runSimpleRule` is the binary64 quotient `float64(k) / 10.0`,
without any clamping: it is positive, it is at most 1 exactly when `k ≤ 10`,
and above 10 it exceeds 1 and so is not `min 1 (k / 10)`. For `k` below `2 ^ 53`,
so for every `int32`, the conversion `float64(k)` is exact and the confidence
is the binary64 value nearest to `k / 10`: within the relative error `2 ^ (-53)`
of it, itself a number `m * 2 ^ e` with `|m| < 2 ^ 53` and `e` in -1074..971, no
such number being nearer, and equal to the rational `k / 10` exactly when 5
divides `k`. -/
theorem confidence_eq_float64_quotient (rule : SimpleWasmRule) (eventData : List Byte)
    (event : Event) (k : Int)
    (h : (runSimpleRule rule eventData event).level = some k) (hk : k > 0) :
    (runSimpleRule rule eventData event).surfaced.map (fun d => d.Confidence) =
      some (float64Div (float64OfInt k) 10) ∧
    (0 : ℚ) < float64Div (float64OfInt k) 10 ∧
    (float64Div (float64OfInt k) 10 ≤ 1 ↔ k ≤ 10) ∧
    (10 < k → 1 < float64Div (float64OfInt k) 10 ∧
      float64Div (float64OfInt k) 10 ≠ min 1 ((k : ℚ) / 10)) ∧
    (k < 2 ^ 53 →
      float64OfInt k = (k : ℚ) ∧
      |float64Div (float64OfInt k) 10 - (k : ℚ) / 10| ≤ (k : ℚ) / 10 / 2 ^ 53 ∧
      (∃ m e : ℤ, |m| < 2 ^ 53 ∧ -1074 ≤ e ∧ e ≤ 971 ∧
        float64Div (float64OfInt k) 10 = (m : ℚ) * 2 ^ e) ∧
      (∀ m e : ℤ, |m| < 2 ^ 53 → -1074 ≤ e →
        |float64Div (float64OfInt k) 10 - (k : ℚ) / 10| ≤ |(m : ℚ) * 2 ^ e - (k : ℚ) / 10|) ∧
      (float64Div (float64OfInt k) 10 = (k : ℚ) / 10 ↔ 5 ∣ k)) := by
  have hq : (0 : ℚ) < (k : ℚ) / 10 := by
    have : (0 : ℚ) < (k : ℚ) := by exact_mod_cast hk
    positivity
  have hiff := float64Div_ten_le_one_iff k hk
  refine ⟨?_, float64Div_ten_pos k hk, hiff, ?_, ?_⟩
  · rw [runSimpleRule_surfaced_of_level rule eventData event k h]
    simp [hk]
  · intro h10
    have hgt : 1 < float64Div (float64OfInt k) 10 := by
      by_contra hcon
      have := hiff.mp (not_lt.mp hcon)
      omega
    refine ⟨hgt, ?_⟩
    have hmin : min 1 ((k : ℚ) / 10) ≤ 1 := min_le_left _ _
    exact ne_of_gt (lt_of_le_of_lt hmin hgt)
  · intro hlt
    have hmin : (2 : ℚ) ^ (-1022 : ℤ) ≤ (k : ℚ) / 10 := by
      have hk1 : (1 : ℚ) ≤ (k : ℚ) := by exact_mod_cast hk
      have h1 : (2 : ℚ) ^ (-1022 : ℤ) ≤ 2 ^ (-4 : ℤ) :=
        zpow_le_zpow_right₀ (by norm_num) (by norm_num)
      have h2 : (2 : ℚ) ^ (-4 : ℤ) ≤ 1 / 10 := by norm_num
      linarith
    refine ⟨float64OfInt_exact k hk hlt, ?_, ?_, ?_, float64Div_ten_exact_iff k hk hlt⟩
    · rw [float64Div_ten_of_lt k hk hlt]
      exact roundBinary64_err _ hmin
    · rw [float64Div_ten_of_lt k hk hlt]
      apply roundBinary64_representable _ hq
      have hk53 : (k : ℚ) < 2 ^ 53 := by exact_mod_cast hlt
      have hpow : (2 : ℚ) ^ 53 ≤ 2 ^ 1023 := pow_le_pow_right₀ (by norm_num) (by norm_num)
      have hdiv : (k : ℚ) / 10 ≤ (k : ℚ) := by
        apply div_le_self (le_of_lt (by exact_mod_cast hk)) (by norm_num)
      linarith
    · intro m e hm he
      rw [float64Div_ten_of_lt k hk hlt]
      exact roundBinary64_nearest _ hq m e hm he

/-- C3 (amended) at the rules returning 2 and 5: the confidence of the first is
the quotient `float64(2) / 10.0`, at most 1 and not the rational 2/10 because 5
does not divide 2; that of the second is the rational 5/10. -/
theorem confidence_eq_float64_quotient_witness :
    (runSimpleRule (constRule "rk_low" 2) sampleData sampleEvent).surfaced.map
      (fun d => d.Confidence) = some (float64Div (float64OfInt 2) 10) ∧
    (float64Div (float64OfInt 2) 10 ≤ 1 ↔ (2 : Int) ≤ 10) ∧
    (float64Div (float64OfInt 2) 10 = ((2 : Int) : ℚ) / 10 ↔ (5 : Int) ∣ 2) ∧
    (float64Div (float64OfInt 5) 10 = ((5 : Int) : ℚ) / 10 ↔ (5 : Int) ∣ 5) :=
  ⟨(confidence_eq_float64_quotient (constRule "rk_low" 2) sampleData sampleEvent 2
      (constRule_level "rk_low" 2) (by decide)).1,
   (confidence_eq_float64_quotient (constRule "rk_low" 2) sampleData sampleEvent 2
      (constRule_level "rk_low" 2) (by decide)).2.2.1,
   ((confidence_eq_float64_quotient (constRule "rk_low" 2) sampleData sampleEvent 2
      (constRule_level "rk_low" 2) (by decide)).2.2.2.2 (by decide)).2.2.2.2,
   ((confidence_eq_float64_quotient (constRule "t_ok" 5) sampleData sampleEvent 5
      (constRule_level "t_ok" 5) (by decide)).2.2.2.2 (by decide)).2.2.2.2⟩

/-- The loop of `DetectThreat` appends what each rule surfaces, in visiting order. -/
theorem detectLoop_eq_filterMap (eventData : List Byte) (event : Event) :
    ∀ (rules : List SimpleWasmRule) (results : List DetectionResult),
      detectLoop eventData event rules results =
        results ++ rules.filterMap (fun r => (runSimpleRule r eventData event).surfaced) := by
  intro rules
  induction rules with
  | nil => intro results; simp [detectLoop]
  | cons rule rest ih =>
    intro results
    unfold detectLoop
    cases hres : (runSimpleRule rule eventData event).result with
    | error err => simp [ih, Run.surfaced, hres]
    | ok r =>
      cases r with
      | none => simp [ih, Run.surfaced, hres]
      | some d => simp [ih, Run.surfaced, hres]

/-- What a run surfaces is what the specification expects of the rule. -/
theorem surfaced_eq_expectedDetection (eventData : List Byte) (event : Event)
    (rule : SimpleWasmRule) :
    (runSimpleRule rule eventData event).surfaced = expectedDetection eventData event rule := by
  cases hl : (runSimpleRule rule eventData event).level with
  | some k =>
    rw [runSimpleRule_surfaced_of_level rule eventData event k hl]
    simp [expectedDetection, hl]
  | none =>
    have hnone : (runSimpleRule rule eventData event).surfaced = none := by
      unfold Run.surfaced
      cases hres : (runSimpleRule rule eventData event).result with
      | error err => rfl
      | ok r =>
        obtain ⟨k, hk⟩ := runSimpleRule_level_of_ok rule eventData event r hres
        rw [hl] at hk
        exact absurd hk (by simp)
    simp [hnone, expectedDetection, hl]

/-- A run that returns an error surfaces nothing. -/
theorem surfaced_of_error (rule : SimpleWasmRule) (eventData : List Byte) (event : Event)
    (err : RuleError) (h : (runSimpleRule rule eventData event).result = Except.error err) :
    (runSimpleRule rule eventData event).surfaced = none := by
  simp [Run.surfaced, h]

/-- The rule `trapRule name` fails with the error of the call on the sample event. -/
theorem trapRule_result (name : String) :
    (runSimpleRule (trapRule name) sampleData sampleEvent).result =
      Except.error (RuleError.callFailed name "unreachable") := by
  rw [runSimpleRule_of_exports (trapRule name) sampleData sampleEvent _ _ _ rfl rfl rfl rfl,
    if_neg (by rw [List.length_replicate]; decide)]
  rfl

/-- On an event that serializes, `DetectThreat` returns what the rules surface. -/
theorem DetectThreat_of_serialized (marshal : Event → Except String (List Byte))
    (e : SimpleEngine) (event : Event) (eventData : List Byte)
    (h : event.ToJSON marshal = Except.ok eventData) :
    DetectThreat marshal e event =
      Except.ok ((e.rules.map Prod.snd).filterMap
        (fun r => (runSimpleRule r eventData event).surfaced)) := by
  unfold DetectThreat
  simp only [h, detectLoop_eq_filterMap, List.nil_append]

/-- C4: when the event serializes, `DetectThreat` returns no error and the list
holding, in visiting order, exactly one DetectionResult for each loaded rule
whose invocation succeeds with a level above 0 and nothing for any other rule;
a rule whose invocation fails contributes nothing and taking it out of the
registry leaves the returned list as it is. `DetectThreat` returns an error if
and only if the serialization of the event fails. -/
theorem DetectThreat_isolates_rules (marshal : Event → Except String (List Byte))
    (e : SimpleEngine) (event : Event) :
    (∀ eventData, event.ToJSON marshal = Except.ok eventData →
      DetectThreat marshal e event =
        Except.ok ((e.rules.map Prod.snd).filterMap (expectedDetection eventData event)) ∧
      ∀ (before after : List (String × SimpleWasmRule)) (entry : String × SimpleWasmRule),
        e.rules = before ++ entry :: after →
        (∃ err, (runSimpleRule entry.2 eventData event).result = Except.error err) →
        expectedDetection eventData event entry.2 = none ∧
        DetectThreat marshal e event =
          DetectThreat marshal { e with rules := before ++ after } event) ∧
    ((∃ err, DetectThreat marshal e event = Except.error err) ↔
      ∃ cause, event.ToJSON marshal = Except.error cause) := by
  have hmain : ∀ (rules : List (String × SimpleWasmRule)) (eventData : List Byte),
      event.ToJSON marshal = Except.ok eventData →
      DetectThreat marshal { e with rules := rules } event =
        Except.ok ((rules.map Prod.snd).filterMap (expectedDetection eventData event)) := by
    intro rules eventData hj
    unfold DetectThreat
    simp only [hj, detectLoop_eq_filterMap, List.nil_append]
    congr 2
    funext r
    exact surfaced_eq_expectedDetection eventData event r
  refine ⟨?_, ?_⟩
  · intro eventData hj
    refine ⟨hmain e.rules eventData hj, ?_⟩
    rintro before after entry hsplit ⟨err, herr⟩
    have hnone : expectedDetection eventData event entry.2 = none := by
      rw [← surfaced_eq_expectedDetection]
      exact surfaced_of_error entry.2 eventData event err herr
    refine ⟨hnone, ?_⟩
    have h1 := hmain e.rules eventData hj
    have h2 := hmain (before ++ after) eventData hj
    rw [h1, h2, hsplit]
    simp [List.filterMap_append, hnone]
  · unfold DetectThreat
    cases hj : event.ToJSON marshal with
    | error cause => simp
    | ok eventData => simp

/-- C4 on the scenario of a trapping rule beside a healthy one: with `t_trap`,
which traps, and `t_ok`, which returns 5, exactly one result is returned, that
of `t_ok` with severity `medium`. -/
theorem DetectThreat_isolates_rules_witness :
    DetectThreat sampleMarshal
        { engine := sampleEngine
          rules := [("t_trap", trapRule "t_trap"), ("t_ok", constRule "t_ok" 5)] }
        sampleEvent =
      Except.ok
        [{ RuleName := "t_ok", Severity := "medium", Threat := true, Confidence := 5 / 10
           Description := "Threat detected by rule t_ok", Event := sampleEvent
           Metadata := none }] := by
  have h := ((DetectThreat_isolates_rules sampleMarshal
    { engine := sampleEngine
      rules := [("t_trap", trapRule "t_trap"), ("t_ok", constRule "t_ok" 5)] }
    sampleEvent).1 sampleData rfl).1
  rw [h]
  have h1 : expectedDetection sampleData sampleEvent (trapRule "t_trap") = none := by
    rw [← surfaced_eq_expectedDetection]
    exact surfaced_of_error _ _ _ _ (trapRule_result "t_trap")
  have h2 : expectedDetection sampleData sampleEvent (constRule "t_ok" 5) =
      some { RuleName := "t_ok", Severity := "medium", Threat := true, Confidence := 5 / 10
             Description := "Threat detected by rule t_ok", Event := sampleEvent
             Metadata := none } := by
    rw [← surfaced_eq_expectedDetection,
      runSimpleRule_surfaced_of_level _ _ _ 5 (constRule_level "t_ok" 5)]
    have hn : (constRule "t_ok" 5).Name = "t_ok" := rfl
    have hs : getSeverityLevel 5 = "medium" := by decide
    have hd : "Threat detected by rule " ++ "t_ok" = "Threat detected by rule t_ok" := by
      decide
    simp [hn, hs, hd, float64Div_ten_examples.2.2.1]
  simp [h1, h2]

/-- When the encoder fails, `DetectThreat` returns the serialization error and
runs no rule, whatever is loaded; in either visiting order the trapping rule and
the healthy one give the same single result. -/
theorem DetectThreat_examples :
    DetectThreat failingMarshal
        { engine := sampleEngine, rules := [("t_ok", constRule "t_ok" 5)] } sampleEvent =
      Except.error (EngineError.serialize "json: unsupported value") ∧
    DetectThreat sampleMarshal
        { engine := sampleEngine
          rules := [("t_ok", constRule "t_ok" 5), ("t_trap", trapRule "t_trap")] }
        sampleEvent =
      DetectThreat sampleMarshal
        { engine := sampleEngine
          rules := [("t_trap", trapRule "t_trap"), ("t_ok", constRule "t_ok" 5)] }
        sampleEvent := by
  have swap : ∀ (f : SimpleWasmRule → Option DetectionResult) (a b : SimpleWasmRule),
      f b = none → [a, b].filterMap f = [b, a].filterMap f := by
    intro f a b h
    cases hfa : f a <;> simp [List.filterMap_cons, h, hfa]
  refine ⟨by simp [DetectThreat, Event.ToJSON, failingMarshal], ?_⟩
  rw [DetectThreat_of_serialized sampleMarshal _ sampleEvent sampleData rfl,
    DetectThreat_of_serialized sampleMarshal _ sampleEvent sampleData rfl]
  exact congrArg Except.ok
    (swap _ _ _ (surfaced_of_error _ _ _ _ (trapRule_result "t_trap")))

/-! ## The host write into guest memory -/

/-- When the source fits, `copy` puts it in front of what is left of the destination. -/
theorem copy_of_fit (dst src : List Byte) (h : src.length ≤ dst.length) :
    copy dst src = src ++ dst.drop src.length := by
  unfold copy
  rw [min_eq_right h, List.take_length]

/-- The memory after the host write, when the event fits above offset 1024. -/
theorem written_memory_eq (memoryData eventData : List Byte)
    (h : 1024 + eventData.length ≤ memoryData.length) :
    memoryData.take 1024 ++ copy (memoryData.drop 1024) eventData =
      memoryData.take 1024 ++ (eventData ++ memoryData.drop (1024 + eventData.length)) := by
  rw [copy_of_fit _ _ (by rw [List.length_drop]; omega), List.drop_drop]

/-- Every call of `Run.ofCall` records the memory and the one call made. -/
theorem Run.ofCall_trace (rule : SimpleWasmRule) (event : Event) (mem : List Byte)
    (dataPtr dataLen : Int) (c : CallResult) :
    (Run.ofCall rule event mem dataPtr dataLen c).written = some mem ∧
    (Run.ofCall rule event mem dataPtr dataLen c).calls = [(dataPtr, dataLen)] ∧
    (Run.ofCall rule event mem dataPtr dataLen c).result ≠
      Except.error (RuleError.insufficientMemory rule.Name) ∧
    (Run.ofCall rule event mem dataPtr dataLen c).result ≠
      Except.error RuleError.sliceOutOfRange := by
  cases c <;> simp [Run.ofCall, Run.ofLevel] <;> split_ifs <;> simp

/-- The trace of a run whose module exports `detect` and `memory`, when the
event fits above offset 1024: the memory written and the call made. -/
theorem runSimpleRule_trace_of_fit (rule : SimpleWasmRule) (eventData : List Byte)
    (event : Event) (inst : Instance) (f : List Byte → Int → Int → CallResult)
    (memoryData : List Byte)
    (hw : rule.Engine.defineWasi = none)
    (hi : rule.Module.instantiate = Except.ok inst)
    (hf : inst.GetFunc "detect" = some f)
    (hm : inst.GetExport "memory" = some (Extern.memory memoryData))
    (hfit : 1024 + eventData.length ≤ memoryData.length) :
    (runSimpleRule rule eventData event).written =
      some (memoryData.take 1024 ++
        (eventData ++ memoryData.drop (1024 + eventData.length))) ∧
    (runSimpleRule rule eventData event).calls = [(1024, toInt32 eventData.length)] := by
  rw [runSimpleRule_of_exports rule eventData event inst f memoryData hw hi hf hm,
    if_neg (by omega)]
  have ht := Run.ofCall_trace rule event
    (memoryData.take 1024 ++ copy (memoryData.drop 1024) eventData) 1024
    (toInt32 eventData.length)
    (f (memoryData.take 1024 ++ copy (memoryData.drop 1024) eventData) 1024
      (toInt32 eventData.length))
  rw [ht.1, ht.2.1, written_memory_eq memoryData eventData hfit]
  exact ⟨rfl, rfl⟩

/-- C5: for a module exporting `detect` and `memory`, a serialized event of
length `L` and a linear memory of size `M`, `runSimpleRule` fails with the
insufficient-memory error without calling `detect` if and only if
`1024 + L > M`; when `1024 + L ≤ M` the slice expression is in range, `copy`
moves all `L` bytes, the memory keeps its size and no run ends in a range fault. -/
theorem runSimpleRule_insufficientMemory_iff (rule : SimpleWasmRule)
    (eventData : List Byte) (event : Event) (inst : Instance)
    (f : List Byte → Int → Int → CallResult) (memoryData : List Byte)
    (hw : rule.Engine.defineWasi = none)
    (hi : rule.Module.instantiate = Except.ok inst)
    (hf : inst.GetFunc "detect" = some f)
    (hm : inst.GetExport "memory" = some (Extern.memory memoryData)) :
    (((runSimpleRule rule eventData event).result =
          Except.error (RuleError.insufficientMemory rule.Name) ∧
        (runSimpleRule rule eventData event).calls = []) ↔
      1024 + eventData.length > memoryData.length) ∧
    ((runSimpleRule rule eventData event).result =
          Except.error (RuleError.insufficientMemory rule.Name) ↔
      1024 + eventData.length > memoryData.length) ∧
    (runSimpleRule rule eventData event).result ≠ Except.error RuleError.sliceOutOfRange ∧
    (1024 + eventData.length ≤ memoryData.length →
      sliceFrom memoryData 1024 = some (memoryData.drop 1024) ∧
      min (memoryData.drop 1024).length eventData.length = eventData.length ∧
      1024 + min (memoryData.drop 1024).length eventData.length ≤ memoryData.length ∧
      ∃ mem, (runSimpleRule rule eventData event).written = some mem ∧
        mem.length = memoryData.length) := by
  rw [runSimpleRule_of_exports rule eventData event inst f memoryData hw hi hf hm]
  by_cases hlt : memoryData.length < 1024 + eventData.length
  · rw [if_pos hlt]
    refine ⟨⟨fun _ => hlt, fun _ => ⟨rfl, rfl⟩⟩, ⟨fun _ => hlt, fun _ => rfl⟩, ?_, ?_⟩
    · simp [Run.fail]
    · intro hle
      omega
  · rw [if_neg hlt]
    have ht := Run.ofCall_trace rule event
      (memoryData.take 1024 ++ copy (memoryData.drop 1024) eventData) 1024
      (toInt32 eventData.length)
      (f (memoryData.take 1024 ++ copy (memoryData.drop 1024) eventData) 1024
        (toInt32 eventData.length))
    have hfit : 1024 + eventData.length ≤ memoryData.length := by omega
    refine ⟨⟨fun h => absurd h.1 ht.2.2.1, fun h => absurd h hlt⟩,
      ⟨fun h => absurd h ht.2.2.1, fun h => absurd h hlt⟩, ht.2.2.2, ?_⟩
    intro _
    have hdrop : (memoryData.drop 1024).length = memoryData.length - 1024 :=
      List.length_drop 1024 memoryData
    refine ⟨?_, ?_, ?_, _, ht.1, ?_⟩
    · simp [sliceFrom]
      omega
    · rw [hdrop]; omega
    · rw [hdrop]; omega
    · rw [written_memory_eq memoryData eventData hfit]
      simp only [List.length_append, List.length_take, List.length_drop]
      omega

/-- C5 at a module whose exported memory has no page: the run fails with the
insufficient-memory error and `detect` is not called. -/
theorem runSimpleRule_insufficientMemory_iff_witness :
    (((runSimpleRule (memRule "r_empty" [] 3) sampleData sampleEvent).result =
          Except.error (RuleError.insufficientMemory (memRule "r_empty" [] 3).Name) ∧
        (runSimpleRule (memRule "r_empty" [] 3) sampleData sampleEvent).calls = []) ↔
      1024 + sampleData.length > ([] : List Byte).length) ∧
    1024 + sampleData.length > ([] : List Byte).length :=
  ⟨(runSimpleRule_insufficientMemory_iff (memRule "r_empty" [] 3) sampleData sampleEvent
      _ _ [] rfl rfl rfl rfl).1, by decide⟩

/-- C6 (as stated, refuted): with a serialized event of 2^31 bytes and a guest
memory of 2^32 bytes the host write succeeds, and `detect` is invoked with the
length argument -2^31, not 2^31. -/
theorem detect_length_argument_wraps :
    (runSimpleRule (memRule "r_big" (List.replicate 4294967296 0) 0)
        (List.replicate 2147483648 0) sampleEvent).written.isSome = true ∧
    (runSimpleRule (memRule "r_big" (List.replicate 4294967296 0) 0)
        (List.replicate 2147483648 0) sampleEvent).calls = [(1024, -2147483648)] ∧
    (runSimpleRule (memRule "r_big" (List.replicate 4294967296 0) 0)
        (List.replicate 2147483648 0) sampleEvent).calls ≠
      [(1024, ((List.replicate 2147483648 (0 : Byte)).length : Int))] := by
  have ht := runSimpleRule_trace_of_fit (memRule "r_big" (List.replicate 4294967296 0) 0)
    (List.replicate 2147483648 0) sampleEvent _ _ (List.replicate 4294967296 0)
    rfl rfl rfl rfl (by rw [List.length_replicate, List.length_replicate]; decide)
  have hlen : toInt32 ((List.replicate 2147483648 (0 : Byte)).length : Int) = -2147483648 := by
    rw [List.length_replicate]; decide
  rw [ht.1, ht.2, hlen, List.length_replicate]
  refine ⟨rfl, rfl, ?_⟩
  decide

/-- C6 (amended): when the host write succeeds for a serialized event of length
`L`, the guest memory keeps its size, the bytes at offsets `[1024, 1024 + L)`
are the serialized event, every byte below 1024 or at or above `1024 + L` is
unchanged, and `detect` is invoked with `(1024, int32(L))`, which is `(1024, L)`
whenever `L < 2^31`. -/
theorem runSimpleRule_write_frame (rule : SimpleWasmRule) (eventData : List Byte)
    (event : Event) (inst : Instance) (f : List Byte → Int → Int → CallResult)
    (memoryData : List Byte)
    (hw : rule.Engine.defineWasi = none)
    (hi : rule.Module.instantiate = Except.ok inst)
    (hf : inst.GetFunc "detect" = some f)
    (hm : inst.GetExport "memory" = some (Extern.memory memoryData))
    (hfit : 1024 + eventData.length ≤ memoryData.length) :
    ∃ mem, (runSimpleRule rule eventData event).written = some mem ∧
      mem.length = memoryData.length ∧
      (∀ i, i < eventData.length → mem[1024 + i]? = eventData[i]?) ∧
      (∀ i, i < 1024 ∨ 1024 + eventData.length ≤ i → mem[i]? = memoryData[i]?) ∧
      (runSimpleRule rule eventData event).calls = [(1024, toInt32 eventData.length)] ∧
      (eventData.length < 2147483648 →
        (runSimpleRule rule eventData event).calls = [(1024, (eventData.length : Int))]) := by
  have ht := runSimpleRule_trace_of_fit rule eventData event inst f memoryData hw hi hf hm hfit
  have htake : (memoryData.take 1024).length = 1024 := by
    rw [List.length_take]; omega
  refine ⟨_, ht.1, ?_, ?_, ?_, ht.2, ?_⟩
  · simp only [List.length_append, List.length_take, List.length_drop]
    omega
  · intro i hi'
    rw [List.getElem?_append_right (by omega), htake, Nat.add_sub_cancel_left,
      List.getElem?_append_left hi']
  · rintro i (hlow | hhigh)
    · rw [List.getElem?_append_left (by omega), List.getElem?_take_of_lt hlow]
    · rw [List.getElem?_append_right (by omega), htake,
        List.getElem?_append_right (by omega), List.getElem?_drop]
      congr 1
      omega
  · intro hsmall
    rw [ht.2]
    have : toInt32 (eventData.length : Int) = (eventData.length : Int) := by
      unfold toInt32
      omega
    rw [this]

/-- C6 (amended) at the rule `r_page`, a one-page memory, and the sample event. -/
theorem runSimpleRule_write_frame_witness :
    ∃ mem, (runSimpleRule (constRule "r_page" 0) sampleData sampleEvent).written = some mem ∧
      mem.length = (List.replicate 65536 (0 : Byte)).length ∧
      (∀ i, i < sampleData.length → mem[1024 + i]? = sampleData[i]?) ∧
      (∀ i, i < 1024 ∨ 1024 + sampleData.length ≤ i →
        mem[i]? = (List.replicate 65536 (0 : Byte))[i]?) ∧
      (runSimpleRule (constRule "r_page" 0) sampleData sampleEvent).calls =
        [(1024, toInt32 sampleData.length)] ∧
      (sampleData.length < 2147483648 →
        (runSimpleRule (constRule "r_page" 0) sampleData sampleEvent).calls =
          [(1024, (sampleData.length : Int))]) :=
  runSimpleRule_write_frame (constRule "r_page" 0) sampleData sampleEvent _ _
    (List.replicate 65536 0) rfl rfl rfl rfl (by rw [List.length_replicate]; decide)

/-! ## The webhook sink -/

/-- The alerts one call contributes to the flushed ones. -/
theorem flushed_record (log : WebhookLog) (s : Sent) :
    flushed (log.record s).posts =
      flushed log.posts ++
        (match s.post, s.err with
          | some p, none => p.alerts
          | _, _ => []) := by
  unfold WebhookLog.record flushed
  cases hp : s.post with
  | none => simp
  | some p =>
    cases he : s.err with
    | none => simp [List.filter_append, List.flatMap_append]
    | some err => simp [List.filter_append, List.flatMap_append]

/-- What `sendBatch` does with a buffer that is not empty. -/
theorem sendBatch_cases (w : WebhookOutputHandler) (x : Exchange) (h : w.batch ≠ []) :
    (x.accepted = true ∧ (w.sendBatch x).err = none ∧
      (w.sendBatch x).handler = { w with batch := [] } ∧
      (w.sendBatch x).post =
        some { url := w.url, alerts := w.batch, count := w.batch.length }) ∨
    (x.accepted = false ∧ (∃ err, (w.sendBatch x).err = some err) ∧
      (w.sendBatch x).handler = w) := by
  have hlen : ¬ w.batch.length = 0 := by
    intro h0
    exact h (List.length_eq_zero.mp h0)
  unfold WebhookOutputHandler.sendBatch
  rw [if_neg hlen]
  cases x with
  | marshalFailed cause => right; exact ⟨rfl, ⟨_, rfl⟩, rfl⟩
  | requestFailed cause => right; exact ⟨rfl, ⟨_, rfl⟩, rfl⟩
  | transportFailed cause => right; exact ⟨rfl, ⟨_, rfl⟩, rfl⟩
  | response status body =>
    by_cases hs : status < 200 ∨ status ≥ 300
    · right
      dsimp only
      rw [if_pos hs]
      refine ⟨?_, ⟨_, rfl⟩, rfl⟩
      simp only [Exchange.accepted, decide_eq_false_iff_not]
      omega
    · left
      dsimp only
      rw [if_neg hs]
      refine ⟨?_, rfl, rfl, rfl⟩
      simp only [Exchange.accepted, decide_eq_true_eq]
      omega

/-- One `Handle` call adds its result to what is flushed or buffered, at the end. -/
theorem Handle_preserves_order (w : WebhookOutputHandler) (result : DetectionResult)
    (x : Exchange) :
    (match (w.Handle result x).post, (w.Handle result x).err with
      | some p, none => p.alerts
      | _, _ => []) ++ (w.Handle result x).handler.batch = w.batch ++ [result] := by
  unfold WebhookOutputHandler.Handle
  dsimp only
  by_cases hfull : ((w.batch ++ [result]).length : Int) ≥ w.batchSize
  · rw [if_pos hfull]
    rcases sendBatch_cases { w with batch := w.batch ++ [result] } x (by simp) with
      ⟨_, herr, hh, hp⟩ | ⟨_, ⟨err, herr⟩, hh⟩
    · rw [hp, herr, hh]
      simp
    · rw [herr, hh]
      cases ({ w with batch := w.batch ++ [result] } : WebhookOutputHandler).sendBatch x |>.post
        <;> simp
  · rw [if_neg hfull]
    rfl

/-- The order invariant of the webhook sink over a sequence of `Handle` calls,
from any log. -/
theorem handleAll_preserves_order (steps : List (DetectionResult × Exchange)) :
    ∀ log : WebhookLog,
      flushed (handleAll log steps).posts ++ (handleAll log steps).handler.batch =
        flushed log.posts ++ log.handler.batch ++ steps.map Prod.fst := by
  induction steps with
  | nil => intro log; simp [handleAll]
  | cons step rest ih =>
    intro log
    obtain ⟨result, x⟩ := step
    unfold handleAll
    rw [ih, flushed_record]
    have hrec : (log.record (log.handler.Handle result x)).handler =
        (log.handler.Handle result x).handler := rfl
    rw [hrec, List.append_assoc (flushed log.posts), Handle_preserves_order]
    simp

/-- C7: for every sequence of `Handle` calls and every pattern of outcomes of
the flushes, the alerts of the successfully flushed batches, in flush order,
followed by the current buffer, are the buffer the handler started with followed
by the results passed to `Handle`, in call order; from the empty buffer of a new
handler they are exactly the results handled. -/
theorem webhook_order_preserved (w : WebhookOutputHandler)
    (steps : List (DetectionResult × Exchange)) :
    flushed (handleAll { handler := w, posts := [] } steps).posts ++
        (handleAll { handler := w, posts := [] } steps).handler.batch =
      w.batch ++ steps.map Prod.fst ∧
    ∀ (url : String) (headers : List (String × String)),
      flushed (handleAll { handler := NewWebhookOutputHandler url headers, posts := [] }
          steps).posts ++
        (handleAll { handler := NewWebhookOutputHandler url headers, posts := [] }
          steps).handler.batch =
      steps.map Prod.fst := by
  refine ⟨?_, ?_⟩
  · rw [handleAll_preserves_order]
    simp [flushed]
  · intro url headers
    rw [handleAll_preserves_order]
    simp [flushed, NewWebhookOutputHandler]

/-- C8: on a buffer that is not empty, `sendBatch` returns no error and leaves
the buffer with length 0 when the request is transported and the status is in
200..299; in every other case it returns an error and leaves the handler, and
with it the buffer, exactly as it was. -/
theorem sendBatch_outcome (w : WebhookOutputHandler) (x : Exchange) (h : w.batch ≠ []) :
    (x.accepted = true →
      (w.sendBatch x).err = none ∧ (w.sendBatch x).handler.batch.length = 0) ∧
    (x.accepted = false →
      (∃ err, (w.sendBatch x).err = some err) ∧ (w.sendBatch x).handler = w ∧
      (w.sendBatch x).handler.batch = w.batch) := by
  rcases sendBatch_cases w x h with ⟨hacc, herr, hh, _⟩ | ⟨hacc, herr, hh⟩
  · refine ⟨fun _ => ⟨herr, ?_⟩, fun hno => ?_⟩
    · rw [hh]; rfl
    · rw [hacc] at hno; exact absurd hno (by decide)
  · refine ⟨fun hyes => ?_, fun _ => ⟨herr, hh, ?_⟩⟩
    · rw [hacc] at hyes; exact absurd hyes (by decide)
    · rw [hh]

/-- C8 at a buffer of one result: status 204 empties it, status 503 keeps it. -/
theorem sendBatch_outcome_witness :
    ((({ url := "http://hook", headers := [], batchSize := 10
         batch := [sampleResult "t_ok"] } : WebhookOutputHandler).sendBatch
        (Exchange.response 204 "")).err = none ∧
      (({ url := "http://hook", headers := [], batchSize := 10
          batch := [sampleResult "t_ok"] } : WebhookOutputHandler).sendBatch
        (Exchange.response 204 "")).handler.batch.length = 0) ∧
    (({ url := "http://hook", headers := [], batchSize := 10
        batch := [sampleResult "t_ok"] } : WebhookOutputHandler).sendBatch
      (Exchange.response 503 "busy")).handler.batch = [sampleResult "t_ok"] :=
  ⟨(sendBatch_outcome _ (Exchange.response 204 "") (by simp)).1 (by decide),
   ((sendBatch_outcome _ (Exchange.response 503 "busy") (by simp)).2 (by decide)).2.2⟩

/-- One `Handle` call on a handler of threshold 10 whose endpoint answers 200:
the tenth buffered result is flushed with the nine before it, an earlier one is
only buffered. -/
theorem Handle_ok_step (w : WebhookOutputHandler) (result : DetectionResult) (body : String)
    (hsize : w.batchSize = 10) (hb : w.batch.length < 10) :
    (w.batch.length = 9 ∧
      (w.Handle result (Exchange.response 200 body)).handler =
        { w with batch := [] } ∧
      (w.Handle result (Exchange.response 200 body)).err = none ∧
      (w.Handle result (Exchange.response 200 body)).post =
        some { url := w.url, alerts := w.batch ++ [result], count := 10 }) ∨
    (w.batch.length < 9 ∧
      (w.Handle result (Exchange.response 200 body)).handler =
        { w with batch := w.batch ++ [result] } ∧
      (w.Handle result (Exchange.response 200 body)).post = none) := by
  obtain ⟨u, hd, bs, b⟩ := w
  dsimp only at hsize hb ⊢
  subst hsize
  have hlen : (b ++ [result]).length = b.length + 1 := by simp
  unfold WebhookOutputHandler.Handle
  dsimp only
  rw [hlen]
  by_cases hfull : ((b.length + 1 : Nat) : Int) ≥ 10
  · rw [if_pos hfull]
    have h9 : b.length = 9 := by omega
    left
    rcases sendBatch_cases { url := u, headers := hd, batchSize := 10, batch := b ++ [result] }
        (Exchange.response 200 body) (by simp) with
      ⟨_, herr, hh, hp⟩ | ⟨hacc, _, _⟩
    · dsimp only at hh hp
      refine ⟨h9, hh, herr, ?_⟩
      rw [hp, hlen, h9]
    · exact absurd hacc (by simp [Exchange.accepted])
  · rw [if_neg hfull]
    right
    exact ⟨by omega, rfl, rfl⟩

/-- The batches a handler of threshold 10 posts to an endpoint that answers 200. -/
theorem handleAll_ok_batches (body : String) (results : List DetectionResult) :
    ∀ log : WebhookLog, log.handler.batchSize = 10 → log.handler.batch.length < 10 →
      (handleAll log (results.map (fun r => (r, Exchange.response 200 body)))).handler.batchSize
        = 10 ∧
      (handleAll log (results.map (fun r => (r, Exchange.response 200 body)))).handler.batch.length
        = (log.handler.batch.length + results.length) % 10 ∧
      (handleAll log (results.map (fun r => (r, Exchange.response 200 body)))).posts.length
        = log.posts.length + (log.handler.batch.length + results.length) / 10 ∧
      ∀ p ∈ (handleAll log (results.map (fun r => (r, Exchange.response 200 body)))).posts,
        p ∈ log.posts ∨ (p.1.count = 10 ∧ p.1.alerts.length = 10 ∧ p.2 = none) := by
  induction results with
  | nil =>
    intro log hsize hb
    simp only [List.map_nil, handleAll, List.length_nil, Nat.add_zero]
    refine ⟨hsize, ?_, ?_, fun p hp => Or.inl hp⟩
    · omega
    · omega
  | cons r rest ih =>
    intro log hsize hb
    simp only [List.map_cons, handleAll, List.length_cons]
    rcases Handle_ok_step log.handler r body hsize hb with
      ⟨h9, hh, herr, hp⟩ | ⟨hlt, hh, hp⟩
    · have hrec : log.record (log.handler.Handle r (Exchange.response 200 body)) =
          { handler := { log.handler with batch := [] }
            posts := log.posts ++
              [({ url := log.handler.url, alerts := log.handler.batch ++ [r], count := 10 },
                none)] } := by
        unfold WebhookLog.record
        rw [hh, hp, herr]
      rw [hrec]
      obtain ⟨i1, i2, i3, i4⟩ := ih
        { handler := { log.handler with batch := [] }
          posts := log.posts ++
            [({ url := log.handler.url, alerts := log.handler.batch ++ [r], count := 10 },
              none)] } hsize (Nat.zero_lt_succ 9)
      refine ⟨i1, ?_, ?_, ?_⟩
      · rw [i2]; simp only [List.length_nil]; omega
      · rw [i3]; simp only [List.length_nil, List.length_append, List.length_singleton]; omega
      · intro p hp'
        rcases i4 p hp' with hin | hnew
        · rcases List.mem_append.mp hin with hold | hlast
          · exact Or.inl hold
          · right
            rw [List.mem_singleton.mp hlast]
            refine ⟨rfl, ?_, rfl⟩
            simp only [List.length_append, List.length_singleton]
            omega
        · exact Or.inr hnew
    · have hrec : log.record (log.handler.Handle r (Exchange.response 200 body)) =
          { handler := { log.handler with batch := log.handler.batch ++ [r] }
            posts := log.posts } := by
        unfold WebhookLog.record
        rw [hh, hp]
      rw [hrec]
      obtain ⟨i1, i2, i3, i4⟩ := ih
        { handler := { log.handler with batch := log.handler.batch ++ [r] }
          posts := log.posts } hsize
        (by simp only [List.length_append, List.length_singleton]; omega)
      refine ⟨i1, ?_, ?_, i4⟩
      · rw [i2]; simp only [List.length_append, List.length_singleton]; omega
      · rw [i3]; simp only [List.length_append, List.length_singleton]; omega

/-- C9: from the empty buffer of a new handler (threshold 10) and an endpoint
that always answers 200, `n` calls of `Handle` issue exactly `n / 10` POSTs,
each accepted with count 10 and 10 alerts, and leave `n % 10` results in the
buffer; `Close` then issues one POST with count `n % 10` when that is not zero,
and none when it is zero. -/
theorem webhook_batches_of_ten (url : String) (headers : List (String × String))
    (body : String) (results : List DetectionResult) :
    (handleEach (NewWebhookOutputHandler url headers) (Exchange.response 200 body)
        results).posts.length = results.length / 10 ∧
    (∀ p ∈ (handleEach (NewWebhookOutputHandler url headers) (Exchange.response 200 body)
        results).posts, p.1.count = 10 ∧ p.1.alerts.length = 10 ∧ p.2 = none) ∧
    (handleEach (NewWebhookOutputHandler url headers) (Exchange.response 200 body)
        results).handler.batch.length = results.length % 10 ∧
    (results.length % 10 ≠ 0 →
      ∃ p, ((handleEach (NewWebhookOutputHandler url headers) (Exchange.response 200 body)
          results).handler.Close (Exchange.response 200 body)).post = some p ∧
        p.count = results.length % 10 ∧ p.alerts.length = results.length % 10 ∧
        ((handleEach (NewWebhookOutputHandler url headers) (Exchange.response 200 body)
          results).handler.Close (Exchange.response 200 body)).err = none ∧
        ((handleEach (NewWebhookOutputHandler url headers) (Exchange.response 200 body)
          results).handler.Close (Exchange.response 200 body)).handler.batch = []) ∧
    (results.length % 10 = 0 →
      ((handleEach (NewWebhookOutputHandler url headers) (Exchange.response 200 body)
        results).handler.Close (Exchange.response 200 body)).post = none) := by
  obtain ⟨_, h2, h3, h4⟩ := handleAll_ok_batches body results
    { handler := NewWebhookOutputHandler url headers, posts := [] } rfl
    (by simp [NewWebhookOutputHandler])
  have hb0 : (NewWebhookOutputHandler url headers).batch.length = 0 := rfl
  unfold handleEach
  generalize handleAll { handler := NewWebhookOutputHandler url headers, posts := [] }
    (results.map (fun r => (r, Exchange.response 200 body))) = final at h2 h3 h4
  simp only [hb0, Nat.zero_add, List.length_nil] at h2 h3
  refine ⟨h3, ?_, h2, ?_, ?_⟩
  · intro p hp
    rcases h4 p hp with hin | hnew
    · exact absurd hin (List.not_mem_nil p)
    · exact hnew
  · intro hne
    have hnonempty : final.handler.batch ≠ [] := by
      intro hnil
      rw [hnil] at h2
      exact hne h2.symm
    have hpos : final.handler.batch.length > 0 := by omega
    unfold WebhookOutputHandler.Close
    rw [if_pos hpos]
    rcases sendBatch_cases final.handler (Exchange.response 200 body) hnonempty with
      ⟨_, herr, hh, hp⟩ | ⟨hacc, _, _⟩
    · exact ⟨_, hp, h2, h2, herr, by rw [hh]⟩
    · exact absurd hacc (by simp [Exchange.accepted])
  · intro hz
    have hlen0 : ¬ final.handler.batch.length > 0 := by omega
    unfold WebhookOutputHandler.Close
    rw [if_neg hlen0]

/-- C9 on the batching scenario: 25 detections give two POSTs, leave 5 results
in the buffer, and `Close` posts those 5. -/
theorem webhook_batches_of_ten_witness :
    (handleEach (NewWebhookOutputHandler "http://hook" []) (Exchange.response 200 "")
        (List.replicate 25 (sampleResult "t_ok"))).posts.length = 2 ∧
    (handleEach (NewWebhookOutputHandler "http://hook" []) (Exchange.response 200 "")
        (List.replicate 25 (sampleResult "t_ok"))).handler.batch.length = 5 ∧
    ∃ p, ((handleEach (NewWebhookOutputHandler "http://hook" []) (Exchange.response 200 "")
        (List.replicate 25 (sampleResult "t_ok"))).handler.Close
          (Exchange.response 200 "")).post = some p ∧ p.count = 5 := by
  have h := webhook_batches_of_ten "http://hook" [] "" (List.replicate 25 (sampleResult "t_ok"))
  simp only [List.length_replicate] at h
  obtain ⟨h1, _, h3, h4, _⟩ := h
  obtain ⟨p, hp, hc, _⟩ := h4 (by decide)
  exact ⟨h1, h3, p, hp, hc⟩

/-! ## The dispatcher -/

/-- The loop of the dispatcher from position `i` with the error `lastErr` so far:
it calls the sinks at `i, i + 1, ...` in turn, each on its own state, and ends
with the last error any of them returned, or `lastErr` when none did. -/
theorem multiHandleLoop_spec {σ : Type} (result : DetectionResult) :
    ∀ (handlers : List (Sink σ)) (i : Nat) (lastErr : Option String),
      (multiHandleLoop result handlers i lastErr).calls = List.range' i handlers.length ∧
      (multiHandleLoop result handlers i lastErr).handlers =
        handlers.map (fun h => { h with state := (h.Handle h.state result).1 }) ∧
      (multiHandleLoop result handlers i lastErr).lastErr =
        (lastErr.toList ++
          handlers.filterMap (fun h => (h.Handle h.state result).2)).getLast? := by
  intro handlers
  induction handlers with
  | nil =>
    intro i lastErr
    refine ⟨rfl, rfl, ?_⟩
    cases lastErr <;> simp [multiHandleLoop]
  | cons handler rest ih =>
    intro i lastErr
    unfold multiHandleLoop
    dsimp only
    obtain ⟨h1, h2, h3⟩ := ih (i + 1)
      (match (handler.Handle handler.state result).2 with
        | some err => some err
        | none => lastErr)
    refine ⟨?_, ?_, ?_⟩
    · rw [h1]; rfl
    · rw [h2]; rfl
    · rw [h3]
      cases herr : (handler.Handle handler.state result).2 with
      | none => simp [herr]
      | some err =>
        cases lastErr with
        | none => simp [herr]
        | some old =>
          simp only [herr, Option.toList, List.filterMap_cons, List.singleton_append]
          rw [List.getLast?_cons_cons]

/-- C10: `MultiOutputHandler.Handle` calls `Handle` on every sink exactly once,
in registration order, whether or not earlier sinks returned errors; it returns
the error of the last sink, in registration order, that failed, and no error
exactly when no sink failed. -/
theorem MultiOutputHandler_Handle_spec {σ : Type} (handlers : List (Sink σ))
    (result : DetectionResult) :
    (MultiOutputHandler.Handle handlers result).calls = List.range handlers.length ∧
    (MultiOutputHandler.Handle handlers result).handlers =
      handlers.map (fun h => { h with state := (h.Handle h.state result).1 }) ∧
    (MultiOutputHandler.Handle handlers result).lastErr =
      (handlers.filterMap (fun h => (h.Handle h.state result).2)).getLast? ∧
    ((MultiOutputHandler.Handle handlers result).lastErr = none ↔
      ∀ h ∈ handlers, (h.Handle h.state result).2 = none) := by
  obtain ⟨h1, h2, h3⟩ := multiHandleLoop_spec result handlers 0 none
  have h3' : (MultiOutputHandler.Handle handlers result).lastErr =
      (handlers.filterMap (fun h => (h.Handle h.state result).2)).getLast? := by
    unfold MultiOutputHandler.Handle
    rw [h3]
    rfl
  refine ⟨?_, h2, h3', ?_⟩
  · unfold MultiOutputHandler.Handle
    rw [h1, List.range_eq_range']
  · rw [h3', List.getLast?_eq_none_iff, List.filterMap_eq_nil_iff]

/-- The dispatcher on three sinks of which the first and the last fail: all three
are called once, in order, and the error of the last one is returned. -/
theorem MultiOutputHandler_Handle_three_sinks :
    (MultiOutputHandler.Handle
      [countingSink (some "log"), countingSink none, countingSink (some "metrics")]
      (sampleResult "t_ok")).calls = [0, 1, 2] ∧
    (MultiOutputHandler.Handle
      [countingSink (some "log"), countingSink none, countingSink (some "metrics")]
      (sampleResult "t_ok")).lastErr = some "metrics" ∧
    (MultiOutputHandler.Handle
      [countingSink (some "log"), countingSink none, countingSink (some "metrics")]
      (sampleResult "t_ok")).handlers.map (fun h => h.state) = [1, 1, 1] :=
  ⟨rfl, rfl, rfl⟩

/-- A handler of threshold 2 whose second flush is rejected: the third call posts
all three results in call order and empties the buffer. -/
theorem webhook_retained_batch_example :
    (flushed (handleAll
      { handler := { url := "http://hook", headers := [], batchSize := 2, batch := [] }
        posts := [] }
      [(sampleResult "a", Exchange.response 200 ""),
       (sampleResult "b", Exchange.response 503 "busy"),
       (sampleResult "c", Exchange.response 200 "")]).posts).map (fun d => d.RuleName) =
      ["a", "b", "c"] ∧
    (handleAll
      { handler := { url := "http://hook", headers := [], batchSize := 2, batch := [] }
        posts := [] }
      [(sampleResult "a", Exchange.response 200 ""),
       (sampleResult "b", Exchange.response 503 "busy"),
       (sampleResult "c", Exchange.response 200 "")]).handler.batch.length = 0 := by
  constructor <;> rfl

/-! ## The registry -/

/-- The keys of a map after an assignment. -/
theorem mapSet_keys {α : Type} (m : List (String × α)) (k : String) (v : α) :
    (mapSet m k v).map Prod.fst = (m.map Prod.fst).filter (fun n => n != k) ++ [k] := by
  unfold mapSet
  rw [List.map_append, List.filter_map]
  rfl

/-- The keys of a map after a deletion. -/
theorem mapDelete_keys {α : Type} (m : List (String × α)) (k : String) :
    (mapDelete m k).map Prod.fst = (m.map Prod.fst).filter (fun n => n != k) := by
  unfold mapDelete
  rw [List.filter_map]
  rfl

/-- A lookup finds nothing exactly for a name that is not a key. -/
theorem mapGet?_eq_none_iff {α : Type} (m : List (String × α)) (k : String) :
    mapGet? m k = none ↔ k ∉ m.map Prod.fst := by
  unfold mapGet?
  rw [Option.map_eq_none', List.find?_eq_none]
  constructor
  · intro h hk
    obtain ⟨p, hp, hpk⟩ := List.mem_map.mp hk
    exact h p hp (by simp [hpk])
  · intro h p hp hpk
    exact h (List.mem_map.mpr ⟨p, hp, by simpa using hpk⟩)

/-- A name other than `k` occurs among the filtered keys as often as before. -/
theorem count_filter_ne (keys : List String) (k other : String) (h : other ≠ k) :
    (keys.filter (fun n => n != k)).count other = keys.count other := by
  induction keys with
  | nil => rfl
  | cons n rest ih =>
    by_cases hn : n = k
    · subst hn
      have hne : (n != n) = false := by simp
      rw [List.filter_cons, hne]
      simp only [Bool.false_eq_true, if_false]
      rw [ih]
      simp [List.count_cons, Ne.symm h]
    · have hne : (n != k) = true := by simp [hn]
      rw [List.filter_cons, hne]
      simp only [if_true, List.count_cons, ih]

/-- The name `k` does not occur among the keys filtered on `k`. -/
theorem not_mem_filter_ne (keys : List String) (k : String) :
    k ∉ keys.filter (fun n => n != k) := by
  intro h
  have := (List.mem_filter.mp h).2
  simp at this

/-- What `LoadRule` does to the engine when it returns no error. -/
theorem LoadRule_ok (host : Host) (e e1 : SimpleEngine) (name wasmPath : String)
    (h : LoadRule host e name wasmPath = (e1, none)) :
    ∃ compiled, readAndCompile host wasmPath = Except.ok compiled ∧
      e1 = { e with rules := mapSet e.rules name ⟨name, compiled, e.engine⟩ } := by
  unfold LoadRule at h
  cases hrc : readAndCompile host wasmPath with
  | error err => rw [hrc] at h; simp at h
  | ok compiled =>
    rw [hrc] at h
    exact ⟨compiled, rfl, (Prod.mk.inj h).1.symm⟩

/-- What `LoadRule` does when reading or compiling fails. -/
theorem LoadRule_error (host : Host) (e : SimpleEngine) (name wasmPath : String)
    (err : RegistryError) (h : readAndCompile host wasmPath = Except.error err) :
    LoadRule host e name wasmPath = (e, some err) := by
  unfold LoadRule
  rw [h]

/-- What `LoadRule` does when reading and compiling succeed. -/
theorem LoadRule_of_module (host : Host) (e : SimpleEngine) (name wasmPath : String)
    (compiled : Module) (h : readAndCompile host wasmPath = Except.ok compiled) :
    LoadRule host e name wasmPath =
      ({ e with rules := mapSet e.rules name ⟨name, compiled, e.engine⟩ }, none) := by
  unfold LoadRule
  rw [h]

/-- C11: after a successful `LoadRule(name, path)` the list `GetLoadedRules`
holds `name` exactly once and every other name as often as before; after a
successful `UnloadRule(name)` it does not hold `name` and holds every other name
as often as before. -/
theorem registry_names_after_load_unload (host : Host) (e : SimpleEngine)
    (name wasmPath : String) :
    (∀ e1, LoadRule host e name wasmPath = (e1, none) →
      (GetLoadedRules e1).count name = 1 ∧
      ∀ other, other ≠ name →
        (GetLoadedRules e1).count other = (GetLoadedRules e).count other ∧
        (other ∈ GetLoadedRules e → other ∈ GetLoadedRules e1)) ∧
    (∀ e1, UnloadRule e name = (e1, none) →
      name ∉ GetLoadedRules e1 ∧
      ∀ other, other ≠ name →
        (GetLoadedRules e1).count other = (GetLoadedRules e).count other ∧
        (other ∈ GetLoadedRules e → other ∈ GetLoadedRules e1)) := by
  have hmem : ∀ (keys : List String) (other : String), other ≠ name →
      other ∈ keys → other ∈ keys.filter (fun n => n != name) := by
    intro keys other hne hin
    exact List.mem_filter.mpr ⟨hin, by simp [hne]⟩
  constructor
  · intro e1 h
    obtain ⟨compiled, _, he1⟩ := LoadRule_ok host e e1 name wasmPath h
    subst he1
    unfold GetLoadedRules
    dsimp only
    rw [mapSet_keys]
    refine ⟨?_, ?_⟩
    · rw [List.count_append, List.count_eq_zero_of_not_mem (not_mem_filter_ne _ name)]
      simp
    · intro other hne
      refine ⟨?_, fun hin => List.mem_append_left _ (hmem _ other hne hin)⟩
      rw [List.count_append, count_filter_ne _ name other hne,
        List.count_singleton']
      simp [Ne.symm hne]
  · intro e1 h
    unfold UnloadRule at h
    cases hget : mapGet? e.rules name with
    | none => rw [hget] at h; simp at h
    | some rule =>
      rw [hget] at h
      have he1 := (Prod.mk.inj h).1.symm
      subst he1
      unfold GetLoadedRules
      dsimp only
      rw [mapDelete_keys]
      refine ⟨not_mem_filter_ne _ name, ?_⟩
      intro other hne
      exact ⟨count_filter_ne _ name other hne, fun hin => hmem _ other hne hin⟩

/-- C11 on an engine holding `t_ok`: reloading `t_ok` keeps one entry of that
name, and unloading it leaves none. -/
theorem registry_names_after_load_unload_witness :
    (GetLoadedRules (LoadRule sampleHost loadedEngine "t_ok" "rules/a.wasm").1).count "t_ok"
      = 1 ∧
    "t_ok" ∉ GetLoadedRules (UnloadRule loadedEngine "t_ok").1 :=
  ⟨((registry_names_after_load_unload sampleHost loadedEngine "t_ok" "rules/a.wasm").1
      _ rfl).1,
   ((registry_names_after_load_unload sampleHost loadedEngine "t_ok" "rules/a.wasm").2
      _ rfl).1⟩

/-- When `readAndCompile` fails: the read failed or the compilation did. -/
theorem readAndCompile_error_iff (host : Host) (wasmPath : String) :
    (∃ err, readAndCompile host wasmPath = Except.error err) ↔
      (∃ cause, host.readFile wasmPath = Except.error cause) ∨
      (∃ bytes cause, host.readFile wasmPath = Except.ok bytes ∧
        host.compile bytes = Except.error cause) := by
  unfold readAndCompile
  cases hr : host.readFile wasmPath with
  | error cause => simp
  | ok bytes =>
    cases hc : host.compile bytes with
    | error cause => simp [hc]
    | ok compiled => simp [hc]

/-- C12: `UnloadRule(name)` fails, with the not-found error, if and only if
`name` is not loaded; `LoadRule` fails exactly when the file read or the
compilation fails; and whenever either returns an error the engine, and with it
the mapping from rule name to module, is what it was before the call. -/
theorem registry_errors_leave_mapping (host : Host) (e : SimpleEngine)
    (name wasmPath : String) :
    (((UnloadRule e name).2 ≠ none ↔ name ∉ GetLoadedRules e) ∧
      ((UnloadRule e name).2 ≠ none →
        (UnloadRule e name).2 = some (RegistryError.notFound name) ∧
        (UnloadRule e name).1 = e)) ∧
    (((LoadRule host e name wasmPath).2 ≠ none ↔
        (∃ cause, host.readFile wasmPath = Except.error cause) ∨
        (∃ bytes cause, host.readFile wasmPath = Except.ok bytes ∧
          host.compile bytes = Except.error cause)) ∧
      ((LoadRule host e name wasmPath).2 ≠ none →
        (LoadRule host e name wasmPath).1 = e ∧
        mapGet? (LoadRule host e name wasmPath).1.rules name = mapGet? e.rules name)) := by
  constructor
  · unfold UnloadRule GetLoadedRules
    cases hget : mapGet? e.rules name with
    | none =>
      have hnot := (mapGet?_eq_none_iff e.rules name).mp hget
      exact ⟨⟨fun _ => hnot, fun _ => by simp⟩, fun _ => ⟨rfl, rfl⟩⟩
    | some rule =>
      have hin : ¬ name ∉ e.rules.map Prod.fst := by
        intro hnot
        rw [(mapGet?_eq_none_iff e.rules name).mpr hnot] at hget
        exact absurd hget (by simp)
      exact ⟨⟨fun h => absurd rfl h, fun h => absurd h hin⟩, fun h => absurd rfl h⟩
  · rw [← readAndCompile_error_iff]
    cases hrc : readAndCompile host wasmPath with
    | error err =>
      rw [LoadRule_error host e name wasmPath err hrc]
      exact ⟨⟨fun _ => ⟨err, rfl⟩, fun _ => by simp⟩, fun _ => ⟨rfl, rfl⟩⟩
    | ok compiled =>
      rw [LoadRule_of_module host e name wasmPath compiled hrc]
      refine ⟨⟨fun h => absurd rfl h, ?_⟩, fun h => absurd rfl h⟩
      rintro ⟨err, herr⟩
      exact absurd herr (by simp)

/-- Deleting every key of a map leaves no entry. -/
theorem foldl_mapDelete_all {α : Type} (keys : List String) :
    ∀ m : List (String × α), (∀ p ∈ m, p.1 ∈ keys) → keys.foldl mapDelete m = [] := by
  induction keys with
  | nil =>
    intro m h
    cases m with
    | nil => rfl
    | cons p rest => exact absurd (h p (List.mem_cons_self p rest)) (List.not_mem_nil _)
  | cons k rest ih =>
    intro m h
    rw [List.foldl_cons]
    apply ih
    intro p hp
    obtain ⟨hpm, hne⟩ := List.mem_filter.mp hp
    rcases List.mem_cons.mp (h p hpm) with hk | hrest
    · simp [hk] at hne
    · exact hrest

/-- `Close` leaves the engine `NewSimpleEngine` builds. -/
theorem Close_eq_new (e : SimpleEngine) :
    e.Close = (NewSimpleEngine e.engine, none) := by
  unfold SimpleEngine.Close NewSimpleEngine
  rw [foldl_mapDelete_all (e.rules.map Prod.fst) e.rules
    (fun p hp => List.mem_map.mpr ⟨p, hp, rfl⟩)]

/-- C13 (as stated, refuted): after `Close` on an engine holding `t_ok`, a
`DetectThreat` call returns the empty list and no error, a `LoadRule` call
succeeds and loads the rule, and an `UnloadRule` call fails with the not-found
error: no call fails with a Closed error. -/
theorem calls_after_Close_do_not_fail_closed :
    DetectThreat sampleMarshal loadedEngine.Close.1 sampleEvent = Except.ok [] ∧
    (LoadRule sampleHost loadedEngine.Close.1 "a" "rules/a.wasm").2 = none ∧
    GetLoadedRules (LoadRule sampleHost loadedEngine.Close.1 "a" "rules/a.wasm").1 = ["a"] ∧
    (UnloadRule loadedEngine.Close.1 "t_ok").2 = some (RegistryError.notFound "t_ok") := by
  rw [Close_eq_new]
  exact ⟨rfl, rfl, rfl, rfl⟩

/-- C13 (amended): after `Close` the registry holds no rule and the engine is
the one `NewSimpleEngine` builds; there is no closed state: a later
`UnloadRule` fails with the not-found error, a later `DetectThreat` on an event
that serializes returns the empty list and no error, and a later `LoadRule`
does what it does on a new engine. -/
theorem Close_empties_registry (e : SimpleEngine) :
    GetLoadedRules e.Close.1 = [] ∧ e.Close.2 = none ∧
    e.Close.1 = NewSimpleEngine e.engine ∧
    (∀ name, UnloadRule e.Close.1 name = (e.Close.1, some (RegistryError.notFound name))) ∧
    (∀ (marshal : Event → Except String (List Byte)) (event : Event) (eventData : List Byte),
      event.ToJSON marshal = Except.ok eventData →
      DetectThreat marshal e.Close.1 event = Except.ok []) ∧
    (∀ (host : Host) (name wasmPath : String),
      LoadRule host e.Close.1 name wasmPath =
        LoadRule host (NewSimpleEngine e.engine) name wasmPath) := by
  rw [Close_eq_new]
  refine ⟨rfl, rfl, rfl, fun name => rfl, ?_, fun _ _ _ => rfl⟩
  intro marshal event eventData h
  rw [DetectThreat_of_serialized marshal _ event eventData h]
  rfl

/-- The path functions on a few paths: extension and base name of a rule file,
a trailing separator, a dot in a directory name, a path of separators only. -/
theorem filepath_examples :
    Ext "rules/a.wasm" = ".wasm" ∧ Base "rules/a.wasm" = "a.wasm" ∧
    dropExtension (Base "rules/a.wasm") = some "a" ∧
    Ext "rules/a.wasm/" = "" ∧ Base "rules/a.wasm/" = "a.wasm" ∧
    Ext "rules.d/readme" = "" ∧ Ext "rules/.wasm" = ".wasm" ∧
    dropExtension (Base "rules/.wasm") = some "" ∧
    Base "///" = "/" ∧ Base "" = "." ∧ dropExtension "abc" = none := by
  decide

/-- What the loop of `filepath.Ext` returns when it returns an extension: the
dot it met and what it passed before, none of it a separator or a dot. -/
theorem extLoop_spec : ∀ (rest acc r : List Char), extLoop rest acc = r → r ≠ [] →
    ∃ xs tail, rest = xs ++ '.' :: tail ∧ (∀ c ∈ xs, c ≠ '/' ∧ c ≠ '.') ∧
      r = '.' :: (xs.reverse ++ acc) := by
  intro rest
  induction rest with
  | nil =>
    intro acc r h hr
    exact absurd h.symm hr
  | cons c rest ih =>
    intro acc r h hr
    unfold extLoop at h
    by_cases hs : c = '/'
    · rw [if_pos hs] at h
      exact absurd h.symm hr
    · rw [if_neg hs] at h
      by_cases hd : c = '.'
      · rw [if_pos hd] at h
        exact ⟨[], rest, by simp [hd], by simp, by simp [← h, hd]⟩
      · rw [if_neg hd] at h
        obtain ⟨xs, tail, hrest, hxs, hr'⟩ := ih (c :: acc) r h hr
        refine ⟨c :: xs, tail, by simp [hrest], ?_, ?_⟩
        · intro d hdmem
          rcases List.mem_cons.mp hdmem with rfl | hin
          · exact ⟨hs, hd⟩
          · exact hxs d hin
        · simp [hr']

/-- A path whose extension is `.wasm` ends with these five characters. -/
theorem reverse_of_Ext_wasm (path : String) (h : Ext path = ".wasm") :
    ∃ tail, path.data.reverse = 'm' :: 's' :: 'a' :: 'w' :: '.' :: tail := by
  have hdata : extLoop path.data.reverse [] = ['.', 'w', 'a', 's', 'm'] := by
    have := congrArg String.data h
    exact this
  obtain ⟨xs, tail, hrest, _, hr⟩ :=
    extLoop_spec path.data.reverse [] _ hdata (by simp)
  have hxs : xs.reverse = ['w', 'a', 's', 'm'] := by
    simpa using hr.symm
  have hxs' : xs = ['m', 's', 'a', 'w'] := by
    have := congrArg List.reverse hxs
    simpa using this
  exact ⟨tail, by rw [hrest, hxs']; rfl⟩

/-- When the extension of a path is `.wasm`, its base name is a stem followed by
`.wasm`, and the slice expression of `LoadRulesFromDir` returns that stem. -/
theorem dropExtension_of_Ext_wasm (path : String) (h : Ext path = ".wasm") :
    ∃ name, dropExtension (Base path) = some name ∧ name ++ ".wasm" = Base path := by
  obtain ⟨tail, hrev⟩ := reverse_of_Ext_wasm path h
  have hne : path.data ≠ [] := by
    intro hnil
    rw [hnil] at hrev
    exact absurd hrev (by simp)
  have hbase : Base path =
      String.mk ((tail.takeWhile (fun c => c != '/')).reverse ++ ['.', 'w', 'a', 's', 'm']) := by
    unfold Base
    rw [if_neg hne, hrev]
    simp [List.dropWhile, List.takeWhile]
  refine ⟨String.mk (tail.takeWhile (fun c => c != '/')).reverse, ?_, ?_⟩
  · rw [hbase]
    unfold dropExtension
    simp
  · rw [hbase]
    rfl

/-- One step of the callback on an entry the walk reports without error and
whose extension is not `.wasm`: nothing is loaded. -/
theorem walkLoad_skip (host : Host) (e : SimpleEngine) (entry : WalkEntry)
    (rest : List WalkEntry) (herr : entry.err = none) (hext : isWasmEntry entry = false) :
    walkLoad host e (entry :: rest) = walkLoad host e rest := by
  have hne : ¬ Ext entry.path = ".wasm" := by
    simpa [isWasmEntry] using hext
  rw [walkLoad, herr]
  dsimp only
  rw [if_neg hne]

/-- One step of the callback on an entry whose extension is `.wasm`: `LoadRule`
is called under the stem of the base name, and its error ends the walk. -/
theorem walkLoad_wasm (host : Host) (e : SimpleEngine) (entry : WalkEntry)
    (rest : List WalkEntry) (herr : entry.err = none) (hext : isWasmEntry entry = true) :
    ∃ name, dropExtension (Base entry.path) = some name ∧
      name ++ ".wasm" = Base entry.path ∧
      (∀ err, readAndCompile host entry.path = Except.error err →
        walkLoad host e (entry :: rest) =
          { engine := e, err := some err, calls := [(name, entry.path)] }) ∧
      (∀ compiled, readAndCompile host entry.path = Except.ok compiled →
        walkLoad host e (entry :: rest) =
          { engine :=
              (walkLoad host { e with rules := mapSet e.rules name ⟨name, compiled, e.engine⟩ }
                rest).engine
            err :=
              (walkLoad host { e with rules := mapSet e.rules name ⟨name, compiled, e.engine⟩ }
                rest).err
            calls := (name, entry.path) ::
              (walkLoad host { e with rules := mapSet e.rules name ⟨name, compiled, e.engine⟩ }
                rest).calls }) := by
  have hw : Ext entry.path = ".wasm" := by
    simpa [isWasmEntry] using hext
  obtain ⟨name, hname, hbase⟩ := dropExtension_of_Ext_wasm entry.path hw
  refine ⟨name, hname, hbase, ?_, ?_⟩
  · intro err hrc
    rw [walkLoad, herr]
    dsimp only
    rw [if_pos hw, hname]
    dsimp only
    rw [LoadRule_error host e name entry.path err hrc]
  · intro compiled hrc
    rw [walkLoad, herr]
    dsimp only
    rw [if_pos hw, hname]
    dsimp only
    rw [LoadRule_of_module host e name entry.path compiled hrc]

/-- A name is a key after an assignment when it is the assigned key or was a key. -/
theorem mem_keys_mapSet {α : Type} (m : List (String × α)) (k : String) (v : α)
    (n : String) (h : n = k ∨ n ∈ m.map Prod.fst) : n ∈ (mapSet m k v).map Prod.fst := by
  rw [mapSet_keys]
  by_cases hk : n = k
  · exact List.mem_append_right _ (by simp [hk])
  · rcases h with h | h
    · exact absurd h hk
    · exact List.mem_append_left _ (List.mem_filter.mpr ⟨h, by simp [hk]⟩)

/-- A walk over entries that are reported without error and whose `.wasm` files
all read and compile: no error is returned, `LoadRule` is called for exactly the
expected entries, and every name loaded, and every name held before, is held. -/
theorem walkLoad_all_ok (host : Host) (entries : List WalkEntry) :
    ∀ e : SimpleEngine,
      (∀ p ∈ entries, p.err = none ∧
        (isWasmEntry p = true → ∃ compiled, readAndCompile host p.path = Except.ok compiled)) →
      (walkLoad host e entries).err = none ∧
      (walkLoad host e entries).calls = expectedCalls entries ∧
      (∀ n, n ∈ GetLoadedRules e ∨ n ∈ (expectedCalls entries).map Prod.fst →
        n ∈ GetLoadedRules (walkLoad host e entries).engine) := by
  induction entries with
  | nil =>
    intro e _
    refine ⟨rfl, rfl, ?_⟩
    rintro n (h | h)
    · exact h
    · exact absurd h (List.not_mem_nil _)
  | cons entry rest ih =>
    intro e h
    obtain ⟨herr, hload⟩ := h entry (List.mem_cons_self _ _)
    have hrest : ∀ p ∈ rest, p.err = none ∧
        (isWasmEntry p = true → ∃ compiled, readAndCompile host p.path = Except.ok compiled) :=
      fun p hp => h p (List.mem_cons_of_mem _ hp)
    cases hext : isWasmEntry entry with
    | false =>
      rw [walkLoad_skip host e entry rest herr hext]
      have hexp : expectedCalls (entry :: rest) = expectedCalls rest := by
        simp [expectedCalls, hext]
      rw [hexp]
      exact ih e hrest
    | true =>
      obtain ⟨name, hname, _, _, hok⟩ := walkLoad_wasm host e entry rest herr hext
      obtain ⟨compiled, hrc⟩ := hload hext
      rw [hok compiled hrc]
      have hexp : expectedCalls (entry :: rest) = (name, entry.path) :: expectedCalls rest := by
        simp [expectedCalls, hext, hname]
      rw [hexp]
      obtain ⟨i1, i2, i3⟩ :=
        ih { e with rules := mapSet e.rules name ⟨name, compiled, e.engine⟩ } hrest
      refine ⟨i1, by rw [i2], ?_⟩
      intro n hn
      apply i3
      rcases hn with hn | hn
      · exact Or.inl (mem_keys_mapSet e.rules name _ n (Or.inr hn))
      · rcases List.mem_cons.mp hn with hhead | htail
        · exact Or.inl (mem_keys_mapSet e.rules name _ n (Or.inl hhead))
        · exact Or.inr htail

/-- A walk that returns no error on its first entries goes on with the others. -/
theorem walkLoad_append (host : Host) (first second : List WalkEntry) :
    ∀ e : SimpleEngine, (walkLoad host e first).err = none →
      (walkLoad host e (first ++ second)).engine =
        (walkLoad host (walkLoad host e first).engine second).engine ∧
      (walkLoad host e (first ++ second)).err =
        (walkLoad host (walkLoad host e first).engine second).err ∧
      (walkLoad host e (first ++ second)).calls =
        (walkLoad host e first).calls ++
          (walkLoad host (walkLoad host e first).engine second).calls := by
  induction first with
  | nil => intro e _; exact ⟨rfl, rfl, rfl⟩
  | cons entry rest ih =>
    intro e h
    rw [List.cons_append]
    cases herr : entry.err with
    | some cause =>
      have hstop : walkLoad host e (entry :: rest) =
          { engine := e, err := some (RegistryError.walk cause), calls := [] } := by
        rw [walkLoad, herr]
      rw [hstop] at h
      exact absurd h (by simp)
    | none =>
      cases hext : isWasmEntry entry with
      | false =>
        rw [walkLoad_skip host e entry rest herr hext] at h ⊢
        rw [walkLoad_skip host e entry (rest ++ second) herr hext]
        exact ih e h
      | true =>
        obtain ⟨name, hname, _, hfail, hok⟩ := walkLoad_wasm host e entry rest herr hext
        obtain ⟨name2, hname2, _, _, hok2⟩ :=
          walkLoad_wasm host e entry (rest ++ second) herr hext
        have hsame : name2 = name := by
          rw [hname] at hname2
          exact (Option.some.inj hname2).symm
        subst hsame
        cases hrc : readAndCompile host entry.path with
        | error err =>
          rw [hfail err hrc] at h
          exact absurd h (by simp)
        | ok compiled =>
          rw [hok compiled hrc] at h ⊢
          rw [hok2 compiled hrc]
          dsimp only at h ⊢
          obtain ⟨i1, i2, i3⟩ :=
            ih { e with rules := mapSet e.rules name2 ⟨name2, compiled, e.engine⟩ } h
          exact ⟨i1, i2, by rw [i3]; rfl⟩

/-- Every `LoadRule` call of a walk is made for a visited entry whose extension
is `.wasm`, under the stem of its base name, whatever the kind of the entry; and
the slice expression never faults. -/
theorem walkLoad_calls_sound (host : Host) (entries : List WalkEntry) :
    ∀ e : SimpleEngine,
      (∀ call ∈ (walkLoad host e entries).calls,
        ∃ entry ∈ entries, entry.err = none ∧ Ext entry.path = ".wasm" ∧
          call.2 = entry.path ∧ call.1 ++ ".wasm" = Base entry.path) ∧
      (walkLoad host e entries).err ≠ some RegistryError.sliceOutOfRange := by
  induction entries with
  | nil =>
    intro e
    exact ⟨fun call h => absurd h (List.not_mem_nil _), by simp [walkLoad]⟩
  | cons entry rest ih =>
    intro e
    cases herr : entry.err with
    | some cause =>
      have hstop : walkLoad host e (entry :: rest) =
          { engine := e, err := some (RegistryError.walk cause), calls := [] } := by
        rw [walkLoad, herr]
      rw [hstop]
      exact ⟨fun call h => absurd h (List.not_mem_nil _), by simp⟩
    | none =>
      cases hext : isWasmEntry entry with
      | false =>
        rw [walkLoad_skip host e entry rest herr hext]
        obtain ⟨i1, i2⟩ := ih e
        refine ⟨?_, i2⟩
        intro call hcall
        obtain ⟨en, hen, hrest⟩ := i1 call hcall
        exact ⟨en, List.mem_cons_of_mem _ hen, hrest⟩
      | true =>
        have hw : Ext entry.path = ".wasm" := by
          simpa [isWasmEntry] using hext
        obtain ⟨name, _, hbase, hfail, hok⟩ := walkLoad_wasm host e entry rest herr hext
        cases hrc : readAndCompile host entry.path with
        | error err =>
          rw [hfail err hrc]
          refine ⟨?_, ?_⟩
          · intro call hcall
            rw [List.mem_singleton.mp hcall]
            exact ⟨entry, List.mem_cons_self _ _, herr, hw, rfl, hbase⟩
          · intro hbad
            have herr' : err = RegistryError.sliceOutOfRange := Option.some.inj hbad
            subst herr'
            unfold readAndCompile at hrc
            cases hr : host.readFile entry.path with
            | error cause => rw [hr] at hrc; simp at hrc
            | ok bytes =>
              rw [hr] at hrc
              cases hc : host.compile bytes with
              | error cause => simp [hc] at hrc
              | ok compiled => simp [hc] at hrc
        | ok compiled =>
          rw [hok compiled hrc]
          obtain ⟨i1, i2⟩ :=
            ih { e with rules := mapSet e.rules name ⟨name, compiled, e.engine⟩ }
          refine ⟨?_, i2⟩
          intro call hcall
          rcases List.mem_cons.mp hcall with hhead | htail
          · rw [hhead]
            exact ⟨entry, List.mem_cons_self _ _, herr, hw, rfl, hbase⟩
          · obtain ⟨en, hen, hrest⟩ := i1 call htail
            exact ⟨en, List.mem_cons_of_mem _ hen, hrest⟩

/-- C14 (the code at the failing input): in a rules directory holding the file
`a.wasm`, a sub-directory `old.wasm` and the file `z.wasm`, `LoadRulesFromDir`
calls `LoadRule` for the directory `rules/old.wasm` under the name `old`; the
read fails, the walk stops, and `z.wasm` is never loaded. -/
theorem LoadRulesFromDir_calls_LoadRule_on_directory :
    ({ path := "rules/old.wasm", kind := FileKind.directory, err := none } : WalkEntry) ∈
      sampleHost.walk "rules" ∧
    (LoadRulesFromDir sampleHost (NewSimpleEngine sampleEngine) "rules").calls =
      [("a", "rules/a.wasm"), ("old", "rules/old.wasm")] ∧
    (LoadRulesFromDir sampleHost (NewSimpleEngine sampleEngine) "rules").err =
      some (RegistryError.read "rules/old.wasm" "is a directory") ∧
    GetLoadedRules (LoadRulesFromDir sampleHost (NewSimpleEngine sampleEngine) "rules").engine =
      ["a"] := by
  refine ⟨?_, ?_, ?_, ?_⟩
  · simp [sampleHost]
  · rfl
  · rfl
  · rfl

/-- C15: when `LoadRule` fails for a `.wasm` entry that the walk reaches, every
entry before it having been visited without error and loaded where it is a
`.wasm` entry, `LoadRulesFromDir` returns that error, makes no `LoadRule` call
for any entry after it, leaves the engine as the entries before it left it, and
every rule name loaded from them is in the registry. -/
theorem LoadRulesFromDir_stops_at_failure (host : Host) (e : SimpleEngine)
    (rulesDir : String) (before after : List WalkEntry) (failing : WalkEntry)
    (err : RegistryError)
    (hwalk : host.walk rulesDir = before ++ failing :: after)
    (hbefore : ∀ p ∈ before, p.err = none ∧
      (isWasmEntry p = true → ∃ compiled, readAndCompile host p.path = Except.ok compiled))
    (hreach : failing.err = none) (hext : isWasmEntry failing = true)
    (hfail : readAndCompile host failing.path = Except.error err) :
    (LoadRulesFromDir host e rulesDir).err = some err ∧
    (∀ e0 name, LoadRule host e0 name failing.path = (e0, some err)) ∧
    (LoadRulesFromDir host e rulesDir).calls = expectedCalls (before ++ [failing]) ∧
    (LoadRulesFromDir host e rulesDir).engine = (walkLoad host e before).engine ∧
    (walkLoad host e before).err = none ∧
    ∀ call ∈ expectedCalls before,
      call.1 ∈ GetLoadedRules (LoadRulesFromDir host e rulesDir).engine := by
  obtain ⟨h1, h2, h3⟩ := walkLoad_all_ok host before e hbefore
  obtain ⟨a1, a2, a3⟩ := walkLoad_append host before (failing :: after) e h1
  obtain ⟨name, hname, _, hstop, _⟩ :=
    walkLoad_wasm host (walkLoad host e before).engine failing after hreach hext
  have hlast := hstop err hfail
  have hexp : expectedCalls (before ++ [failing]) =
      expectedCalls before ++ [(name, failing.path)] := by
    simp [expectedCalls, List.filterMap_append, hext, hname]
  unfold LoadRulesFromDir
  rw [hwalk, a1, a2, a3, hlast, h2, hexp]
  refine ⟨rfl, fun e0 n => LoadRule_error host e0 n failing.path err hfail, rfl, rfl, h1, ?_⟩
  intro call hcall
  exact h3 call.1 (Or.inr (List.mem_map.mpr ⟨call, hcall, rfl⟩))

/-- C15 on the sample directory: the read of `rules/old.wasm` fails after
`rules/a.wasm` was loaded; the error is returned and `a` stays loaded. -/
theorem LoadRulesFromDir_stops_at_failure_witness :
    (LoadRulesFromDir sampleHost (NewSimpleEngine sampleEngine) "rules").err =
      some (RegistryError.read "rules/old.wasm" "is a directory") ∧
    (LoadRulesFromDir sampleHost (NewSimpleEngine sampleEngine) "rules").calls =
      expectedCalls
        ([{ path := "rules", kind := FileKind.directory, err := none },
          { path := "rules/a.wasm", kind := FileKind.regular, err := none }] ++
         [{ path := "rules/old.wasm", kind := FileKind.directory, err := none }]) := by
  have h := LoadRulesFromDir_stops_at_failure sampleHost (NewSimpleEngine sampleEngine) "rules"
    [{ path := "rules", kind := FileKind.directory, err := none },
     { path := "rules/a.wasm", kind := FileKind.regular, err := none }]
    [{ path := "rules/z.wasm", kind := FileKind.regular, err := none }]
    { path := "rules/old.wasm", kind := FileKind.directory, err := none }
    (RegistryError.read "rules/old.wasm" "is a directory")
    rfl
    (by
      intro p hp
      rcases List.mem_cons.mp hp with h1 | h1
      · subst h1
        exact ⟨rfl, fun hw => absurd hw (by decide)⟩
      · rcases List.mem_cons.mp h1 with h2 | h2
        · subst h2
          exact ⟨rfl, fun _ => ⟨emptyModule, rfl⟩⟩
        · exact absurd h2 (List.not_mem_nil _))
    rfl (by decide) rfl
  exact ⟨h.1, h.2.2.1⟩

/-! ## The metrics sink -/

/-- A lookup after an assignment: the assigned value under the assigned key, the
old result under any other key. -/
theorem mapGet?_mapSet {α : Type} (m : List (String × α)) (k : String) (v : α) (n : String) :
    mapGet? (mapSet m k v) n = if n = k then some v else mapGet? m n := by
  unfold mapGet? mapSet
  induction m with
  | nil =>
    by_cases hn : n = k
    · simp [hn]
    · have hkn : ¬ k = n := fun h => hn h.symm
      simp [hn, hkn]
  | cons p rest ih =>
    by_cases hpk : p.1 = k
    · have hf : (p.1 != k) = false := by simp [hpk]
      rw [List.filter_cons, hf]
      simp only [Bool.false_eq_true, if_false]
      rw [ih]
      by_cases hn : n = k
      · simp [hn]
      · have hpn : ¬ p.1 = n := fun h => hn (h.symm.trans hpk)
        simp [hn, hpn]
    · have hf : (p.1 != k) = true := by simp [hpk]
      rw [List.filter_cons, hf]
      simp only [if_true, List.cons_append]
      by_cases hpn : p.1 = n
      · have hnk : ¬ n = k := fun h => hpk (hpn.trans h)
        simp [hpn, hnk]
      · have hb : (p.1 == n) = false := by simp [hpn]
        rw [List.find?_cons, hb, List.find?_cons, hb]
        exact ih

/-- The value of a counter after an assignment. -/
theorem counterValue_mapSet (m : List (String × Int)) (k : String) (v : Int) (n : String) :
    counterValue (mapSet m k v) n = if n = k then v else counterValue m n := by
  unfold counterValue
  rw [mapGet?_mapSet]
  by_cases hn : n = k <;> simp [hn]

/-- The counters after one `Handle` call whose key is not `total_threats`. -/
theorem Handle_counters (p : PrometheusOutputHandler) (result : DetectionResult)
    (hkey : result.RuleName ++ "_" ++ result.Severity ≠ "total_threats") (n : String) :
    counterValue (p.Handle result).1.counters n =
      if n = result.RuleName ++ "_" ++ result.Severity ∨ n = "total_threats" then
        counterValue p.counters n + 1
      else counterValue p.counters n := by
  unfold PrometheusOutputHandler.Handle
  dsimp only
  rw [counterValue_mapSet, counterValue_mapSet, counterValue_mapSet]
  by_cases h1 : n = "total_threats"
  · subst h1
    have h2 : ¬ "total_threats" = result.RuleName ++ "_" ++ result.Severity :=
      fun h => hkey h.symm
    simp [h2]
  · by_cases h2 : n = result.RuleName ++ "_" ++ result.Severity
    · subst h2
      simp [hkey]
    · simp [h1, h2]

/-- A key built with a severity of the enum is not the key of the total. -/
theorem key_ne_total (rule severity : String) (h : severity ∈ severities) :
    rule ++ "_" ++ severity ≠ "total_threats" := by
  intro heq
  have hdata : rule.data ++ '_' :: severity.data = "total_threats".data := by
    have := congrArg String.data heq
    simpa [String.data_append] using this
  have hlast : (rule.data ++ '_' :: severity.data).getLast? = some 's' := by
    rw [hdata]; rfl
  rw [List.getLast?_append] at hlast
  simp only [severities, List.mem_cons, List.mem_singleton, List.not_mem_nil, or_false] at h
  rcases h with h | h | h | h | h <;> subst h <;> simp at hlast

/-- A text cut at a character is cut in one way only when neither part of one
cut holds the character. -/
theorem append_cons_inj_of_not_mem {α : Type} (c : α) (a b : List α) (ha : c ∉ a) (hb : c ∉ b) :
    ∀ l1 l2 : List α, l1 ++ c :: l2 = a ++ c :: b → l1 = a ∧ l2 = b := by
  induction a with
  | nil =>
    intro l1 l2 h
    cases l1 with
    | nil => exact ⟨rfl, by simpa using h⟩
    | cons y l1 =>
      have h1 : y = c := by simpa using (List.cons.inj h).1
      have h2 : l1 ++ c :: l2 = b := by simpa using (List.cons.inj h).2
      exact absurd (h2 ▸ (by simp : c ∈ l1 ++ c :: l2)) hb
  | cons x a ih =>
    intro l1 l2 h
    cases l1 with
    | nil =>
      have h1 : c = x := by simpa using (List.cons.inj h).1
      exact absurd (h1 ▸ List.mem_cons_self c a) ha
    | cons y l1 =>
      have h1 : y = x := by simpa using (List.cons.inj h).1
      have h2 : l1 ++ c :: l2 = a ++ c :: b := by simpa using (List.cons.inj h).2
      obtain ⟨e1, e2⟩ := ih (fun hm => ha (List.mem_cons_of_mem _ hm)) l1 l2 h2
      exact ⟨by rw [h1, e1], e2⟩

/-- The key of a result is the key of the total for one rule name and one
severity only: `total` and `threats`. -/
theorem key_eq_total_iff (rule severity : String) :
    rule ++ "_" ++ severity = "total_threats" ↔ rule = "total" ∧ severity = "threats" := by
  constructor
  · intro heq
    have hdata : rule.data ++ '_' :: severity.data = "total".data ++ '_' :: "threats".data := by
      have := congrArg String.data heq
      simpa [String.data_append] using this
    obtain ⟨h1, h2⟩ := append_cons_inj_of_not_mem '_' "total".data "threats".data
      (by decide) (by decide) rule.data severity.data hdata
    exact ⟨String.ext h1, String.ext h2⟩
  · rintro ⟨h1, h2⟩
    rw [h1, h2]
    decide

/-- The counters after one `Handle` call whose key is `total_threats`: the two
assignments go to the one counter. -/
theorem Handle_counters_of_total (p : PrometheusOutputHandler) (result : DetectionResult)
    (hkey : result.RuleName ++ "_" ++ result.Severity = "total_threats") (n : String) :
    counterValue (p.Handle result).1.counters n =
      if n = "total_threats" then counterValue p.counters n + 2
      else counterValue p.counters n := by
  unfold PrometheusOutputHandler.Handle
  dsimp only
  rw [hkey, counterValue_mapSet, counterValue_mapSet, counterValue_mapSet]
  by_cases h1 : n = "total_threats"
  · subst h1
    simp only [if_true]
    ring
  · simp [h1]

/-- The severity `getSeverityLevel` gives is one of the enum. -/
theorem getSeverityLevel_mem_severities (level : Int) :
    getSeverityLevel level ∈ severities := by
  unfold getSeverityLevel severities
  split_ifs <;> simp

/-- A result that `runSimpleRule` surfaces carries a severity of the enum. -/
theorem surfaced_severity_mem (rule : SimpleWasmRule) (eventData : List Byte) (event : Event)
    (d : DetectionResult) (h : (runSimpleRule rule eventData event).surfaced = some d) :
    d.Severity ∈ severities := by
  rw [surfaced_eq_expectedDetection] at h
  unfold expectedDetection at h
  split at h
  · split at h
    · rw [← Option.some.inj h]
      exact getSeverityLevel_mem_severities _
    · exact absurd h (by simp)
  · exact absurd h (by simp)

/-- The total after a sequence of `Handle` calls: one more for every result
handled and one more again for every result whose key is `total_threats`. -/
theorem handleAll_total (results : List DetectionResult) :
    ∀ p : PrometheusOutputHandler,
      counterValue (p.handleAll results).counters "total_threats" =
        counterValue p.counters "total_threats" + results.length +
          (results.filter
            (fun r => decide (r.RuleName ++ "_" ++ r.Severity = "total_threats"))).length := by
  induction results with
  | nil => intro p; simp [PrometheusOutputHandler.handleAll]
  | cons r rest ih =>
    intro p
    rw [PrometheusOutputHandler.handleAll, ih]
    by_cases hkey : r.RuleName ++ "_" ++ r.Severity = "total_threats"
    · rw [Handle_counters_of_total p r hkey, List.filter_cons_of_pos (by simpa using hkey)]
      simp only [if_true, List.length_cons]
      push_cast
      ring
    · rw [Handle_counters p r hkey, List.filter_cons_of_neg (by simpa using hkey)]
      simp only [or_true, if_true, List.length_cons]
      push_cast
      ring

/-- C16 (as stated, refuted): the result with rule name `total` and severity
`threats` has the key `total_threats`, so its own counter and the total are one
counter; on a new handler `Handle` leaves it at 2, raised by 2 and not by 1, and
after this one call `total_threats` is not the number of results handled. -/
theorem Handle_key_collision_example :
    ({ sampleResult "total" with Severity := "threats" } : DetectionResult).RuleName ++ "_" ++
      ({ sampleResult "total" with Severity := "threats" } : DetectionResult).Severity =
      "total_threats" ∧
    counterValue NewPrometheusOutputHandler.counters "total_threats" = 0 ∧
    counterValue
      (NewPrometheusOutputHandler.Handle
        { sampleResult "total" with Severity := "threats" }).1.counters "total_threats" = 2 ∧
    counterValue
      (NewPrometheusOutputHandler.handleAll
        [{ sampleResult "total" with Severity := "threats" }]).counters "total_threats" ≠
      ([{ sampleResult "total" with Severity := "threats" }] : List DetectionResult).length := by
  decide

/-- C16 (amended): for every result whose key `{rule}_{severity}` is not the text
`total_threats`, `Handle` of the metrics sink increases the counter keyed
`{rule}_{severity}` by exactly 1 and the counter `total_threats` by exactly 1,
leaves every other counter unchanged and returns no error. The results left out
are those with rule name `total` and severity `threats`; none has a severity of
the enum, so none is a result the engine surfaces; for them the one counter
`total_threats` goes up by 2 and every other counter is unchanged. After any
sequence of `Handle` calls `total_threats` has grown by the number of results
handled plus the number of them with the key `total_threats`, and from a new
handler it equals the number handled when no result has that key. -/
theorem Prometheus_Handle_counts (p : PrometheusOutputHandler) (result : DetectionResult)
    (hkey : result.RuleName ++ "_" ++ result.Severity ≠ "total_threats") :
    counterValue (p.Handle result).1.counters (result.RuleName ++ "_" ++ result.Severity) =
      counterValue p.counters (result.RuleName ++ "_" ++ result.Severity) + 1 ∧
    counterValue (p.Handle result).1.counters "total_threats" =
      counterValue p.counters "total_threats" + 1 ∧
    (∀ other, other ≠ result.RuleName ++ "_" ++ result.Severity → other ≠ "total_threats" →
      counterValue (p.Handle result).1.counters other = counterValue p.counters other ∧
      mapGet? (p.Handle result).1.counters other = mapGet? p.counters other) ∧
    (p.Handle result).2 = none ∧
    (∀ r : DetectionResult,
      (r.RuleName ++ "_" ++ r.Severity = "total_threats" ↔
        r.RuleName = "total" ∧ r.Severity = "threats") ∧
      (r.Severity ∈ severities → r.RuleName ++ "_" ++ r.Severity ≠ "total_threats")) ∧
    (∀ (rule : SimpleWasmRule) (eventData : List Byte) (event : Event) (d : DetectionResult),
      (runSimpleRule rule eventData event).surfaced = some d →
      d.Severity ∈ severities ∧ d.RuleName ++ "_" ++ d.Severity ≠ "total_threats") ∧
    (∀ (q : PrometheusOutputHandler) (r : DetectionResult),
      r.RuleName ++ "_" ++ r.Severity = "total_threats" →
      counterValue (q.Handle r).1.counters "total_threats" =
        counterValue q.counters "total_threats" + 2 ∧
      (∀ other, other ≠ "total_threats" →
        counterValue (q.Handle r).1.counters other = counterValue q.counters other) ∧
      (q.Handle r).2 = none) ∧
    (∀ results : List DetectionResult,
      counterValue (p.handleAll results).counters "total_threats" =
        counterValue p.counters "total_threats" + results.length +
          (results.filter
            (fun r => decide (r.RuleName ++ "_" ++ r.Severity = "total_threats"))).length) ∧
    (∀ results : List DetectionResult,
      (∀ r ∈ results, r.RuleName ++ "_" ++ r.Severity ≠ "total_threats") →
      counterValue (p.handleAll results).counters "total_threats" =
        counterValue p.counters "total_threats" + results.length ∧
      counterValue (NewPrometheusOutputHandler.handleAll results).counters "total_threats" =
        results.length) := by
  have hnone : ∀ results : List DetectionResult,
      (∀ r ∈ results, r.RuleName ++ "_" ++ r.Severity ≠ "total_threats") →
      (results.filter
        (fun r => decide (r.RuleName ++ "_" ++ r.Severity = "total_threats"))).length = 0 := by
    intro results hres
    rw [List.length_eq_zero, List.filter_eq_nil_iff]
    intro r hr
    simpa using hres r hr
  refine ⟨?_, ?_, ?_, rfl, ?_, ?_, ?_, ?_, ?_⟩
  · rw [Handle_counters p result hkey]; simp
  · rw [Handle_counters p result hkey]; simp
  · intro other h1 h2
    refine ⟨by rw [Handle_counters p result hkey]; simp [h1, h2], ?_⟩
    unfold PrometheusOutputHandler.Handle
    dsimp only
    rw [mapGet?_mapSet, mapGet?_mapSet, if_neg h2, if_neg h1]
  · intro r
    exact ⟨key_eq_total_iff r.RuleName r.Severity, key_ne_total r.RuleName r.Severity⟩
  · intro rule eventData event d hd
    have hs := surfaced_severity_mem rule eventData event d hd
    exact ⟨hs, key_ne_total d.RuleName d.Severity hs⟩
  · intro q r hr
    refine ⟨by rw [Handle_counters_of_total q r hr]; simp, ?_, rfl⟩
    intro other hother
    rw [Handle_counters_of_total q r hr, if_neg hother]
  · intro results
    exact handleAll_total results p
  · intro results hres
    refine ⟨?_, ?_⟩
    · rw [handleAll_total results p, hnone results hres]; simp
    · rw [handleAll_total results NewPrometheusOutputHandler, hnone results hres]
      simp [NewPrometheusOutputHandler, counterValue, mapGet?]

/-- C16 (amended) at the result of `t_ok` with severity `medium`, on a new handler. -/
theorem Prometheus_Handle_counts_witness :
    (sampleResult "t_ok").RuleName ++ "_" ++ (sampleResult "t_ok").Severity ≠ "total_threats" ∧
    counterValue (NewPrometheusOutputHandler.Handle (sampleResult "t_ok")).1.counters
      ((sampleResult "t_ok").RuleName ++ "_" ++ (sampleResult "t_ok").Severity) =
      counterValue NewPrometheusOutputHandler.counters
        ((sampleResult "t_ok").RuleName ++ "_" ++ (sampleResult "t_ok").Severity) + 1 ∧
    counterValue (NewPrometheusOutputHandler.Handle (sampleResult "t_ok")).1.counters
      "total_threats" = counterValue NewPrometheusOutputHandler.counters "total_threats" + 1 :=
  ⟨by decide,
   (Prometheus_Handle_counts NewPrometheusOutputHandler (sampleResult "t_ok") (by decide)).1,
   (Prometheus_Handle_counts NewPrometheusOutputHandler (sampleResult "t_ok") (by decide)).2.1⟩

/-- The loop of `lastIndex` on a text that ends with `_` and a part holding no
`_`: it passes over that part and stops at the `_` before it. -/
theorem lastIndexLoop_last_underscore (r v : List Char) (hv : '_' ∉ v) :
    ∀ k, k ≤ v.length →
      lastIndexLoop (r ++ '_' :: v) ['_'] (r.length + 1 + k) = (r.length : Int) := by
  intro k
  induction k with
  | zero =>
    intro _
    rw [Nat.add_zero, lastIndexLoop, List.drop_left]
    simp
  | succ k ih =>
    intro hk
    have hshape : r.length + 1 + (k + 1) = (r.length + 1 + k) + 1 := by omega
    rw [hshape, lastIndexLoop]
    have hdrop : (r ++ '_' :: v).drop (r.length + 1 + k) = v.drop k := by
      rw [Nat.add_assoc, List.drop_append, Nat.add_comm 1 k, List.drop_succ_cons]
    rw [hdrop]
    have hne : ¬ (v.drop k).take ['_'].length = ['_'] := by
      intro h
      cases hd : v.drop k with
      | nil => rw [hd] at h; simp at h
      | cons c t =>
        rw [hd] at h
        have hc : c = '_' := by simpa using h
        have hmem : c ∈ v := List.mem_of_mem_drop (by rw [hd]; exact List.mem_cons_self c t)
        exact hv (hc ▸ hmem)
    rw [if_neg hne]
    exact ih (by omega)

/-- The function `splitLast` cuts a key `{rule}_{severity}` into the rule name
and the severity whenever the severity holds no `_`, whatever the rule name. -/
theorem splitLast_key (rule severity : String) (h : '_' ∉ severity.data) :
    splitLast (rule ++ "_" ++ severity) "_" = [rule, severity] := by
  have hdata : (rule ++ "_" ++ severity).data = rule.data ++ '_' :: severity.data := by
    simp [String.data_append]
  have hidx : lastIndex (rule ++ "_" ++ severity) "_" = (rule.data.length : Int) := by
    unfold lastIndex
    rw [hdata]
    have hsep : "_".data = ['_'] := rfl
    rw [hsep]
    have hle : ['_'].length ≤ (rule.data ++ '_' :: severity.data).length := by
      simp only [List.length_append, List.length_cons, List.length_nil]
      omega
    rw [if_pos hle]
    have hcount : (rule.data ++ '_' :: severity.data).length - ['_'].length + 1 =
        rule.data.length + 1 + severity.data.length := by
      simp only [List.length_append, List.length_cons, List.length_nil]
      omega
    rw [hcount]
    exact lastIndexLoop_last_underscore rule.data severity.data h severity.data.length
      (Nat.le_refl _)
  unfold splitLast
  dsimp only
  rw [hidx, hdata]
  have hpos : (rule.data.length : Int) ≥ 0 := Int.natCast_nonneg _
  rw [if_pos hpos]
  have hsep : "_".data.length = 1 := rfl
  rw [Int.toNat_natCast, hsep, List.take_left, List.drop_append]
  rfl

/-- No severity of the enum holds the character `_`. -/
theorem severities_no_underscore (severity : String) (h : severity ∈ severities) :
    '_' ∉ severity.data := by
  simp only [severities, List.mem_cons, List.mem_singleton, List.not_mem_nil, or_false] at h
  rcases h with h | h | h | h | h <;> subst h <;> decide

/-- C20 (as stated, refuted): the rule name `rk_low` contains `_`, `low` is a
severity of the enum, and `splitLast` cuts the key `rk_low_low` into exactly
`rk_low` and `low`, so that the emitted metric carries the right labels. -/
theorem splitLast_rule_with_underscore :
    '_' ∈ "rk_low".data ∧ "low" ∈ severities ∧
    splitLast ("rk_low" ++ "_" ++ "low") "_" = ["rk_low", "low"] ∧
    metricOf ("rk_low" ++ "_" ++ "low") 3 =
      some "wasm_threat_detector_threats\x7brule=\"rk_low\",severity=\"low\"\x7d 3" := by
  decide

/-- C20 (amended): for every rule name, with or without the character `_`, and
every severity of the enum, `splitLast` cuts the key `{rule}_{severity}` into
exactly the rule name and the severity, and the metric emitted for the key
carries them as its labels; the same holds for any severity that holds no `_`. -/
theorem splitLast_key_of_enum (rule severity : String) (count : Int)
    (h : severity ∈ severities ∨ '_' ∉ severity.data) :
    splitLast (rule ++ "_" ++ severity) "_" = [rule, severity] ∧
    (rule ++ "_" ++ severity ≠ "total_threats" →
      metricOf (rule ++ "_" ++ severity) count =
        some ("wasm_threat_detector_threats\x7brule=\"" ++ rule ++ "\",severity=\"" ++
          severity ++ "\"\x7d " ++ toString count)) := by
  have hno : '_' ∉ severity.data := by
    rcases h with h | h
    · exact severities_no_underscore severity h
    · exact h
  have hsplit := splitLast_key rule severity hno
  refine ⟨hsplit, ?_⟩
  intro hkey
  unfold metricOf
  rw [if_neg hkey, hsplit]

/-- C20 (amended) at the rule name `rk_low` and the severity `critical`. -/
theorem splitLast_key_of_enum_witness :
    splitLast ("rk_low" ++ "_" ++ "critical") "_" = ["rk_low", "critical"] :=
  (splitLast_key_of_enum "rk_low" "critical" 0 (Or.inl (by decide))).1

/-- A severity that holds `_` is what makes the cut wrong. -/
theorem splitLast_wrong_cut_example :
    splitLast ("rk" ++ "_" ++ "very_high") "_" = ["rk_very", "high"] := by
  decide

/-- The loop of `lastIndex` finds a position when one of those it tries matches. -/
theorem lastIndexLoop_nonneg (s sep : List Char) :
    ∀ n i, i < n → (s.drop i).take sep.length = sep → 0 ≤ lastIndexLoop s sep n := by
  intro n
  induction n with
  | zero => intro i hi; omega
  | succ n ih =>
    intro i hi hmatch
    rw [lastIndexLoop]
    by_cases hn : (s.drop n).take sep.length = sep
    · rw [if_pos hn]
      exact Int.natCast_nonneg n
    · rw [if_neg hn]
      have hlt : i < n := by
        rcases Nat.lt_succ_iff_lt_or_eq.mp hi with h | h
        · exact h
        · subst h; exact absurd hmatch hn
      exact ih i hlt hmatch

/-- A metric is emitted for the key of the total and for every key `{rule}_{severity}`. -/
theorem metricOf_isSome (key : String) (count : Int)
    (h : key = "total_threats" ∨ ∃ rule severity : String, key = rule ++ "_" ++ severity) :
    (metricOf key count).isSome = true := by
  unfold metricOf
  by_cases hkey : key = "total_threats"
  · rw [if_pos hkey]; rfl
  · rw [if_neg hkey]
    rcases h with h | ⟨rule, severity, h⟩
    · exact absurd h hkey
    · have hdata : key.data = rule.data ++ '_' :: severity.data := by
        rw [h]; simp [String.data_append]
      have hidx : lastIndex key "_" ≥ 0 := by
        unfold lastIndex
        have hsep : "_".data = ['_'] := rfl
        rw [hsep, hdata]
        have hle : ['_'].length ≤ (rule.data ++ '_' :: severity.data).length := by
          simp only [List.length_append, List.length_cons, List.length_nil]
          omega
        rw [if_pos hle]
        apply lastIndexLoop_nonneg _ _ _ rule.data.length
        · simp only [List.length_append, List.length_cons, List.length_nil]
          omega
        · rw [List.drop_left]
          simp
      unfold splitLast
      dsimp only
      rw [if_pos hidx]
      rfl

/-- An entry of a map after an assignment was there before or has the assigned key. -/
theorem mem_mapSet {α : Type} (m : List (String × α)) (k : String) (v : α)
    (p : String × α) (h : p ∈ mapSet m k v) : p ∈ m ∨ p.1 = k := by
  unfold mapSet at h
  rcases List.mem_append.mp h with h | h
  · exact Or.inl (List.mem_filter.mp h).1
  · exact Or.inr (by rw [List.mem_singleton.mp h])

/-- Every counter a sequence of `Handle` calls leaves in a handler has the key
of the total or a key `{rule}_{severity}`, when those it started with have. -/
theorem handleAll_keys (results : List DetectionResult) :
    ∀ p : PrometheusOutputHandler,
      (∀ kv ∈ p.counters, kv.1 = "total_threats" ∨
        ∃ rule severity : String, kv.1 = rule ++ "_" ++ severity) →
      ∀ kv ∈ (p.handleAll results).counters, kv.1 = "total_threats" ∨
        ∃ rule severity : String, kv.1 = rule ++ "_" ++ severity := by
  induction results with
  | nil => intro p h; exact h
  | cons r rest ih =>
    intro p h
    rw [PrometheusOutputHandler.handleAll]
    apply ih
    intro kv hkv
    unfold PrometheusOutputHandler.Handle at hkv
    dsimp only at hkv
    rcases mem_mapSet _ _ _ kv hkv with h1 | h1
    · rcases mem_mapSet _ _ _ kv h1 with h2 | h2
      · exact h kv h2
      · exact Or.inr ⟨r.RuleName, r.Severity, h2⟩
    · exact Or.inl h1

/-- C17 (as stated, refuted): after one result of `t_ok` the exposition at Unix
time 1700000000 holds two lines, and on each the counter value 1 is followed by
the time stamp. -/
theorem GetMetrics_line_ends_with_timestamp :
    (NewPrometheusOutputHandler.handleAll [sampleResult "t_ok"]).GetMetrics 1700000000 =
      "wasm_threat_detector_threats\x7brule=\"t_ok\",severity=\"medium\"\x7d 1 1700000000\nwasm_threat_detector_total_threats 1 1700000000\n" ∧
    (NewPrometheusOutputHandler.handleAll [sampleResult "t_ok"]).GetMetrics 1700000000 ≠
      "wasm_threat_detector_threats\x7brule=\"t_ok\",severity=\"medium\"\x7d 1\nwasm_threat_detector_total_threats 1\n" := by
  decide

/-- C17 (amended): `GetMetrics` emits, for the counters in iteration order, one
text line per counter for which a metric is built, each line being the metric, a
blank, the Unix time of the call and a line feed; the metric is
`wasm_threat_detector_total_threats <n>` for the total and
`wasm_threat_detector_threats{rule="<r>",severity="<s>"} <n>` for a key that
`splitLast` cuts into `<r>` and `<s>`, `<n>` being the counter's value; and for
every counter that `Handle` calls left in a new handler a metric is built, so
that there are as many lines as counters. -/
theorem GetMetrics_lines (p : PrometheusOutputHandler) (timestamp : Int) :
    p.GetMetrics timestamp =
      String.join ((p.counters.filterMap (fun kv => metricOf kv.1 kv.2)).map
        (fun metric => metric ++ " " ++ toString timestamp ++ "\n")) ∧
    (∀ count : Int, metricOf "total_threats" count =
      some ("wasm_threat_detector_total_threats " ++ toString count)) ∧
    (∀ (key rule severity : String) (count : Int), key ≠ "total_threats" →
      splitLast key "_" = [rule, severity] →
      metricOf key count =
        some ("wasm_threat_detector_threats\x7brule=\"" ++ rule ++ "\",severity=\"" ++
          severity ++ "\"\x7d " ++ toString count)) ∧
    (∀ results : List DetectionResult,
      (∀ kv ∈ (NewPrometheusOutputHandler.handleAll results).counters,
        (metricOf kv.1 kv.2).isSome = true) ∧
      ((NewPrometheusOutputHandler.handleAll results).counters.filterMap
        (fun kv => metricOf kv.1 kv.2)).length =
        (NewPrometheusOutputHandler.handleAll results).counters.length) := by
  refine ⟨?_, fun count => rfl, ?_, ?_⟩
  · unfold PrometheusOutputHandler.GetMetrics String.join
    dsimp only
    rw [List.foldl_map]
  · intro key rule severity count hkey hsplit
    unfold metricOf
    rw [if_neg hkey, hsplit]
  · intro results
    have hsome : ∀ kv ∈ (NewPrometheusOutputHandler.handleAll results).counters,
        (metricOf kv.1 kv.2).isSome = true := by
      intro kv hkv
      exact metricOf_isSome kv.1 kv.2
        (handleAll_keys results NewPrometheusOutputHandler
          (fun x hx => absurd hx (List.not_mem_nil x)) kv hkv)
    refine ⟨hsome, ?_⟩
    generalize (NewPrometheusOutputHandler.handleAll results).counters = counters at hsome
    induction counters with
    | nil => rfl
    | cons kv rest ih =>
      have hkv := hsome kv (List.mem_cons_self _ _)
      obtain ⟨metric, hmetric⟩ := Option.isSome_iff_exists.mp hkv
      rw [List.filterMap_cons, hmetric]
      simp only [List.length_cons]
      rw [ih (fun x hx => hsome x (List.mem_cons_of_mem _ hx))]

/-! ## The event codec -/

/-- No text comes before itself. -/
theorem lessLoop_irrefl : ∀ a : List Char, lessLoop a a = false
  | [] => rfl
  | c :: s => by
    rw [lessLoop, if_neg (Nat.lt_irrefl _), if_neg (Nat.lt_irrefl _)]
    exact lessLoop_irrefl s

/-- The comparison of texts is transitive. -/
theorem lessLoop_trans : ∀ a b c : List Char,
    lessLoop a b = true → lessLoop b c = true → lessLoop a c = true
  | _, [], _ => by intro h; simp [lessLoop] at h
  | _, _ :: _, [] => by intro _ h; simp [lessLoop] at h
  | [], _ :: _, _ :: _ => by intro _ _; rfl
  | x :: s, y :: t, z :: u => by
    intro h1 h2
    rw [lessLoop] at h1 h2 ⊢
    by_cases hxy : x.toNat < y.toNat
    · by_cases hyz : y.toNat < z.toNat
      · rw [if_pos (Nat.lt_trans hxy hyz)]
      · rw [if_neg hyz] at h2
        by_cases hzy : z.toNat < y.toNat
        · rw [if_pos hzy] at h2; exact absurd h2 (by decide)
        · have : y.toNat = z.toNat := by omega
          rw [if_pos (by omega)]
    · rw [if_neg hxy] at h1
      by_cases hyx : y.toNat < x.toNat
      · rw [if_pos hyx] at h1; exact absurd h1 (by decide)
      · rw [if_neg hyx] at h1
        have hxy2 : x.toNat = y.toNat := by omega
        by_cases hyz : y.toNat < z.toNat
        · rw [if_pos (by omega)]
        · rw [if_neg hyz] at h2
          by_cases hzy : z.toNat < y.toNat
          · rw [if_pos hzy] at h2; exact absurd h2 (by decide)
          · rw [if_neg hzy] at h2
            rw [if_neg (by omega), if_neg (by omega)]
            exact lessLoop_trans s t u h1 h2

/-- A string that comes before another is not that string. -/
theorem stringLess_ne (a b : String) (h : stringLess a b = true) : a ≠ b := by
  intro hab
  subst hab
  unfold stringLess at h
  rw [lessLoop_irrefl] at h
  exact absurd h (by decide)

/-- The Go comparison of strings is transitive. -/
theorem stringLess_trans (a b c : String) (h1 : stringLess a b = true)
    (h2 : stringLess b c = true) : stringLess a c = true :=
  lessLoop_trans _ _ _ h1 h2

/-- In a list of keys in increasing order the first comes before every other, and the others are in increasing order. -/
theorem keysSorted_cons (k : String) : ∀ ks : List String, keysSorted (k :: ks) = true →
    keysSorted ks = true ∧ ∀ k2 ∈ ks, stringLess k k2 = true
  | [] => by intro _; exact ⟨rfl, by simp⟩
  | k2 :: rest => by
    intro h
    rw [keysSorted, Bool.and_eq_true] at h
    obtain ⟨h1, h2⟩ := h
    refine ⟨h2, ?_⟩
    intro k3 hk3
    rcases List.mem_cons.mp hk3 with h3 | h3
    · rw [h3]; exact h1
    · exact stringLess_trans k k2 k3 h1 ((keysSorted_cons k2 rest h2).2 k3 h3)

/-- Sorting leaves members that are listed by increasing key as they are. -/
theorem sortMembers_of_sorted {α : Type} : ∀ ms : List (String × α),
    keysSorted (ms.map Prod.fst) = true → sortMembers ms = ms
  | [] => by intro _; rfl
  | [kv] => by intro _; rfl
  | kv :: x :: rest => by
    intro h
    have h2 := keysSorted_cons kv.1 ((x :: rest).map Prod.fst) h
    rw [sortMembers, sortMembers_of_sorted (x :: rest) h2.1, insertMember,
      if_pos (h2.2 x.1 (by simp))]

/-- Assigning entries listed by increasing key, none of them under a key of the map so far, appends them to the map. -/
theorem foldl_mapSet_of_sorted : ∀ (l acc : List (String × Value)),
    keysSorted (l.map Prod.fst) = true → (∀ kv ∈ l, ∀ p ∈ acc, p.1 ≠ kv.1) →
    l.foldl (fun m kv => mapSet m kv.1 kv.2) acc = acc ++ l
  | [], acc => by intro _ _; simp
  | kv :: rest, acc => by
    intro hs hacc
    have h2 := keysSorted_cons kv.1 (rest.map Prod.fst) hs
    have hset : mapSet acc kv.1 kv.2 = acc ++ [kv] := by
      unfold mapSet
      rw [List.filter_eq_self.mpr]
      intro p hp
      simpa using hacc kv (List.mem_cons_self _ _) p hp
    rw [List.foldl_cons, hset, foldl_mapSet_of_sorted rest (acc ++ [kv]) h2.1]
    · simp
    · intro kv2 hkv2 p hp
      rcases List.mem_append.mp hp with hp | hp
      · exact hacc kv2 (List.mem_cons_of_mem _ hkv2) p hp
      · have hpe : p = kv := by simpa using hp
        rw [hpe]
        exact stringLess_ne _ _ (h2.2 kv2.1 (List.mem_map_of_mem Prod.fst hkv2))

/-- The map built from entries listed by increasing key is the list of the entries. -/
theorem assignAll_of_sorted (l : List (String × Value))
    (h : keysSorted (l.map Prod.fst) = true) : assignAll l = l := by
  unfold assignAll
  rw [foldl_mapSet_of_sorted l [] h (by simp)]
  simp

/-- An entry of a map after assignments is an entry of the map before or one of the assigned. -/
theorem mem_foldl_mapSet : ∀ (l acc : List (String × Value)) (x : String × Value),
    x ∈ l.foldl (fun m kv => mapSet m kv.1 kv.2) acc → x ∈ acc ∨ x ∈ l
  | [], acc, x => by intro h; exact Or.inl h
  | kv :: rest, acc, x => by
    intro h
    rw [List.foldl_cons] at h
    rcases mem_foldl_mapSet rest _ x h with h1 | h1
    · unfold mapSet at h1
      rcases List.mem_append.mp h1 with h2 | h2
      · exact Or.inl (List.mem_of_mem_filter h2)
      · have : x = kv := by simpa using h2
        exact Or.inr (this ▸ List.mem_cons_self _ _)
    · exact Or.inr (List.mem_cons_of_mem _ h1)

/-- The values of a map are decoded values when each of them is. -/
theorem fieldsDecoded_iff : ∀ l : List (String × Value),
    fieldsDecoded l = true ↔ ∀ kv ∈ l, kv.2.decoded = true
  | [] => by simp [fieldsDecoded]
  | (k, v) :: rest => by
    rw [fieldsDecoded, Bool.and_eq_true, fieldsDecoded_iff rest]
    simp

/-- The map built from decoded values holds decoded values. -/
theorem fieldsDecoded_assignAll (l : List (String × Value)) (h : fieldsDecoded l = true) :
    fieldsDecoded (assignAll l) = true := by
  rw [fieldsDecoded_iff] at h ⊢
  intro kv hkv
  rcases mem_foldl_mapSet l [] kv hkv with h1 | h1
  · exact absurd h1 (List.not_mem_nil _)
  · exact h kv h1

mutual
/-- Whatever the text, `json.Unmarshal` stores a decoded value in an `interface{}`. -/
theorem unmarshalValue_decoded : ∀ j : Json, (unmarshalValue j).decoded = true
  | Json.null => rfl
  | Json.bool _ => rfl
  | Json.number _ => rfl
  | Json.string _ => rfl
  | Json.array items => by
    rw [unmarshalValue, Value.decoded]
    exact unmarshalItems_decoded items
  | Json.object members => by
    rw [unmarshalValue, Value.decoded]
    exact fieldsDecoded_assignAll _ (unmarshalMembers_decoded members)
/-- The values of the elements of an array are decoded values. -/
theorem unmarshalItems_decoded : ∀ js : List Json, itemsDecoded (unmarshalItems js) = true
  | [] => rfl
  | j :: rest => by
    rw [unmarshalItems, itemsDecoded, unmarshalValue_decoded j, unmarshalItems_decoded rest]
    rfl
/-- The values of the members of an object are decoded values. -/
theorem unmarshalMembers_decoded : ∀ ms : List (String × Json),
    fieldsDecoded (unmarshalMembers ms) = true
  | [] => rfl
  | (k, j) :: rest => by
    rw [unmarshalMembers, fieldsDecoded, unmarshalValue_decoded j, unmarshalMembers_decoded rest]
    rfl
end
/-- The elements of an array are written exactly when each of them is. -/
theorem collectItems_ok_iff : ∀ l : List (Except String Json),
    (∃ js, collectItems l = Except.ok js) ↔ ∀ r ∈ l, ∃ j, r = Except.ok j
  | [] => by simp [collectItems]
  | Except.error cause :: rest => by
    rw [collectItems]
    constructor
    · rintro ⟨js, h⟩; exact absurd h (by simp)
    · intro h
      obtain ⟨j, hj⟩ := h _ (List.mem_cons_self _ _)
      exact absurd hj (by simp)
  | Except.ok j :: rest => by
    have ih := collectItems_ok_iff rest
    rw [collectItems]
    constructor
    · rintro ⟨js, h⟩ r hr
      rcases List.mem_cons.mp hr with h1 | h1
      · exact ⟨j, h1⟩
      · cases hc : collectItems rest with
        | error cause => rw [hc] at h; exact absurd h (by simp)
        | ok js2 => exact ih.mp ⟨js2, hc⟩ r h1
    · intro h
      obtain ⟨js2, hc⟩ := ih.mpr (fun r hr => h r (List.mem_cons_of_mem _ hr))
      exact ⟨j :: js2, by rw [hc]⟩

/-- The members of an object are written exactly when each of them is. -/
theorem collectMembers_ok_iff : ∀ l : List (String × Except String Json),
    (∃ ms, collectMembers l = Except.ok ms) ↔ ∀ kr ∈ l, ∃ j, kr.2 = Except.ok j
  | [] => by simp [collectMembers]
  | (k, Except.error cause) :: rest => by
    rw [collectMembers]
    constructor
    · rintro ⟨js, h⟩; exact absurd h (by simp)
    · intro h
      obtain ⟨j, hj⟩ := h _ (List.mem_cons_self _ _)
      exact absurd hj (by simp)
  | (k, Except.ok j) :: rest => by
    have ih := collectMembers_ok_iff rest
    rw [collectMembers]
    constructor
    · rintro ⟨js, h⟩ r hr
      rcases List.mem_cons.mp hr with h1 | h1
      · exact ⟨j, by rw [h1]⟩
      · cases hc : collectMembers rest with
        | error cause => rw [hc] at h; exact absurd h (by simp)
        | ok js2 => exact ih.mp ⟨js2, hc⟩ r h1
    · intro h
      obtain ⟨js2, hc⟩ := ih.mpr (fun r hr => h r (List.mem_cons_of_mem _ hr))
      exact ⟨(k, j) :: js2, by rw [hc]⟩

/-- The members after an insertion are the inserted one and the members before. -/
theorem mem_insertMember {α : Type} (kv x : String × α) : ∀ l : List (String × α),
    x ∈ insertMember kv l ↔ x = kv ∨ x ∈ l
  | [] => by simp [insertMember]
  | y :: rest => by
    rw [insertMember]
    split_ifs
    · simp
    · rw [List.mem_cons, mem_insertMember kv x rest, List.mem_cons]
      tauto

/-- Sorting keeps the members. -/
theorem mem_sortMembers {α : Type} (x : String × α) : ∀ l : List (String × α),
    x ∈ sortMembers l ↔ x ∈ l
  | [] => by simp [sortMembers]
  | kv :: rest => by
    rw [sortMembers, mem_insertMember, mem_sortMembers x rest, List.mem_cons]

mutual
/-- The encoder `json.Marshal` returns a text for a value exactly when the value
is supported. -/
theorem marshalValue_ok_iff : ∀ v : Value,
    (∃ j, marshalValue v = Except.ok j) ↔ v.supported = true
  | Value.str s => by simp [marshalValue, Value.supported]
  | Value.int n => by simp [marshalValue, Value.supported]
  | Value.float bits => by
    rw [marshalValue, Value.supported]
    cases isFiniteBits bits <;> simp
  | Value.bool b => by simp [marshalValue, Value.supported]
  | Value.null => by simp [marshalValue, Value.supported]
  | Value.process p => by simp [marshalValue, Value.supported]
  | Value.network n => by simp [marshalValue, Value.supported]
  | Value.file f => by simp [marshalValue, Value.supported]
  | Value.array items => by
    rw [marshalValue, Value.supported, ← marshalItems_ok_iff items, ← collectItems_ok_iff]
    cases collectItems (marshalItems items) <;> simp
  | Value.bag fields => by
    rw [marshalValue, Value.supported, ← marshalFields_ok_iff fields]
    have hperm : (∀ kr ∈ marshalFields fields, ∃ j, kr.2 = Except.ok j) ↔
        ∀ kr ∈ sortMembers (marshalFields fields), ∃ j, kr.2 = Except.ok j := by
      constructor
      · intro h kr hkr; exact h kr ((mem_sortMembers kr _).mp hkr)
      · intro h kr hkr; exact h kr ((mem_sortMembers kr _).mpr hkr)
    rw [hperm, ← collectMembers_ok_iff]
    cases collectMembers (sortMembers (marshalFields fields)) <;> simp
/-- Every element of a slice is encoded exactly when every element is supported. -/
theorem marshalItems_ok_iff : ∀ vs : List Value,
    (∀ r ∈ marshalItems vs, ∃ j, r = Except.ok j) ↔ itemsSupported vs = true
  | [] => by simp [marshalItems, itemsSupported]
  | v :: rest => by
    rw [marshalItems, itemsSupported, Bool.and_eq_true, ← marshalValue_ok_iff v,
      ← marshalItems_ok_iff rest]
    simp
/-- Every value of a map is encoded exactly when every value is supported. -/
theorem marshalFields_ok_iff : ∀ fs : List (String × Value),
    (∀ kr ∈ marshalFields fs, ∃ j, kr.2 = Except.ok j) ↔ fieldsSupported fs = true
  | [] => by simp [marshalFields, fieldsSupported]
  | (k, v) :: rest => by
    rw [marshalFields, fieldsSupported, Bool.and_eq_true, ← marshalValue_ok_iff v,
      ← marshalFields_ok_iff rest]
    simp
end

/-- The encodings of the entries of a map stand under the keys of the entries. -/
theorem marshalFields_keys : ∀ fs : List (String × Value),
    (marshalFields fs).map Prod.fst = fs.map Prod.fst
  | [] => rfl
  | (k, v) :: rest => by
    rw [marshalFields, List.map_cons, List.map_cons, marshalFields_keys rest]

/-- Of two different texts one comes before the other. -/
theorem lessLoop_total : ∀ a b : List Char,
    lessLoop a b = false → lessLoop b a = false → a = b
  | [], [] => fun _ _ => rfl
  | [], _ :: _ => fun h _ => absurd h (by simp [lessLoop])
  | _ :: _, [] => fun _ h => absurd h (by simp [lessLoop])
  | x :: s, y :: t => by
    intro h1 h2
    rw [lessLoop] at h1 h2
    by_cases hxy : x.toNat < y.toNat
    · rw [if_pos hxy] at h1; exact absurd h1 (by decide)
    · by_cases hyx : y.toNat < x.toNat
      · rw [if_pos hyx] at h2; exact absurd h2 (by decide)
      · rw [if_neg hxy, if_neg hyx] at h1
        rw [if_neg hyx, if_neg hxy] at h2
        have hc : x = y := by
          apply Char.ext
          apply UInt32.ext
          have : x.toNat = y.toNat := by omega
          exact this
        rw [hc, lessLoop_total s t h1 h2]

/-- A key that comes before every key of a list in increasing order can be put
in front of it. -/
theorem keysSorted_of_forall (k : String) : ∀ ks : List String,
    keysSorted ks = true → (∀ k2 ∈ ks, stringLess k k2 = true) → keysSorted (k :: ks) = true
  | [], _, _ => rfl
  | k2 :: rest, h1, h2 => by
    rw [keysSorted, Bool.and_eq_true]
    exact ⟨h2 k2 (List.mem_cons_self _ _), h1⟩

/-- Insertion keeps members with different keys in increasing order of the keys. -/
theorem insertMember_sorted {α : Type} (kv : String × α) : ∀ l : List (String × α),
    keysSorted (l.map Prod.fst) = true → (∀ x ∈ l, x.1 ≠ kv.1) →
    keysSorted ((insertMember kv l).map Prod.fst) = true
  | [], _, _ => rfl
  | x :: rest, hs, hne => by
    have hx := keysSorted_cons x.1 (rest.map Prod.fst) hs
    rw [insertMember]
    by_cases hlt : stringLess kv.1 x.1 = true
    · rw [if_pos hlt]
      exact keysSorted_of_forall kv.1 _ hs (by
        intro k2 hk2
        rcases List.mem_cons.mp hk2 with h | h
        · rw [h]; exact hlt
        · exact stringLess_trans _ _ _ hlt (hx.2 k2 h))
    · rw [if_neg hlt]
      have hxkv : stringLess x.1 kv.1 = true := by
        by_contra hcon
        have h1 : lessLoop kv.1.data x.1.data = false := by
          simpa [stringLess] using hlt
        have h2 : lessLoop x.1.data kv.1.data = false := by
          simpa [stringLess] using hcon
        exact hne x (List.mem_cons_self _ _) (String.ext (lessLoop_total _ _ h1 h2)).symm
      have ih := insertMember_sorted kv rest hx.1
        (fun y hy => hne y (List.mem_cons_of_mem _ hy))
      rw [List.map_cons]
      apply keysSorted_of_forall x.1 _ ih
      intro k2 hk2
      obtain ⟨y, hy, hyk⟩ := List.mem_map.mp hk2
      rcases (mem_insertMember kv y rest).mp hy with h | h
      · rw [← hyk, h]; exact hxkv
      · exact hx.2 k2 (hyk ▸ List.mem_map_of_mem Prod.fst h)

/-- Every map has a listing by increasing key: sorting a listing of entries
with different keys keeps the entries and puts the keys in increasing order. -/
theorem sortMembers_sorted {α : Type} : ∀ l : List (String × α),
    (l.map Prod.fst).Nodup →
    keysSorted ((sortMembers l).map Prod.fst) = true ∧ ∀ x, x ∈ sortMembers l ↔ x ∈ l
  | [], _ => ⟨rfl, fun _ => Iff.rfl⟩
  | kv :: rest, hnd => by
    rw [List.map_cons, List.nodup_cons] at hnd
    have ih := sortMembers_sorted rest hnd.2
    refine ⟨?_, fun x => mem_sortMembers x _⟩
    rw [sortMembers]
    apply insertMember_sorted kv _ ih.1
    intro x hx hxe
    exact hnd.1 (hxe ▸ List.mem_map_of_mem Prod.fst ((ih.2 x).mp hx))
/-- The members of a map are written, in the order of their keys, exactly when
every value of the map is supported. -/
theorem collectSorted_ok_iff (fs : List (String × Value)) :
    (∃ ms, collectMembers (sortMembers (marshalFields fs)) = Except.ok ms) ↔
      fieldsSupported fs = true := by
  rw [← marshalFields_ok_iff fs, collectMembers_ok_iff]
  constructor
  · intro h kr hkr; exact h kr ((mem_sortMembers kr _).mpr hkr)
  · intro h kr hkr; exact h kr ((mem_sortMembers kr _).mp hkr)

/-- What `ToJSON` returns when it returns a text. -/
theorem jsonMarshal_ok (e : Event) (doc : EventDoc) (h : e.ToJSON jsonMarshal = Except.ok doc) :
    yearInRange e.Timestamp = true ∧
    collectMembers (sortMembers (marshalFields e.Data)) = Except.ok doc.data ∧
    doc.id = e.ID ∧ doc.kind = e.Kind ∧ doc.timestamp = e.Timestamp ∧ doc.source = e.Source := by
  unfold Event.ToJSON jsonMarshal at h
  by_cases hy : yearInRange e.Timestamp = true
  · rw [if_pos hy] at h
    cases hc : collectMembers (sortMembers (marshalFields e.Data)) with
    | error cause => rw [hc] at h; exact absurd h (by simp)
    | ok ms =>
      rw [hc] at h
      have hd := Except.ok.inj h
      subst hd
      exact ⟨hy, rfl, rfl, rfl, rfl, rfl⟩
  · rw [if_neg hy] at h
    exact absurd h (by simp)

/-- What `ToJSON` returns on a supported event. -/
theorem jsonMarshal_of_members (e : Event) (ms : List (String × Json))
    (hy : yearInRange e.Timestamp = true)
    (hc : collectMembers (sortMembers (marshalFields e.Data)) = Except.ok ms) :
    e.ToJSON jsonMarshal = Except.ok
      { id := e.ID, kind := e.Kind, timestamp := e.Timestamp, source := e.Source, data := ms } := by
  unfold Event.ToJSON jsonMarshal
  rw [if_pos hy, hc]

/-- The kinds of value that are decoded values and those that are not. -/
theorem decoded_kinds :
    (∀ n, (Value.int n).decoded = false) ∧ (∀ p, (Value.process p).decoded = false) ∧
    (∀ n, (Value.network n).decoded = false) ∧ (∀ f, (Value.file f).decoded = false) ∧
    (∀ s, (Value.str s).decoded = true) ∧ (∀ bits, (Value.float bits).decoded = true) ∧
    (∀ b, (Value.bool b).decoded = true) ∧ Value.null.decoded = true ∧
    (∀ fields, (Value.bag fields).decoded = true ↔ ∀ kv ∈ fields, kv.2.decoded = true) := by
  refine ⟨fun _ => rfl, fun _ => rfl, fun _ => rfl, fun _ => rfl, fun _ => rfl, fun _ => rfl,
    fun _ => rfl, rfl, ?_⟩
  intro fields
  rw [Value.decoded]
  exact fieldsDecoded_iff fields

/-- Insertion by key commutes with a change of the values. -/
theorem insertMember_map {α β : Type} (f : α → β) (kv : String × α) :
    ∀ l : List (String × α),
      insertMember (kv.1, f kv.2) (l.map (fun x => (x.1, f x.2))) =
        (insertMember kv l).map (fun x => (x.1, f x.2))
  | [] => rfl
  | x :: rest => by
    rw [List.map_cons, insertMember, insertMember]
    by_cases h : stringLess kv.1 x.1 = true
    · rw [if_pos h, if_pos h]; rfl
    · rw [if_neg h, if_neg h, List.map_cons, insertMember_map f kv rest]

/-- Sorting by key commutes with a change of the values. -/
theorem sortMembers_map {α β : Type} (f : α → β) : ∀ l : List (String × α),
    sortMembers (l.map (fun x => (x.1, f x.2))) = (sortMembers l).map (fun x => (x.1, f x.2))
  | [] => rfl
  | kv :: rest => by
    rw [List.map_cons, sortMembers, sortMembers, sortMembers_map f rest, insertMember_map]

/-- The entries of a map with their values listed by increasing key, as a change of the values. -/
theorem canonFields_eq_map : ∀ fs : List (String × Value),
    canonFields fs = fs.map (fun x => (x.1, x.2.canon))
  | [] => rfl
  | (k, v) :: rest => by rw [canonFields, canonFields_eq_map rest]; rfl

/-- The values of the members of an object, as a change of the values. -/
theorem unmarshalMembers_eq_map : ∀ ms : List (String × Json),
    unmarshalMembers ms = ms.map (fun x => (x.1, unmarshalValue x.2))
  | [] => rfl
  | (k, j) :: rest => by rw [unmarshalMembers, unmarshalMembers_eq_map rest]; rfl

/-- Members that are all written are the written members, each marked as written. -/
theorem collectMembers_eq_map : ∀ (l : List (String × Except String Json))
    (ms : List (String × Json)), collectMembers l = Except.ok ms →
    l = ms.map (fun x => (x.1, Except.ok x.2))
  | [], ms, h => by
    rw [collectMembers] at h
    rw [← Except.ok.inj h]
    rfl
  | (k, Except.error cause) :: rest, ms, h => by
    rw [collectMembers] at h
    exact absurd h (by simp)
  | (k, Except.ok j) :: rest, ms, h => by
    rw [collectMembers] at h
    cases hc : collectMembers rest with
    | error cause => rw [hc] at h; exact absurd h (by simp)
    | ok ms2 =>
      rw [hc] at h
      rw [← Except.ok.inj h, List.map_cons, ← collectMembers_eq_map rest ms2 hc]

/-- Members marked as written are written. -/
theorem collectMembers_map_ok : ∀ ms : List (String × Json),
    collectMembers (ms.map (fun x => (x.1, (Except.ok x.2 : Except String Json)))) = Except.ok ms
  | [] => rfl
  | (k, j) :: rest => by
    rw [List.map_cons, collectMembers, collectMembers_map_ok rest]

/-- Members that are all written are written in the order of their keys as well. -/
theorem collectMembers_sortMembers (l : List (String × Except String Json))
    (ms : List (String × Json)) (h : collectMembers l = Except.ok ms) :
    collectMembers (sortMembers l) = Except.ok (sortMembers ms) := by
  rw [collectMembers_eq_map l ms h, sortMembers_map, collectMembers_map_ok]

/-- Listing the values by increasing key keeps the keys. -/
theorem keys_canonFields (fs : List (String × Value)) :
    (canonFields fs).map Prod.fst = fs.map Prod.fst := by
  rw [canonFields_eq_map, List.map_map]
  rfl

/-- Sorting entries with different keys lists the keys in increasing order. -/
theorem keys_sortMembers_nodup {α : Type} (l : List (String × α))
    (h : (l.map Prod.fst).Nodup) :
    keysSorted ((sortMembers l).map Prod.fst) = true :=
  (sortMembers_sorted l h).1

mutual
/-- A supported well formed decoded value is encoded, and decoding the text gives
the value with its maps listed by increasing key. -/
theorem roundtrip_canon_value : ∀ v : Value,
    v.supported = true → v.decoded = true → v.distinctKeys = true →
    ∃ j, marshalValue v = Except.ok j ∧ unmarshalValue j = v.canon
  | Value.str s => fun _ _ _ => ⟨_, rfl, rfl⟩
  | Value.int n => fun _ h _ => absurd h (by simp [Value.decoded])
  | Value.float bits => fun h _ _ => by
    rw [Value.supported] at h
    exact ⟨Json.number (NumberLit.float bits), by rw [marshalValue, if_pos h], rfl⟩
  | Value.bool b => fun _ _ _ => ⟨_, rfl, rfl⟩
  | Value.null => fun _ _ _ => ⟨_, rfl, rfl⟩
  | Value.process p => fun _ h _ => absurd h (by simp [Value.decoded])
  | Value.network n => fun _ h _ => absurd h (by simp [Value.decoded])
  | Value.file f => fun _ h _ => absurd h (by simp [Value.decoded])
  | Value.array items => fun h1 h2 h3 => by
    rw [Value.supported] at h1
    rw [Value.decoded] at h2
    rw [Value.distinctKeys] at h3
    obtain ⟨js, hjs, hback⟩ := roundtrip_canon_items items h1 h2 h3
    exact ⟨Json.array js, by rw [marshalValue, hjs], by rw [unmarshalValue, hback, Value.canon]⟩
  | Value.bag fields => fun h1 h2 h3 => by
    rw [Value.supported] at h1
    rw [Value.decoded] at h2
    rw [Value.distinctKeys, Bool.and_eq_true, decide_eq_true_eq] at h3
    obtain ⟨ms, hms, hback⟩ := roundtrip_canon_fields fields h1 h2 h3.2
    refine ⟨Json.object (sortMembers ms),
      by rw [marshalValue, collectMembers_sortMembers _ ms hms], ?_⟩
    rw [unmarshalValue, unmarshalMembers_eq_map, ← sortMembers_map, ← unmarshalMembers_eq_map,
      hback, Value.canon]
    rw [assignAll_of_sorted _ (keys_sortMembers_nodup _ (by rw [keys_canonFields]; exact h3.1))]
/-- The elements of a slice of such values are encoded and come back so listed. -/
theorem roundtrip_canon_items : ∀ vs : List Value,
    itemsSupported vs = true → itemsDecoded vs = true → itemsDistinctKeys vs = true →
    ∃ js, collectItems (marshalItems vs) = Except.ok js ∧ unmarshalItems js = canonItems vs
  | [] => fun _ _ _ => ⟨[], rfl, rfl⟩
  | v :: rest => fun h1 h2 h3 => by
    rw [itemsSupported, Bool.and_eq_true] at h1
    rw [itemsDecoded, Bool.and_eq_true] at h2
    rw [itemsDistinctKeys, Bool.and_eq_true] at h3
    obtain ⟨j, hj, hb⟩ := roundtrip_canon_value v h1.1 h2.1 h3.1
    obtain ⟨js, hjs, hbs⟩ := roundtrip_canon_items rest h1.2 h2.2 h3.2
    exact ⟨j :: js, by rw [marshalItems, hj, collectItems, hjs],
      by rw [unmarshalItems, hb, hbs, canonItems]⟩
/-- The values of a map of such values are encoded and come back so listed. -/
theorem roundtrip_canon_fields : ∀ fs : List (String × Value),
    fieldsSupported fs = true → fieldsDecoded fs = true → fieldsDistinctKeys fs = true →
    ∃ ms, collectMembers (marshalFields fs) = Except.ok ms ∧ unmarshalMembers ms = canonFields fs
  | [] => fun _ _ _ => ⟨[], rfl, rfl⟩
  | (k, v) :: rest => fun h1 h2 h3 => by
    rw [fieldsSupported, Bool.and_eq_true] at h1
    rw [fieldsDecoded, Bool.and_eq_true] at h2
    rw [fieldsDistinctKeys, Bool.and_eq_true] at h3
    obtain ⟨j, hj, hb⟩ := roundtrip_canon_value v h1.1 h2.1 h3.1
    obtain ⟨ms, hms, hbs⟩ := roundtrip_canon_fields rest h1.2 h2.2 h3.2
    exact ⟨(k, j) :: ms, by rw [marshalFields, hj, collectMembers, hms],
      by rw [unmarshalMembers, hb, hbs, canonFields]⟩
end
/-- The values of a map are listed by increasing key when each of them is. -/
theorem fieldsCanonical_iff : ∀ l : List (String × Value),
    fieldsCanonical l = true ↔ ∀ kv ∈ l, kv.2.canonical = true
  | [] => by simp [fieldsCanonical]
  | (k, v) :: rest => by
    rw [fieldsCanonical, Bool.and_eq_true, fieldsCanonical_iff rest]
    simp

/-- Sorting keeps the values decoded values. -/
theorem fieldsDecoded_sortMembers (l : List (String × Value)) :
    fieldsDecoded (sortMembers l) = fieldsDecoded l := by
  rw [Bool.eq_iff_iff, fieldsDecoded_iff, fieldsDecoded_iff]
  constructor
  · intro h kv hkv; exact h kv ((mem_sortMembers kv l).mpr hkv)
  · intro h kv hkv; exact h kv ((mem_sortMembers kv l).mp hkv)

mutual
/-- A value listed by increasing key is its own listing by increasing key. -/
theorem canon_of_canonical : ∀ v : Value, v.canonical = true → v.canon = v
  | Value.str _ => fun _ => rfl
  | Value.int _ => fun _ => rfl
  | Value.float _ => fun _ => rfl
  | Value.bool _ => fun _ => rfl
  | Value.null => fun _ => rfl
  | Value.process _ => fun _ => rfl
  | Value.network _ => fun _ => rfl
  | Value.file _ => fun _ => rfl
  | Value.array items => fun h => by
    rw [Value.canonical] at h
    rw [Value.canon, canonItems_of_canonical items h]
  | Value.bag fields => fun h => by
    rw [Value.canonical, Bool.and_eq_true] at h
    rw [Value.canon, canonFields_of_canonical fields h.2, sortMembers_of_sorted fields h.1]
/-- Elements listed by increasing key are their own listing. -/
theorem canonItems_of_canonical : ∀ vs : List Value,
    itemsCanonical vs = true → canonItems vs = vs
  | [] => fun _ => rfl
  | v :: rest => fun h => by
    rw [itemsCanonical, Bool.and_eq_true] at h
    rw [canonItems, canon_of_canonical v h.1, canonItems_of_canonical rest h.2]
/-- Values of a map listed by increasing key are their own listing. -/
theorem canonFields_of_canonical : ∀ fs : List (String × Value),
    fieldsCanonical fs = true → canonFields fs = fs
  | [] => fun _ => rfl
  | (k, v) :: rest => fun h => by
    rw [fieldsCanonical, Bool.and_eq_true] at h
    rw [canonFields, canon_of_canonical v h.1, canonFields_of_canonical rest h.2]
end

mutual
/-- The listing by increasing key of a well formed value is listed by increasing key. -/
theorem canonical_canon : ∀ v : Value, v.distinctKeys = true → v.canon.canonical = true
  | Value.str _ => fun _ => rfl
  | Value.int _ => fun _ => rfl
  | Value.float _ => fun _ => rfl
  | Value.bool _ => fun _ => rfl
  | Value.null => fun _ => rfl
  | Value.process _ => fun _ => rfl
  | Value.network _ => fun _ => rfl
  | Value.file _ => fun _ => rfl
  | Value.array items => fun h => by
    rw [Value.distinctKeys] at h
    rw [Value.canon, Value.canonical]
    exact canonical_canonItems items h
  | Value.bag fields => fun h => by
    rw [Value.distinctKeys, Bool.and_eq_true, decide_eq_true_eq] at h
    rw [Value.canon, Value.canonical, Bool.and_eq_true]
    refine ⟨keys_sortMembers_nodup _ (by rw [keys_canonFields]; exact h.1), ?_⟩
    rw [fieldsCanonical_iff]
    intro kv hkv
    exact (fieldsCanonical_iff _).mp (canonical_canonFields fields h.2) kv
      ((mem_sortMembers kv _).mp hkv)
/-- The listing by increasing key of well formed elements is so listed. -/
theorem canonical_canonItems : ∀ vs : List Value,
    itemsDistinctKeys vs = true → itemsCanonical (canonItems vs) = true
  | [] => fun _ => rfl
  | v :: rest => fun h => by
    rw [itemsDistinctKeys, Bool.and_eq_true] at h
    rw [canonItems, itemsCanonical, canonical_canon v h.1, canonical_canonItems rest h.2]
    rfl
/-- The listing by increasing key of well formed values of a map is so listed. -/
theorem canonical_canonFields : ∀ fs : List (String × Value),
    fieldsDistinctKeys fs = true → fieldsCanonical (canonFields fs) = true
  | [] => fun _ => rfl
  | (k, v) :: rest => fun h => by
    rw [fieldsDistinctKeys, Bool.and_eq_true] at h
    rw [canonFields, fieldsCanonical, canonical_canon v h.1, canonical_canonFields rest h.2]
    rfl
end

mutual
/-- A value listed by increasing key is a decoded value when the value is. -/
theorem decoded_canon : ∀ v : Value, v.canon.decoded = v.decoded
  | Value.str _ => rfl
  | Value.int _ => rfl
  | Value.float _ => rfl
  | Value.bool _ => rfl
  | Value.null => rfl
  | Value.process _ => rfl
  | Value.network _ => rfl
  | Value.file _ => rfl
  | Value.array items => by
    rw [Value.canon, Value.decoded, Value.decoded]
    exact decoded_canonItems items
  | Value.bag fields => by
    rw [Value.canon, Value.decoded, Value.decoded, fieldsDecoded_sortMembers]
    exact decoded_canonFields fields
/-- Elements listed by increasing key are decoded values when the elements are. -/
theorem decoded_canonItems : ∀ vs : List Value, itemsDecoded (canonItems vs) = itemsDecoded vs
  | [] => rfl
  | v :: rest => by
    rw [canonItems, itemsDecoded, itemsDecoded, decoded_canon v, decoded_canonItems rest]
/-- Values of a map listed by increasing key are decoded values when the values are. -/
theorem decoded_canonFields : ∀ fs : List (String × Value),
    fieldsDecoded (canonFields fs) = fieldsDecoded fs
  | [] => rfl
  | (k, v) :: rest => by
    rw [canonFields, fieldsDecoded, fieldsDecoded, decoded_canon v, decoded_canonFields rest]
end

/-- The event with its maps listed by increasing key holds decoded values only
when the event does. -/
theorem decoded_canon_event (e : Event) : e.canon.decoded = e.decoded := by
  unfold Event.decoded Event.canon
  dsimp only
  rw [fieldsDecoded_sortMembers]
  exact decoded_canonFields e.Data

/-- An event listed by increasing key is its own listing by increasing key. -/
theorem canon_of_canonical_event (e : Event) (h : e.canonical = true) : e.canon = e := by
  unfold Event.canonical at h
  rw [Bool.and_eq_true] at h
  unfold Event.canon
  rw [canonFields_of_canonical e.Data h.2, sortMembers_of_sorted e.Data h.1]

/-- The listing by increasing key of a well formed event is listed by increasing key. -/
theorem canonical_canon_event (e : Event) (h : e.distinctKeys = true) :
    e.canon.canonical = true := by
  unfold Event.distinctKeys at h
  rw [Bool.and_eq_true, decide_eq_true_eq] at h
  have hv : (Value.bag e.Data).canon.canonical = true :=
    canonical_canon (Value.bag e.Data)
      (by rw [Value.distinctKeys, Bool.and_eq_true, decide_eq_true_eq]; exact h)
  rw [Value.canon, Value.canonical] at hv
  exact hv

/-- A supported well formed event that holds decoded values only is encoded, and
decoding the text gives the event with its maps listed by increasing key. -/
theorem roundtrip_canon_event (e : Event) (hs : e.supported = true) (hd : e.decoded = true)
    (hk : e.distinctKeys = true) :
    ∃ doc, e.ToJSON jsonMarshal = Except.ok doc ∧ (FromJSON jsonUnmarshal doc).1 = e.canon := by
  unfold Event.supported at hs
  rw [Bool.and_eq_true] at hs
  unfold Event.decoded at hd
  unfold Event.distinctKeys at hk
  rw [Bool.and_eq_true, decide_eq_true_eq] at hk
  obtain ⟨ms, hms, hb⟩ := roundtrip_canon_fields e.Data hs.2 hd hk.2
  refine ⟨_, jsonMarshal_of_members e (sortMembers ms) hs.1
    (collectMembers_sortMembers _ ms hms), ?_⟩
  unfold FromJSON jsonUnmarshal Event.canon
  dsimp only
  rw [unmarshalMembers_eq_map, ← sortMembers_map, ← unmarshalMembers_eq_map, hb,
    assignAll_of_sorted _ (keys_sortMembers_nodup _ (by rw [keys_canonFields]; exact hk.1))]
/-- C18 (as stated, refuted): the event with the integer 4242 under `pid` is
encoded, and decoding its text gives an event with the float 4242 under `pid`,
not the event itself; the event with a `ProcessInfo` record under `process` comes
back with a nested bag there, its two integers as floats, not as the event
itself; for the event holding a float that is not a number, and for the event
at the first instant of the year 10000, `ToJSON` fails. -/
theorem roundtrip_fails_on_integer_and_record :
    intEvent.ToJSON jsonMarshal = Except.ok
      { id := "e1", kind := "process", timestamp := 0, source := "x"
        data := [("pid", Json.number (NumberLit.int 4242))] } ∧
    FromJSON jsonUnmarshal
      { id := "e1", kind := "process", timestamp := 0, source := "x"
        data := [("pid", Json.number (NumberLit.int 4242))] } =
      ({ sampleEvent with Data := [("pid", Value.float 4661386143026118656)] }, none) ∧
    (¬ ∃ doc, intEvent.ToJSON jsonMarshal = Except.ok doc ∧
      (FromJSON jsonUnmarshal doc).1 = intEvent) ∧
    (∃ doc, processEvent.ToJSON jsonMarshal = Except.ok doc ∧
      (FromJSON jsonUnmarshal doc).1 =
        { sampleEvent with
          Data := [("action", Value.str "create"),
            ("process", Value.bag
              [("pid", Value.float 4661386143026118656),
               ("ppid", Value.float 4607182418800017408), ("name", Value.str "sh"),
               ("executable", Value.str "/bin/sh"), ("command_line", Value.str "sh"),
               ("user", Value.str "0"), ("group", Value.str "0")])] }) ∧
    (¬ ∃ doc, processEvent.ToJSON jsonMarshal = Except.ok doc ∧
      (FromJSON jsonUnmarshal doc).1 = processEvent) ∧
    nanEvent.ToJSON jsonMarshal = Except.error "json: unsupported value: NaN" ∧
    (∃ cause, lateEvent.ToJSON jsonMarshal = Except.error cause) := by
  refine ⟨rfl, rfl, ?_, ⟨_, rfl, rfl⟩, ?_, rfl, ⟨_, rfl⟩⟩
  · rintro ⟨doc, hdoc, hback⟩
    have h1 : intEvent.ToJSON jsonMarshal = Except.ok
        { id := "e1", kind := "process", timestamp := 0, source := "x"
          data := [("pid", Json.number (NumberLit.int 4242))] } := rfl
    rw [h1] at hdoc
    rw [← Except.ok.inj hdoc] at hback
    have h2 := congrArg Event.Data hback
    have h3 : [("pid", Value.float 4661386143026118656)] = [("pid", Value.int 4242)] := h2
    simp at h3
  · rintro ⟨doc, hdoc, hback⟩
    have h1 : processEvent.ToJSON jsonMarshal = Except.ok
        { id := "e1", kind := "process", timestamp := 0, source := "x"
          data := [("action", Json.string "create"),
            ("process", marshalProcessInfo
              { PID := 4242, PPID := 1, Name := "sh", Executable := "/bin/sh"
                CommandLine := "sh", User := "0", Group := "0" })] } := rfl
    rw [h1] at hdoc
    rw [← Except.ok.inj hdoc] at hback
    have h2 := congrArg Event.Data hback
    have h3 : [("action", Value.str "create"),
            ("process", Value.bag
              [("pid", Value.float 4661386143026118656),
               ("ppid", Value.float 4607182418800017408), ("name", Value.str "sh"),
               ("executable", Value.str "/bin/sh"), ("command_line", Value.str "sh"),
               ("user", Value.str "0"), ("group", Value.str "0")])] =
        [("action", Value.str "create"),
      ("process", Value.process
        { PID := 4242, PPID := 1, Name := "sh", Executable := "/bin/sh"
          CommandLine := "sh", User := "0", Group := "0" })] := h2
    simp at h3

/-- C18 (amended): for every event, no map of which is listed with a key twice,
`ToJSON` returns a text exactly when the event is supported: the year of its
timestamp lies in 0..9999 and every float of its bag, at any depth, is finite.
`FromJSON(ToJSON(E))` returns an event equal to `E`, a map having no order of
its own, exactly when, moreover, the bag holds decoded values only: at every
depth strings, floats, booleans, nulls, arrays and nested bags, no integer and
no ProcessInfo, NetworkInfo or FileInfo record; the event returned is then `E`
with its maps listed by increasing key, which is `E` itself when `E` is so
listed. Whenever `ToJSON` returns a text, `FromJSON` returns no error and an
event with the id, kind, timestamp and source of `E`, and whatever event
document it is given, the bag it returns holds decoded values only. -/
theorem roundtrip_iff_decoded (E : Event) (hkeys : E.distinctKeys = true) :
    ((∃ doc, E.ToJSON jsonMarshal = Except.ok doc) ↔ E.supported = true) ∧
    ((∃ doc, E.ToJSON jsonMarshal = Except.ok doc ∧
        (FromJSON jsonUnmarshal doc).1.canon = E.canon) ↔
      E.supported = true ∧ E.decoded = true) ∧
    (E.supported = true → E.decoded = true →
      ∃ doc, E.ToJSON jsonMarshal = Except.ok doc ∧ (FromJSON jsonUnmarshal doc).1 = E.canon) ∧
    (E.canonical = true →
      E.canon = E ∧
      ((∃ doc, E.ToJSON jsonMarshal = Except.ok doc ∧ (FromJSON jsonUnmarshal doc).1 = E) ↔
        E.supported = true ∧ E.decoded = true)) ∧
    (∀ doc, E.ToJSON jsonMarshal = Except.ok doc →
      (FromJSON jsonUnmarshal doc).2 = none ∧
      (FromJSON jsonUnmarshal doc).1.ID = E.ID ∧
      (FromJSON jsonUnmarshal doc).1.Kind = E.Kind ∧
      (FromJSON jsonUnmarshal doc).1.Timestamp = E.Timestamp ∧
      (FromJSON jsonUnmarshal doc).1.Source = E.Source ∧
      (FromJSON jsonUnmarshal doc).1.decoded = true) ∧
    (∀ doc : EventDoc, (FromJSON jsonUnmarshal doc).1.decoded = true) := by
  have hdec : ∀ doc : EventDoc, (FromJSON jsonUnmarshal doc).1.decoded = true := by
    intro doc
    exact fieldsDecoded_assignAll _ (unmarshalMembers_decoded doc.data)
  have hsup : (∃ doc, E.ToJSON jsonMarshal = Except.ok doc) ↔ E.supported = true := by
    unfold Event.supported
    rw [Bool.and_eq_true, ← collectSorted_ok_iff]
    constructor
    · rintro ⟨doc, hdoc⟩
      have h := jsonMarshal_ok E doc hdoc
      exact ⟨h.1, doc.data, h.2.1⟩
    · rintro ⟨hy, ms, hms⟩
      exact ⟨_, jsonMarshal_of_members E ms hy hms⟩
  refine ⟨hsup, ?_, fun hs hd => roundtrip_canon_event E hs hd hkeys, ?_, ?_, hdec⟩
  · constructor
    · rintro ⟨doc, hdoc, hback⟩
      refine ⟨hsup.mp ⟨doc, hdoc⟩, ?_⟩
      have h := hdec doc
      rw [← decoded_canon_event, hback, decoded_canon_event] at h
      exact h
    · rintro ⟨hs, hd⟩
      obtain ⟨doc, hdoc, hback⟩ := roundtrip_canon_event E hs hd hkeys
      refine ⟨doc, hdoc, ?_⟩
      rw [hback]
      exact canon_of_canonical_event E.canon (canonical_canon_event E hkeys)
  · intro hcanon
    have hfix := canon_of_canonical_event E hcanon
    refine ⟨hfix, ?_⟩
    constructor
    · rintro ⟨doc, hdoc, hback⟩
      refine ⟨hsup.mp ⟨doc, hdoc⟩, ?_⟩
      rw [← hback]
      exact hdec doc
    · rintro ⟨hs, hd⟩
      obtain ⟨doc, hdoc, hback⟩ := roundtrip_canon_event E hs hd hkeys
      exact ⟨doc, hdoc, by rw [hback, hfix]⟩
  · intro doc hdoc
    have h := jsonMarshal_ok E doc hdoc
    exact ⟨rfl, h.2.2.1, h.2.2.2.1, h.2.2.2.2.1, h.2.2.2.2.2, hdec doc⟩

/-- C18 (amended) at the event with a string and a nested bag holding the float
0.5 and a boolean, listed by increasing key: the text of the event is read back
as the event. -/
theorem roundtrip_iff_decoded_witness :
    plainEvent.distinctKeys = true ∧ plainEvent.canonical = true ∧
    ∃ doc, plainEvent.ToJSON jsonMarshal = Except.ok doc ∧
      (FromJSON jsonUnmarshal doc).1 = plainEvent :=
  ⟨by decide, by decide,
    (((roundtrip_iff_decoded plainEvent (by decide)).2.2.2.1 (by decide)).2).mpr
      ⟨by decide, by decide⟩⟩

/-- The texts of two events and what is read back from them: the event with a
nested bag comes back as it is, and the event whose bag is listed with
`risk_level` before `action` comes back with the two in the order of the keys,
the same map. -/
theorem roundtrip_examples :
    plainEvent.ToJSON jsonMarshal = Except.ok
      { id := "e1", kind := "process", timestamp := 0, source := "x"
        data := [("action", Json.string "create"),
          ("labels", Json.object
            [("load", Json.number (NumberLit.float 4602678819172646912)),
             ("ok", Json.bool true)])] } ∧
    FromJSON jsonUnmarshal
      { id := "e1", kind := "process", timestamp := 0, source := "x"
        data := [("action", Json.string "create"),
          ("labels", Json.object
            [("load", Json.number (NumberLit.float 4602678819172646912)),
             ("ok", Json.bool true)])] } = (plainEvent, none) ∧
    unorderedEvent.ToJSON jsonMarshal = Except.ok
      { id := "e1", kind := "process", timestamp := 0, source := "x"
        data := [("action", Json.string "create"), ("risk_level", Json.string "high")] } ∧
    FromJSON jsonUnmarshal
      { id := "e1", kind := "process", timestamp := 0, source := "x"
        data := [("action", Json.string "create"), ("risk_level", Json.string "high")] } =
      (unorderedEvent.canon, none) ∧
    unorderedEvent.canon.Data =
      [("action", Value.str "create"), ("risk_level", Value.str "high")] :=
  ⟨rfl, rfl, rfl, rfl, rfl⟩

/-! ## The fan-in step -/

/-- The fan-in step once the case of the `select` is known. -/
theorem fanInStep_cases (queue : List Event) (cancelled : Bool) (pick : Nat) (event : Event) :
    ((fanInStep queue cancelled pick event).2 = SelectCase.send ∧
      (fanInStep queue cancelled pick event).1 = queue ++ [event] ∧
      queue.length < eventChanCapacity) ∨
    ((fanInStep queue cancelled pick event).2 = SelectCase.done ∧
      (fanInStep queue cancelled pick event).1 = queue ∧ cancelled = true) ∨
    ((fanInStep queue cancelled pick event).2 = SelectCase.default ∧
      (fanInStep queue cancelled pick event).1 = queue ∧
      ¬ queue.length < eventChanCapacity ∧ cancelled = false) := by
  unfold fanInStep selectCase readyCases
  by_cases hroom : queue.length < eventChanCapacity
  · cases cancelled with
    | false => left; simp [hroom]
    | true =>
      simp only [hroom, if_true, List.singleton_append, List.length_cons,
        List.length_singleton]
      rcases Nat.mod_two_eq_zero_or_one pick with h | h
      · left; simp [h, hroom]
      · right; left; simp [h]
  · cases cancelled with
    | false => right; right; simp [hroom]
    | true => right; left; simp [hroom]

/-- C19 (as stated, refuted): with an empty shared queue and a cancelled
context the `select` may take the case `<-ctx.Done()`: the event is not put on
the queue although it has room, and the task ends, so that the next event is
not put on it either. -/
theorem fanIn_cancelled_discards_with_room :
    ([] : List Event).length < 1000 ∧
    fanInStep [] true 1 sampleEvent = ([], SelectCase.done) ∧
    fanIn [(sampleEvent, { queue := [], cancelled := true, pick := 1 }),
           (textEvent, { queue := [], cancelled := false, pick := 0 })] = [] := by
  refine ⟨by decide, rfl, rfl⟩

/-- C19 (amended): in the fan-in step, for every event read from a collector:
while the context is not cancelled, the event is appended to the tail of the
shared queue when it holds fewer than 1000 events, and is discarded with the
queue left unchanged when it holds 1000; once the context is cancelled the step
may instead end the task, discarding the event: with a full queue it always
does, and with room it either appends the event or ends the task, both choices
of the `select` occurring. The step always takes a case at once, and the queue
changes only by the event appended. Hence the events a collector contributes to
the shared queue are a subsequence, in order, of the events it emitted. -/
theorem fanInStep_spec (queue : List Event) (cancelled : Bool) (pick : Nat) (event : Event) :
    (cancelled = false → queue.length < 1000 →
      fanInStep queue cancelled pick event = (queue ++ [event], SelectCase.send)) ∧
    (cancelled = false → queue.length ≥ 1000 →
      fanInStep queue cancelled pick event = (queue, SelectCase.default)) ∧
    (cancelled = true → queue.length ≥ 1000 →
      fanInStep queue cancelled pick event = (queue, SelectCase.done)) ∧
    (cancelled = true → queue.length < 1000 →
      fanInStep queue cancelled pick event = (queue ++ [event], SelectCase.send) ∨
      fanInStep queue cancelled pick event = (queue, SelectCase.done)) ∧
    (queue.length < 1000 →
      fanInStep queue true 0 event = (queue ++ [event], SelectCase.send) ∧
      fanInStep queue true 1 event = (queue, SelectCase.done)) ∧
    (queue.length ≥ 1000 →
      (fanInStep queue cancelled pick event).1 = queue ∧
      (fanInStep queue cancelled pick event).2 ≠ SelectCase.send) ∧
    ((fanInStep queue cancelled pick event).2 = SelectCase.done → cancelled = true) ∧
    ((fanInStep queue cancelled pick event).2 ≠ SelectCase.send →
      (fanInStep queue cancelled pick event).1 = queue) ∧
    (∀ steps : List (Event × FanInEnv), (fanIn steps).Sublist (steps.map Prod.fst)) := by
  have hcap : eventChanCapacity = 1000 := rfl
  have hc := fanInStep_cases queue cancelled pick event
  rw [hcap] at hc
  refine ⟨?_, ?_, ?_, ?_, ?_, ?_, ?_, ?_, ?_⟩
  · intro hnc hroom
    rcases hc with ⟨h2, h1, _⟩ | ⟨_, _, hcan⟩ | ⟨_, _, hfull, _⟩
    · exact Prod.ext h1 h2
    · rw [hnc] at hcan; exact absurd hcan (by decide)
    · exact absurd hroom hfull
  · intro hnc hfull
    rcases hc with ⟨_, _, hroom⟩ | ⟨_, _, hcan⟩ | ⟨h2, h1, _, _⟩
    · omega
    · rw [hnc] at hcan; exact absurd hcan (by decide)
    · exact Prod.ext h1 h2
  · intro hcan hfull
    rcases hc with ⟨_, _, hroom⟩ | ⟨h2, h1, _⟩ | ⟨_, _, _, hnc⟩
    · omega
    · exact Prod.ext h1 h2
    · rw [hcan] at hnc; exact absurd hnc (by decide)
  · intro hcan hroom
    rcases hc with ⟨h2, h1, _⟩ | ⟨h2, h1, _⟩ | ⟨_, _, hfull, _⟩
    · exact Or.inl (Prod.ext h1 h2)
    · exact Or.inr (Prod.ext h1 h2)
    · exact absurd hroom hfull
  · intro hroom
    have hroom2 : queue.length < eventChanCapacity := by rw [hcap]; exact hroom
    constructor
    · unfold fanInStep selectCase readyCases
      simp [hroom2]
    · unfold fanInStep selectCase readyCases
      simp [hroom2]
  · intro hfull
    rcases hc with ⟨_, _, hroom⟩ | ⟨h2, h1, _⟩ | ⟨h2, h1, _, _⟩
    · omega
    · exact ⟨h1, by rw [h2]; decide⟩
    · exact ⟨h1, by rw [h2]; decide⟩
  · intro hdone
    rcases hc with ⟨h2, _, _⟩ | ⟨_, _, hcan⟩ | ⟨h2, _, _, _⟩
    · rw [h2] at hdone; exact absurd hdone (by decide)
    · exact hcan
    · rw [h2] at hdone; exact absurd hdone (by decide)
  · intro hns
    rcases hc with ⟨h2, _, _⟩ | ⟨_, h1, _⟩ | ⟨_, h1, _, _⟩
    · exact absurd h2 hns
    · exact h1
    · exact h1
  · intro steps
    induction steps with
    | nil => exact List.Sublist.slnil
    | cons step rest ih =>
      obtain ⟨ev, env⟩ := step
      rw [fanIn, List.map_cons]
      cases (fanInStep env.queue env.cancelled env.pick ev).2 with
      | send => exact List.Sublist.cons₂ ev ih
      | done => exact List.nil_sublist _
      | default => exact List.Sublist.cons ev ih

/-- The fan-in step on a full queue of 1000 events, the context not cancelled:
the event is discarded and the queue is left as it was. -/
theorem fanInStep_full_example :
    fanInStep (List.replicate 1000 sampleEvent) false 0 textEvent =
      (List.replicate 1000 sampleEvent, SelectCase.default) :=
  (fanInStep_cases (List.replicate 1000 sampleEvent) false 0 textEvent).elim
    (fun h => absurd h.2.2 (by rw [List.length_replicate]; decide))
    (fun h => h.elim (fun h => absurd h.2.2 (by decide)) (fun h => Prod.ext h.2.1 h.1))


/-! ## The webhook sink above its threshold -/

/-- One `Handle` call on a buffer that the new result brings to the threshold or
beyond, the flush failing: the whole buffer, the new result included, is kept. -/
theorem Handle_failed_step (w : WebhookOutputHandler) (result : DetectionResult)
    (x : Exchange) (hfull : (w.batch.length : Int) + 1 ≥ w.batchSize)
    (hx : x.accepted = false) :
    (w.Handle result x).handler = { w with batch := w.batch ++ [result] } ∧
    ∃ err, (w.Handle result x).err = some err := by
  have hlen : ((w.batch ++ [result]).length : Int) ≥ w.batchSize := by
    rw [List.length_append, List.length_singleton]
    push_cast
    exact hfull
  unfold WebhookOutputHandler.Handle
  dsimp only
  rw [if_pos hlen]
  rcases sendBatch_cases { w with batch := w.batch ++ [result] } x (by simp) with
    ⟨hacc, _, _, _⟩ | ⟨_, herr, hh⟩
  · rw [hx] at hacc; exact absurd hacc (by decide)
  · exact ⟨hh, herr⟩

/-- One `Handle` call on a buffer that the new result brings to the threshold or
beyond, the flush accepted: the request carries the whole buffer, the new result
included, and the buffer is emptied. -/
theorem Handle_accepted_step (w : WebhookOutputHandler) (result : DetectionResult)
    (x : Exchange) (hfull : (w.batch.length : Int) + 1 ≥ w.batchSize)
    (hx : x.accepted = true) :
    (w.Handle result x).handler = { w with batch := [] } ∧
    (w.Handle result x).err = none ∧
    (w.Handle result x).post =
      some { url := w.url, alerts := w.batch ++ [result], count := w.batch.length + 1 } := by
  have hlen : ((w.batch ++ [result]).length : Int) ≥ w.batchSize := by
    rw [List.length_append, List.length_singleton]
    push_cast
    exact hfull
  unfold WebhookOutputHandler.Handle
  dsimp only
  rw [if_pos hlen]
  rcases sendBatch_cases { w with batch := w.batch ++ [result] } x (by simp) with
    ⟨_, herr, hh, hp⟩ | ⟨hacc, _, _⟩
  · refine ⟨hh, herr, ?_⟩
    rw [hp]
    simp
  · rw [hx] at hacc; exact absurd hacc (by decide)

/-- A run of `Handle` calls whose flushes all fail, from a buffer that the first
of them brings to the threshold or beyond: every result is kept, in call order. -/
theorem handleAll_failed (failed : List (DetectionResult × Exchange)) :
    ∀ log : WebhookLog, (log.handler.batch.length : Int) + 1 ≥ log.handler.batchSize →
      (∀ s ∈ failed, s.2.accepted = false) →
      (handleAll log failed).handler =
        { log.handler with batch := log.handler.batch ++ failed.map Prod.fst } := by
  induction failed with
  | nil => intro log _ _; simp [handleAll]
  | cons step rest ih =>
    intro log hfull hfail
    obtain ⟨result, x⟩ := step
    obtain ⟨hh, _⟩ := Handle_failed_step log.handler result x hfull
      (hfail (result, x) (List.mem_cons_self _ _))
    have hrec : (log.record (log.handler.Handle result x)).handler =
        { log.handler with batch := log.handler.batch ++ [result] } := hh
    rw [handleAll, ih _ (by
        rw [hrec]
        dsimp only
        rw [List.length_append, List.length_singleton]
        push_cast
        omega)
      (fun s hs => hfail s (List.mem_cons_of_mem _ hs)), hrec]
    simp

/-- C21: for a webhook sink with `batchSize ≥ 1`, whenever `Handle` returns no
error the buffer holds strictly fewer than `batchSize` results; and once the new
result brings the buffer to `batchSize` or beyond, `Handle` runs `sendBatch` on
the entire buffer, so that any request it hands to the HTTP client carries all
of it; hence after `k` consecutive failed flushes, counted from the call that
brought the buffer to `batchSize`, the next accepted POST carries the count
`batchSize + k` and all the results kept, in call order. -/
theorem webhook_count_after_failed_flushes (w : WebhookOutputHandler)
    (hsize : 1 ≤ w.batchSize) :
    (∀ (result : DetectionResult) (x : Exchange), (w.Handle result x).err = none →
      ((w.Handle result x).handler.batch.length : Int) < w.batchSize) ∧
    (∀ (result : DetectionResult) (x : Exchange),
      (w.batch.length : Int) + 1 ≥ w.batchSize →
      w.Handle result x =
        ({ w with batch := w.batch ++ [result] } : WebhookOutputHandler).sendBatch x ∧
      (∀ p, (w.Handle result x).post = some p →
        p.alerts = w.batch ++ [result] ∧ p.count = w.batch.length + 1) ∧
      (((∃ cause, x = Exchange.transportFailed cause) ∨
          (∃ status body, x = Exchange.response status body)) →
        ∃ p, (w.Handle result x).post = some p)) ∧
    (∀ (failed : List (DetectionResult × Exchange)) (result : DetectionResult) (x : Exchange),
      (w.batch.length : Int) + 1 = w.batchSize →
      (∀ s ∈ failed, s.2.accepted = false) → x.accepted = true →
      (handleAll { handler := w, posts := [] } failed).handler.batch =
        w.batch ++ failed.map Prod.fst ∧
      ∃ p, ((handleAll { handler := w, posts := [] } failed).handler.Handle result x).post =
          some p ∧
        (p.count : Int) = w.batchSize + failed.length ∧
        p.alerts = w.batch ++ failed.map Prod.fst ++ [result] ∧
        ((handleAll { handler := w, posts := [] } failed).handler.Handle result x).err = none ∧
        ((handleAll { handler := w, posts := [] } failed).handler.Handle result x).handler.batch
          = []) := by
  refine ⟨?_, ?_, ?_⟩
  · intro result x herr
    by_cases hfull : (w.batch.length : Int) + 1 ≥ w.batchSize
    · cases hx : x.accepted with
      | true =>
        rw [(Handle_accepted_step w result x hfull hx).1]
        simp only [List.length_nil, Nat.cast_zero]
        omega
      | false =>
        obtain ⟨_, err, he⟩ := Handle_failed_step w result x hfull hx
        rw [he] at herr
        exact absurd herr (by simp)
    · have hlen : ¬ ((w.batch ++ [result]).length : Int) ≥ w.batchSize := by
        rw [List.length_append, List.length_singleton]
        push_cast
        exact hfull
      unfold WebhookOutputHandler.Handle
      dsimp only
      rw [if_neg hlen]
      dsimp only
      rw [List.length_append, List.length_singleton]
      push_cast
      omega
  · intro result x hfull
    have hlen : ((w.batch ++ [result]).length : Int) ≥ w.batchSize := by
      rw [List.length_append, List.length_singleton]
      push_cast
      exact hfull
    have hsend : w.Handle result x =
        ({ w with batch := w.batch ++ [result] } : WebhookOutputHandler).sendBatch x := by
      unfold WebhookOutputHandler.Handle
      dsimp only
      rw [if_pos hlen]
    have hne : ¬ (w.batch ++ [result]).length = 0 := by simp
    refine ⟨hsend, ?_, ?_⟩
    · intro p hp
      rw [hsend] at hp
      unfold WebhookOutputHandler.sendBatch at hp
      rw [if_neg hne] at hp
      cases x with
      | marshalFailed cause => simp at hp
      | requestFailed cause => simp at hp
      | transportFailed cause =>
        have := Option.some.inj hp
        subst this
        exact ⟨rfl, by simp⟩
      | response status body =>
        dsimp only at hp
        split_ifs at hp
        · have := Option.some.inj hp
          subst this
          exact ⟨rfl, by simp⟩
        · have := Option.some.inj hp
          subst this
          exact ⟨rfl, by simp⟩
    · intro hx
      rw [hsend]
      unfold WebhookOutputHandler.sendBatch
      rw [if_neg hne]
      rcases hx with ⟨cause, rfl⟩ | ⟨status, body, rfl⟩
      · exact ⟨_, rfl⟩
      · dsimp only
        split_ifs
        · exact ⟨_, rfl⟩
        · exact ⟨_, rfl⟩
  · intro failed result x hlen hfail hx
    have hkept := handleAll_failed failed { handler := w, posts := [] }
      (by dsimp only; omega) hfail
    dsimp only at hkept
    rw [hkept]
    dsimp only
    refine ⟨rfl, ?_⟩
    have hfull : ((w.batch ++ failed.map Prod.fst).length : Int) + 1 ≥ w.batchSize := by
      rw [List.length_append, List.length_map]
      push_cast
      omega
    obtain ⟨hh, herr, hp⟩ := Handle_accepted_step
      { w with batch := w.batch ++ failed.map Prod.fst } result x hfull hx
    refine ⟨_, hp, ?_, rfl, herr, ?_⟩
    · dsimp only
      rw [List.length_append, List.length_map]
      push_cast
      omega
    · rw [hh]

/-- C21 on a sink of threshold 2 holding one result: the flush of the second
result is rejected, and the accepted flush of the third carries the count 3. -/
theorem webhook_count_after_failed_flushes_witness :
    ∃ p, ((handleAll
        { handler := { url := "http://hook", headers := [], batchSize := 2
                       batch := [sampleResult "a"] }
          posts := [] }
        [(sampleResult "b", Exchange.response 503 "busy")]).handler.Handle
          (sampleResult "c") (Exchange.response 200 "")).post = some p ∧
      (p.count : Int) = 2 + ([(sampleResult "b", Exchange.response 503 "busy")] :
        List (DetectionResult × Exchange)).length := by
  obtain ⟨_, p, hp, hcount, _⟩ :=
    (webhook_count_after_failed_flushes
      { url := "http://hook", headers := [], batchSize := 2, batch := [sampleResult "a"] }
      (by decide)).2.2
      [(sampleResult "b", Exchange.response 503 "busy")] (sampleResult "c")
      (Exchange.response 200 "") (by decide)
      (by
        intro s hs
        rw [List.mem_singleton.mp hs]
        decide)
      (by decide)
  exact ⟨p, hp, hcount⟩

/-! ## Address parsing -/

/-- The address parser on a few texts: a loopback address with port 22, lower
case digits, an empty port, no colon, two colons, the empty text, an IPv6 word,
a port beyond 32 bits, and a word and a port that are not hexadecimal. -/
theorem parseAddress_examples :
    parseAddress "0100007F:0016" = some ("127.0.0.1", 22) ∧
    parseAddress "0a01a8c0:1f90" = some ("192.168.1.10", 8080) ∧
    parseAddress "0100007F:" = some ("127.0.0.1", 0) ∧
    parseAddress "0100007F" = some ("", 0) ∧
    parseAddress "01:00:7F" = some ("", 0) ∧
    parseAddress "" = some ("", 0) ∧
    parseAddress "00000000000000000000000001000000:0050" =
      some ("IPv6:00000000000000000000000001000000", 80) ∧
    parseAddress "0100007F:FFFFFFFFF" = some ("127.0.0.1", 2147483647) ∧
    parseAddress "0100007G:-10" = some ("0.0.0.1", -16) := by
  decide

/-- A text without the separator is a single part. -/
theorem splitChar_of_not_mem (sep : Char) (s : List Char) (h : sep ∉ s) :
    splitChar sep s = [s] := by
  induction s with
  | nil => rfl
  | cons c rest ih =>
    have hc : ¬ c = sep := fun hc => h (hc ▸ List.mem_cons_self c rest)
    have hrest : sep ∉ rest := fun hr => h (List.mem_cons_of_mem c hr)
    rw [splitChar, if_neg hc, ih hrest]

/-- Two texts without the separator, joined by it, are split into the two. -/
theorem splitChar_pair (sep : Char) (a b : List Char) (ha : sep ∉ a) (hb : sep ∉ b) :
    splitChar sep (a ++ sep :: b) = [a, b] := by
  induction a with
  | nil =>
    rw [List.nil_append, splitChar, if_pos rfl, splitChar_of_not_mem sep b hb]
  | cons c rest ih =>
    have hc : ¬ c = sep := fun hc => ha (hc ▸ List.mem_cons_self c rest)
    have hrest : sep ∉ rest := fun hr => ha (List.mem_cons_of_mem c hr)
    rw [List.cons_append, splitChar, if_neg hc, ih hrest]

/-- The number of parts is one more than the number of separators. -/
theorem splitChar_length (sep : Char) (s : List Char) :
    (splitChar sep s).length = s.count sep + 1 := by
  induction s with
  | nil => rfl
  | cons c rest ih =>
    rw [splitChar]
    by_cases hc : c = sep
    · rw [if_pos hc, List.length_cons, ih, hc, List.count_cons_self]
    · rw [if_neg hc]
      have hcount : (c :: rest).count sep = rest.count sep := by
        rw [List.count_cons]
        simp [hc]
      rw [hcount, ← ih]
      cases hsplit : splitChar sep rest with
      | nil => rw [hsplit] at ih; simp at ih
      | cons part parts => rfl

/-- A hexadecimal digit is a character of the text `0123456789abcdefABCDEF`. -/
theorem isHexDigit_mem (c : Char) (h : isHexDigit c = true) :
    c ∈ "0123456789abcdefABCDEF".data := by
  unfold isHexDigit at h
  simpa using h

/-- On a hexadecimal digit the digit of `strconv.ParseUint` is the value of the
digit, below 16; and such a digit is neither a colon nor a sign. -/
theorem digitOf_hex (c : Char) (h : isHexDigit c = true) :
    digitOf c = some (hexDigitValue c) ∧ hexDigitValue c < 16 ∧
    c ≠ ':' ∧ c ≠ '+' ∧ c ≠ '-' := by
  have hall : ∀ d ∈ "0123456789abcdefABCDEF".data,
      digitOf d = some (hexDigitValue d) ∧ hexDigitValue d < 16 ∧
      d ≠ ':' ∧ d ≠ '+' ∧ d ≠ '-' := by
    decide
  exact hall c (isHexDigit_mem c h)

/-- The number denoted by a first digit and the digits after it. -/
theorem hexValue_cons (c : Char) (rest : List Char) :
    hexValue (c :: rest) = hexDigitValue c * 16 ^ rest.length + hexValue rest := by
  unfold hexValue
  rw [List.reverse_cons, List.map_append, Nat.ofDigits_append]
  simp [Nat.ofDigits, Nat.add_comm, Nat.mul_comm]

/-- The number denoted by `k` hexadecimal digits is below `16 ^ k`. -/
theorem hexValue_lt (digits : List Char) (h : ∀ c ∈ digits, isHexDigit c = true) :
    hexValue digits < 16 ^ digits.length := by
  induction digits with
  | nil => simp [hexValue]
  | cons c rest ih =>
    have hc := (digitOf_hex c (h c (List.mem_cons_self _ _))).2.1
    have hrest := ih (fun x hx => h x (List.mem_cons_of_mem _ hx))
    rw [hexValue_cons, List.length_cons, pow_succ]
    nlinarith

/-- The loop of `strconv.ParseUint` on hexadecimal digits whose value stays
within 32 bits: it reads them all and returns the number they denote. -/
theorem parseUintLoop_hex (digits : List Char) :
    ∀ n : Nat, (∀ c ∈ digits, isHexDigit c = true) →
      (n + 1) * 16 ^ digits.length ≤ 4294967296 →
      parseUintLoop digits n = Except.ok (n * 16 ^ digits.length + hexValue digits) := by
  induction digits with
  | nil => intro n _ _; simp [parseUintLoop, hexValue]
  | cons c rest ih =>
    intro n hhex hbound
    obtain ⟨hd, hlt, _⟩ := digitOf_hex c (hhex c (List.mem_cons_self _ _))
    have hpos : 0 < 16 ^ rest.length := by positivity
    rw [List.length_cons, pow_succ] at hbound
    have h1 : ¬ hexDigitValue c ≥ 16 := by omega
    have hn : n * 16 + hexDigitValue c + 1 ≤ (n + 1) * 16 := by omega
    have hstep : (n * 16 + hexDigitValue c + 1) * 16 ^ rest.length ≤ 4294967296 :=
      calc (n * 16 + hexDigitValue c + 1) * 16 ^ rest.length
          ≤ ((n + 1) * 16) * 16 ^ rest.length := Nat.mul_le_mul_right _ hn
        _ = (n + 1) * (16 ^ rest.length * 16) := by ring
        _ ≤ 4294967296 := hbound
    have hsmall : n * 16 + hexDigitValue c + 1 ≤ 4294967296 :=
      le_trans (Nat.le_mul_of_pos_right _ hpos) hstep
    have h2 : ¬ n ≥ 1152921504606846976 := by omega
    have h3 : ¬ n * 16 + hexDigitValue c > 4294967295 := by omega
    rw [parseUintLoop, hd]
    dsimp only
    rw [if_neg h1, if_neg h2, if_neg h3,
      ih (n * 16 + hexDigitValue c) (fun x hx => hhex x (List.mem_cons_of_mem _ hx)) hstep,
      hexValue_cons, List.length_cons, pow_succ]
    congr 1
    ring

/-- The call `strconv.ParseInt(s, 16, 32)` on at most seven hexadecimal digits
returns the number they denote, which is 0 for no digit. -/
theorem parseInt16_hex (digits : List Char) (hhex : ∀ c ∈ digits, isHexDigit c = true)
    (hlen : digits.length ≤ 7) : (parseInt16 digits).1 = (hexValue digits : Int) := by
  cases digits with
  | nil => simp [parseInt16, hexValue]
  | cons c rest =>
    obtain ⟨_, _, _, hplus, hminus⟩ := digitOf_hex c (hhex c (List.mem_cons_self _ _))
    have hpow : 16 ^ (c :: rest).length ≤ 268435456 :=
      calc 16 ^ (c :: rest).length ≤ 16 ^ 7 := Nat.pow_le_pow_right (by decide) hlen
        _ = 268435456 := by norm_num
    have hloop := parseUintLoop_hex (c :: rest) 0 hhex (by omega)
    have hval := hexValue_lt (c :: rest) hhex
    have hsign : ¬ (c = '+' ∨ c = '-') := fun h => h.elim hplus hminus
    have hneg : decide (c = '-') = false := by simp [hminus]
    have hun : parseUint16 (c :: rest) = (hexValue (c :: rest), none) := by
      unfold parseUint16
      rw [if_neg (by simp), hloop]
      simp
    unfold parseInt16
    dsimp only
    rw [if_neg hsign, hun, hneg]
    have hsmall : ¬ hexValue (c :: rest) ≥ 2147483648 := by omega
    simp [hsmall]

/-- The number two hexadecimal digits denote. -/
theorem hexValue_pair (a b : Char) :
    hexValue [a, b] = 16 * hexDigitValue a + hexDigitValue b := by
  rw [hexValue_cons, hexValue_cons]
  simp [hexValue, Nat.mul_comm]

/-- The loop of `parseIPv4` on a word of eight characters never leaves the word. -/
theorem parseIPv4Loop_isSome (hex : List Char) (h : hex.length = 8) :
    ∃ parts, parseIPv4Loop hex [6, 4, 2, 0] [] = some parts := by
  have hs : ∀ i, i + 2 ≤ 8 → sliceRange hex i (i + 2) = some ((hex.take (i + 2)).drop i) := by
    intro i hi
    unfold sliceRange
    rw [if_pos ⟨Nat.le_add_right i 2, by omega⟩]
  simp only [parseIPv4Loop, hs 6 (by decide), hs 4 (by decide), hs 2 (by decide),
    hs 0 (by decide)]
  exact ⟨_, rfl⟩

/-- The method `parseAddress` never faults. -/
theorem parseAddress_isSome (addr : String) : ∃ r, parseAddress addr = some r := by
  unfold parseAddress
  dsimp only
  by_cases hlen : (splitChar ':' addr.data).length ≠ 2
  · rw [if_pos hlen]
    exact ⟨_, rfl⟩
  · rw [if_neg hlen]
    have h2 : (splitChar ':' addr.data).length = 2 := not_not.mp hlen
    obtain ⟨ipHex, portHex, hparts⟩ := List.length_eq_two.mp h2
    rw [hparts]
    simp only [List.getElem?_cons_zero, List.getElem?_cons_succ]
    by_cases h8 : ipHex.length = 8
    · rw [if_pos h8]
      obtain ⟨parts, hp⟩ := parseIPv4Loop_isSome ipHex h8
      have hip : parseIPv4 (String.mk ipHex) = some (String.intercalate "." parts) := by
        unfold parseIPv4
        rw [if_neg (by simpa using h8), hp]
        rfl
      rw [hip]
      exact ⟨_, rfl⟩
    · rw [if_neg h8]
      exact ⟨_, rfl⟩

/-- C22: for every address made of eight hexadecimal digits, a colon and a
hexadecimal port of at most four digits, `parseAddress` returns the dotted quad
whose four decimal octets are the four bytes of the hex word in reverse order,
together with the number the port denotes; for every text that does not hold
exactly one colon it returns the empty text and 0; and it never faults on an
index out of range. -/
theorem parseAddress_spec :
    (∀ (h0 h1 h2 h3 h4 h5 h6 h7 : Char) (port : List Char),
      (∀ c ∈ [h0, h1, h2, h3, h4, h5, h6, h7], isHexDigit c = true) →
      port.length ≤ 4 → (∀ c ∈ port, isHexDigit c = true) →
      parseAddress (String.mk ([h0, h1, h2, h3, h4, h5, h6, h7] ++ ':' :: port)) =
        some
          (String.intercalate "."
            [toString (16 * hexDigitValue h6 + hexDigitValue h7),
             toString (16 * hexDigitValue h4 + hexDigitValue h5),
             toString (16 * hexDigitValue h2 + hexDigitValue h3),
             toString (16 * hexDigitValue h0 + hexDigitValue h1)],
           (hexValue port : Int)) ∧
      16 * hexDigitValue h6 + hexDigitValue h7 < 256 ∧
      16 * hexDigitValue h4 + hexDigitValue h5 < 256 ∧
      16 * hexDigitValue h2 + hexDigitValue h3 < 256 ∧
      16 * hexDigitValue h0 + hexDigitValue h1 < 256 ∧
      hexValue port < 65536) ∧
    (∀ addr : String, addr.data.count ':' ≠ 1 → parseAddress addr = some ("", 0)) ∧
    (∀ addr : String, parseAddress addr ≠ none) := by
  refine ⟨?_, ?_, ?_⟩
  · intro h0 h1 h2 h3 h4 h5 h6 h7 port hip hlen hport
    have hmem : ∀ c, c ∈ [h0, h1, h2, h3, h4, h5, h6, h7] → isHexDigit c = true := hip
    have hx : ∀ c, c ∈ [h0, h1, h2, h3, h4, h5, h6, h7] → hexDigitValue c < 16 :=
      fun c hc => (digitOf_hex c (hmem c hc)).2.1
    have hnocolon : ':' ∉ [h0, h1, h2, h3, h4, h5, h6, h7] :=
      fun hin => (digitOf_hex ':' (hmem ':' hin)).2.2.1 rfl
    have hportcolon : ':' ∉ port :=
      fun hin => (digitOf_hex ':' (hport ':' hin)).2.2.1 rfl
    have hpair : ∀ a b, a ∈ [h0, h1, h2, h3, h4, h5, h6, h7] →
        b ∈ [h0, h1, h2, h3, h4, h5, h6, h7] →
        Itoa (parseInt16 [a, b]).1 = toString (16 * hexDigitValue a + hexDigitValue b) := by
      intro a b ha hb
      have hab : ∀ c ∈ [a, b], isHexDigit c = true := by
        intro c hc
        rcases List.mem_cons.mp hc with h | h
        · rw [h]; exact hmem a ha
        · rw [List.mem_singleton.mp h]; exact hmem b hb
      rw [parseInt16_hex [a, b] hab (Nat.le_of_ble_eq_true rfl), hexValue_pair]
      rfl
    have hportval : hexValue port < 65536 :=
      calc hexValue port < 16 ^ port.length := hexValue_lt port hport
        _ ≤ 16 ^ 4 := Nat.pow_le_pow_right (by decide) hlen
        _ = 65536 := by norm_num
    have b67 := hx h6 (by simp)
    have b7 := hx h7 (by simp)
    have b4 := hx h4 (by simp)
    have b5 := hx h5 (by simp)
    have b2 := hx h2 (by simp)
    have b3 := hx h3 (by simp)
    have b0 := hx h0 (by simp)
    have b1 := hx h1 (by simp)
    refine ⟨?_, by omega, by omega, by omega, by omega, hportval⟩
    have hip4 : parseIPv4 (String.mk [h0, h1, h2, h3, h4, h5, h6, h7]) =
        some (String.intercalate "."
          [toString (16 * hexDigitValue h6 + hexDigitValue h7),
           toString (16 * hexDigitValue h4 + hexDigitValue h5),
           toString (16 * hexDigitValue h2 + hexDigitValue h3),
           toString (16 * hexDigitValue h0 + hexDigitValue h1)]) := by
      have s6 : sliceRange [h0, h1, h2, h3, h4, h5, h6, h7] 6 (6 + 2) = some [h6, h7] := rfl
      have s4 : sliceRange [h0, h1, h2, h3, h4, h5, h6, h7] 4 (4 + 2) = some [h4, h5] := rfl
      have s2 : sliceRange [h0, h1, h2, h3, h4, h5, h6, h7] 2 (2 + 2) = some [h2, h3] := rfl
      have s0 : sliceRange [h0, h1, h2, h3, h4, h5, h6, h7] 0 (0 + 2) = some [h0, h1] := rfl
      unfold parseIPv4
      rw [if_neg (by simp)]
      simp only [parseIPv4Loop, s6, s4, s2, s0, List.nil_append, List.cons_append,
        hpair h6 h7 (by simp) (by simp), hpair h4 h5 (by simp) (by simp),
        hpair h2 h3 (by simp) (by simp), hpair h0 h1 (by simp) (by simp), Option.map_some']
    unfold parseAddress
    dsimp only
    rw [splitChar_pair ':' _ port hnocolon hportcolon]
    rw [if_neg (by simp)]
    simp only [List.getElem?_cons_zero, List.getElem?_cons_succ]
    rw [if_pos (by simp), hip4]
    dsimp only
    rw [parseInt16_hex port hport (by omega)]
  · intro addr hcount
    unfold parseAddress
    dsimp only
    have hlen : (splitChar ':' addr.data).length ≠ 2 := by
      rw [splitChar_length]
      omega
    rw [if_pos hlen]
  · intro addr
    obtain ⟨r, hr⟩ := parseAddress_isSome addr
    rw [hr]
    simp

/-- C22 at the address `0100007F:0016`: the loopback address and port 22. -/
theorem parseAddress_spec_witness :
    parseAddress "0100007F:0016" = some ("127.0.0.1", 22) :=
  (parseAddress_spec.1 '0' '1' '0' '0' '0' '0' '7' 'F' ['0', '0', '1', '6']
    (by decide) (by decide) (by decide)).1


end WasmSentinel
